import Mathlib

/-!
# mpfr.NET `BigDecimal` : value-semantics and lifecycle layer

Shallow embedding of `src/mpfrNET/BigDecimal.h`.  A `BigDecimal` is a managed
object holding an `int` precision, a pointer to an engine number (`mpfr_t`) that
is allocated on first use, and a disposal flag.  Managed objects live in a heap
indexed by references; every method is a function on the `World`.
-/

namespace MpfrNET

set_option maxRecDepth 20000

/-! ## Machine integers -/

/-- Conversion of an unsigned 64-bit quantity to a signed 32-bit one (C++ narrowing
conversion, two's complement): used for `int` fields and for `long` arguments, among
them the engine's precision type `mpfr_prec_t` ( `long` is 32 bits wide under the
C++/CLI compiler). -/
def toLong (n : Nat) : Int :=
  if n % 4294967296 < 2147483648 then ((n % 4294967296 : Nat) : Int)
  else ((n % 4294967296 : Nat) : Int) - 4294967296

/-- Conversion of a signed integer to `UInt64` (sign extension, modulo `2^64`). -/
def toUInt64 (i : Int) : Nat := (i % 18446744073709551616).toNat

/-- Conversion of a signed 64-bit quantity to `long` (32 bits, two's complement). -/
def longOfInt64 (v : Int) : Int := toLong (toUInt64 v)

/-- Conversion of an unsigned 64-bit quantity to `unsigned long` (32 bits). -/
def toULong (n : Nat) : Nat := n % 4294967296

/-- The type `int` : a 32-bit signed integer. -/
structure Int32 where
  val : Int
  lo : -2147483648 ≤ val
  hi : val < 2147483648

/-- Narrowing store of a `UInt64` into an `int` field. -/
def toInt32 (n : Nat) : Int32 :=
  ⟨toLong n, by unfold toLong; split <;> omega, by unfold toLong; split <;> omega⟩

/-! ## The engine (MPFR), an external collaborator -/

/-- Modelled from the spec: `Rounding.h` is not part of the sources; the Rounding
Directive is the closed enumeration of the engine's rounding modes (nearest ties
to even, toward zero, toward plus infinity, toward minus infinity, away from zero). -/
inductive Rounding
  | NearestTiesToEven
  | TowardZero
  | TowardPositiveInfinity
  | TowardNegativeInfinity
  | AwayFromZero
  deriving DecidableEq, Repr

/-- Modelled from the spec: the numeric content of an engine number (`mpfr.h` is
not part of the sources).  A regular number is `(-1)^neg * m * 2^e` with `m` odd. -/
inductive MpfrVal
  | nan
  | inf (neg : Bool)
  | zero (neg : Bool)
  | num (neg : Bool) (m : Nat) (e : Int)
  deriving DecidableEq, Repr

/-- Modelled from the spec: the engine's numeric kernels (`mpfr.h` is not part of
the sources).  Every kernel receives the precision of the destination number
first; the rounding kernels receive the Rounding Directive. -/
structure Engine where
  /-- The function `mpfr_set_si(rop, v, MPFR_RNDN)` . -/
  set_si : Int → Int → MpfrVal
  /-- The function `mpfr_set_ui(rop, v, MPFR_RNDN)` . -/
  set_ui : Int → Nat → MpfrVal
  /-- The function `mpfr_set(rop, op, rnd)` . -/
  set : Rounding → Int → MpfrVal → MpfrVal
  /-- The function `mpfr_neg(rop, op, rnd)` . -/
  neg : Rounding → Int → MpfrVal → MpfrVal
  /-- The function `mpfr_add(rop, op1, op2, rnd)` . -/
  add : Rounding → Int → MpfrVal → MpfrVal → MpfrVal
  /-- The function `mpfr_sub(rop, op1, op2, rnd)` . -/
  sub : Rounding → Int → MpfrVal → MpfrVal → MpfrVal
  /-- The function `mpfr_mul(rop, op1, op2, rnd)` . -/
  mul : Rounding → Int → MpfrVal → MpfrVal → MpfrVal
  /-- The function `mpfr_div(rop, op1, op2, rnd)` . -/
  div : Rounding → Int → MpfrVal → MpfrVal → MpfrVal
  /-- The function `mpfr_frac(rop, op, rnd)` . -/
  frac : Rounding → Int → MpfrVal → MpfrVal
  /-- The function `mpfr_modf(iop, fop, op, rnd)` : the integral part at the
  precision of `iop` and the fractional part at the precision of `fop`. -/
  modf : Rounding → Int → Int → MpfrVal → MpfrVal × MpfrVal
  /-- The function `mpfr_set_str(rop, s, base, MPFR_RNDN)` : from the precision and
  the former value of `rop` , the string and the base, the return code ( `0` when the
  whole string is a numeral in the base, `-1` otherwise) and the value left in `rop` . -/
  set_str : Int → MpfrVal → String → Int → Int × MpfrVal
  /-- The function `mpfr_pow_si(rop, op1, op2, rnd)` , `op2` a `long` . -/
  pow_si : Rounding → Int → MpfrVal → Int → MpfrVal
  /-- The function `mpfr_dim(rop, op1, op2, rnd)` . -/
  dim : Rounding → Int → MpfrVal → MpfrVal → MpfrVal
  /-- The function `mpfr_ceil(rop, op)` . -/
  ceil : Int → MpfrVal → MpfrVal
  /-- The function `mpfr_get_si(op, rnd)` , which returns a `long` . -/
  get_si : Rounding → MpfrVal → Int
  /-- The function `mpfr_get_ui(op, rnd)` , which returns an `unsigned long` . -/
  get_ui : Rounding → MpfrVal → Nat

/-! ### A reference engine

Exact arithmetic on dyadic numbers followed by one correct rounding to the
destination precision, as the engine's documentation prescribes.  The exponent
range is taken unbounded. -/

/-- Floor of the binary logarithm of `n` (zero for `n < 2`), by at most `fuel`
halvings. -/
def log2F : Nat → Nat → Nat
  | 0, _ => 0
  | fuel + 1, n => if n < 2 then 0 else log2F fuel (n / 2) + 1

/-- Floor of the binary logarithm of `n` . -/
def ilog2 (n : Nat) : Nat := log2F n n

/-- Division of `m` by the largest power of two dividing it (at most `fuel`
halvings), the exponent raised accordingly. -/
def stripTwos : Nat → Nat → Int → Nat × Int
  | 0, m, e => (m, e)
  | fuel + 1, m, e => if m % 2 = 0 ∧ m ≠ 0 then stripTwos fuel (m / 2) (e + 1) else (m, e)

/-- The regular number `(-1)^neg * m * 2^e` in canonical form (`m` odd), or the
zero of that sign when `m = 0`. -/
def mkNum (neg : Bool) (m : Nat) (e : Int) : MpfrVal :=
  if m = 0 then .zero neg
  else let r := stripTwos (ilog2 m + 1) m e; .num neg r.1 r.2

/-- Whether the magnitude `q + r/d` (with `0 < r < d`), of sign `neg`, is rounded
up in magnitude to `q + 1` under the directive. -/
def roundsUp (rnd : Rounding) (neg : Bool) (q r d : Nat) : Bool :=
  match rnd with
  | .NearestTiesToEven => decide (d < 2 * r) || (decide (2 * r = d) && decide (q % 2 = 1))
  | .TowardZero => false
  | .TowardPositiveInfinity => !neg
  | .TowardNegativeInfinity => neg
  | .AwayFromZero => true

/-- Correct rounding of the rational `(-1)^neg * n / d` (with `d > 0`) to `prec`
significant bits. -/
def roundRat (rnd : Rounding) (prec : Int) (neg : Bool) (n d : Nat) : MpfrVal :=
  if prec ≤ 0 ∨ d = 0 then .nan
  else if n = 0 then .zero neg
  else
    let p : Int := prec
    -- `l0` is within one of the floor of the binary logarithm of `n / d`
    let l0 : Int := (ilog2 n : Int) - (ilog2 d : Int)
    let ge : Bool := if 0 ≤ l0 then decide (d * 2 ^ l0.toNat ≤ n) else decide (d ≤ n * 2 ^ (-l0).toNat)
    let l : Int := if ge then l0 else l0 - 1
    -- scale so that the integer quotient has exactly `prec` bits
    let k : Int := p - 1 - l
    let nn : Nat := if 0 ≤ k then n * 2 ^ k.toNat else n
    let dd : Nat := if 0 ≤ k then d else d * 2 ^ (-k).toNat
    let q := nn / dd
    let r := nn % dd
    let q1 := if r ≠ 0 ∧ roundsUp rnd neg q r dd = true then q + 1 else q
    mkNum neg q1 (-k)

/-- The rational `(numerator, denominator)` denoted by a regular number or a zero. -/
def toRat (neg : Bool) (m : Nat) (e : Int) : Int × Nat :=
  let n : Nat := if 0 ≤ e then m * 2 ^ e.toNat else m
  let d : Nat := if 0 ≤ e then 1 else 2 ^ (-e).toNat
  (if neg then -(n : Int) else (n : Int), d)

/-- Correct rounding of the signed rational `n / d`; an exact zero takes the sign
`zneg`. -/
def roundSigned (rnd : Rounding) (prec : Int) (n : Int) (d : Nat) (zneg : Bool) : MpfrVal :=
  if n = 0 then (if prec ≤ 0 then .nan else .zero zneg)
  else roundRat rnd prec (decide (n < 0)) n.natAbs d

/-- Modelled from the spec: the engine's `mpfr_set` ( `mpfr.h` is not part of the
sources): the operand rounded to the destination precision. -/
def refSet (rnd : Rounding) (prec : Int) : MpfrVal → MpfrVal
  | .num s m e => roundSigned rnd prec (toRat s m e).1 (toRat s m e).2 s
  | v => v

/-- Reference `mpfr_set_si` (the engine rounds to nearest). -/
def refSetSi (prec : Int) (v : Int) : MpfrVal :=
  roundSigned .NearestTiesToEven prec v 1 false

/-- Reference `mpfr_set_ui` (the engine rounds to nearest). -/
def refSetUi (prec : Int) (v : Nat) : MpfrVal :=
  roundSigned .NearestTiesToEven prec (v : Int) 1 false

/-- Modelled from the spec: the engine's `mpfr_neg` ( `mpfr.h` is not part of the
sources): the sign is flipped, then the result is rounded to the destination
precision. -/
def refNeg (rnd : Rounding) (prec : Int) : MpfrVal → MpfrVal
  | .nan => .nan
  | .inf s => .inf (!s)
  | .zero s => .zero (!s)
  | .num s m e => refSet rnd prec (.num (!s) m e)

/-- Reference `mpfr_add` . -/
def refAdd (rnd : Rounding) (prec : Int) : MpfrVal → MpfrVal → MpfrVal
  | .nan, _ => .nan
  | _, .nan => .nan
  | .inf s, .inf t => if s = t then .inf s else .nan
  | .inf s, _ => .inf s
  | _, .inf t => .inf t
  | .zero s, .zero t =>
      if s = t then .zero s else .zero (decide (rnd = .TowardNegativeInfinity))
  | .zero _, .num t m e => refSet rnd prec (.num t m e)
  | .num s m e, .zero _ => refSet rnd prec (.num s m e)
  | .num s m e, .num t m2 e2 =>
      let a := toRat s m e
      let b := toRat t m2 e2
      roundSigned rnd prec (a.1 * b.2 + b.1 * a.2) (a.2 * b.2)
        (decide (rnd = .TowardNegativeInfinity))

/-- Reference `mpfr_sub` : addition of the negated second operand. -/
def refSub (rnd : Rounding) (prec : Int) (a b : MpfrVal) : MpfrVal :=
  match b with
  | .nan => .nan
  | .inf t => refAdd rnd prec a (.inf (!t))
  | .zero t => refAdd rnd prec a (.zero (!t))
  | .num t m e => refAdd rnd prec a (.num (!t) m e)

/-- Reference `mpfr_mul` . -/
def refMul (rnd : Rounding) (prec : Int) : MpfrVal → MpfrVal → MpfrVal
  | .nan, _ => .nan
  | _, .nan => .nan
  | .inf _, .zero _ => .nan
  | .zero _, .inf _ => .nan
  | .inf s, .inf t => .inf (s != t)
  | .inf s, .num t _ _ => .inf (s != t)
  | .num s _ _, .inf t => .inf (s != t)
  | .zero s, .zero t => .zero (s != t)
  | .zero s, .num t _ _ => .zero (s != t)
  | .num s _ _, .zero t => .zero (s != t)
  | .num s m e, .num t m2 e2 =>
      let a := toRat s m e
      let b := toRat t m2 e2
      roundSigned rnd prec (a.1 * b.1) (a.2 * b.2) (s != t)

/-- Reference `mpfr_div` . -/
def refDiv (rnd : Rounding) (prec : Int) : MpfrVal → MpfrVal → MpfrVal
  | .nan, _ => .nan
  | _, .nan => .nan
  | .inf _, .inf _ => .nan
  | .zero _, .zero _ => .nan
  | .inf s, .zero t => .inf (s != t)
  | .inf s, .num t _ _ => .inf (s != t)
  | .zero s, .inf t => .zero (s != t)
  | .num s _ _, .inf t => .zero (s != t)
  | .zero s, .num t _ _ => .zero (s != t)
  | .num s _ _, .zero t => .inf (s != t)
  | .num s m e, .num t m2 e2 =>
      let a := toRat s m e
      let b := toRat t m2 e2
      roundRat rnd prec (s != t) (a.1.natAbs * b.2) (a.2 * b.1.natAbs)

/-- The integral part (toward zero) of a regular number, as a signed integer. -/
def truncPart (s : Bool) (m : Nat) (e : Int) : Int :=
  let a := toRat s m e
  if s then -((a.1.natAbs / a.2 : Nat) : Int) else ((a.1.natAbs / a.2 : Nat) : Int)

/-- Reference `mpfr_frac` : the fractional part, with the sign of the operand; a
zero of that sign for an integer or an infinity. -/
def refFrac (rnd : Rounding) (prec : Int) : MpfrVal → MpfrVal
  | .nan => .nan
  | .inf s => .zero s
  | .zero s => .zero s
  | .num s m e =>
      let a := toRat s m e
      roundSigned rnd prec (a.1 - truncPart s m e * a.2) a.2 s

/-- Reference `mpfr_modf` : integral part and fractional part, each with the sign
of the operand. -/
def refModf (rnd : Rounding) (iprec fprec : Int) : MpfrVal → MpfrVal × MpfrVal
  | .nan => (.nan, .nan)
  | .inf s => (.inf s, .zero s)
  | .zero s => (.zero s, .zero s)
  | .num s m e => (roundSigned rnd iprec (truncPart s m e) 1 s, refFrac rnd fprec (.num s m e))

/-- The value of a character as a digit, letters standing for ten to thirty-five
in either case. -/
def digitVal (c : Char) : Option Nat :=
  if 48 ≤ c.toNat ∧ c.toNat ≤ 57 then some (c.toNat - 48)
  else if 97 ≤ c.toNat ∧ c.toNat ≤ 122 then some (c.toNat - 87)
  else if 65 ≤ c.toNat ∧ c.toNat ≤ 90 then some (c.toNat - 55)
  else none

/-- The leading digits of `cs` in base `b` : the number they extend `acc` to, how many
they are, and the characters after them. -/
def takeDigits (b : Nat) : List Char → Nat → Nat → Nat × Nat × List Char
  | [], acc, k => (acc, k, [])
  | c :: cs, acc, k =>
      match digitVal c with
      | some d => if d < b then takeDigits b cs (acc * b + d) (k + 1) else (acc, k, c :: cs)
      | none => (acc, k, c :: cs)

/-- An optional sign: whether it is a minus, and the characters after it. -/
def takeSign : List Char → Bool × List Char
  | '-' :: cs => (true, cs)
  | '+' :: cs => (false, cs)
  | cs => (false, cs)

/-- An optional exponent, introduced by `@` , or by `e` or `E` in a base up to ten,
followed by an optional sign and at least one decimal digit: the exponent and the
characters after it ( `0` and the characters unchanged when there is none). -/
def takeExponent (b : Nat) : List Char → Int × List Char
  | [] => (0, [])
  | c :: cs =>
      if c = '@' ∨ (b ≤ 10 ∧ (c = 'e' ∨ c = 'E')) then
        let sg := takeSign cs
        let ds := takeDigits 10 sg.2 0 0
        if ds.2.1 = 0 then (0, c :: cs)
        else (if sg.1 then -(ds.1 : Int) else (ds.1 : Int), ds.2.2)
      else (0, c :: cs)

/-- Reference `mpfr_set_str` for the bases two to thirty-six and numerals made of an
optional sign, digits with an optional point, and an optional exponent (the special
names and the prefixes of the engine are left out): the longest such numeral at the
head of the string is stored, rounded to nearest, `+0` when there is none; the
return code is `0` when nothing follows the numeral and `-1` otherwise. -/
def refSetStr (prec : Int) (_old : MpfrVal) (s : String) (base : Int) : Int × MpfrVal :=
  if base < 2 ∨ 36 < base then (-1, .nan)
  else
    let b := base.toNat
    let sg := takeSign s.toList
    let ip := takeDigits b sg.2 0 0
    let fp : Nat × Nat × List Char :=
      match ip.2.2 with
      | '.' :: cs => takeDigits b cs ip.1 0
      | cs => (ip.1, 0, cs)
    if ip.2.1 + fp.2.1 = 0 then (-1, if prec ≤ 0 then .nan else .zero false)
    else
      let ex := takeExponent b fp.2.2
      let sh : Int := ex.1 - (fp.2.1 : Int)
      let n : Nat := if 0 ≤ sh then fp.1 * b ^ sh.toNat else fp.1
      let d : Nat := if 0 ≤ sh then 1 else b ^ (-sh).toNat
      (if ex.2 = [] then 0 else -1, roundRat .NearestTiesToEven prec sg.1 n d)

/-- Modelled from the spec: the engine's kernels for the constants ( `mpfr.h` is not
part of the sources), taken as a parameter: each gives the constant rounded under
the Rounding Directive to the precision of the destination. -/
structure EngineConstants where
  /-- The function `mpfr_const_log2(rop, rnd)` . -/
  const_log2 : Rounding → Int → MpfrVal
  /-- The function `mpfr_const_pi(rop, rnd)` . -/
  const_pi : Rounding → Int → MpfrVal
  /-- The function `mpfr_const_euler(rop, rnd)` . -/
  const_euler : Rounding → Int → MpfrVal
  /-- The function `mpfr_const_catalan(rop, rnd)` . -/
  const_catalan : Rounding → Int → MpfrVal

/-! ### Exact engine functions

Comparisons and classifications do not round and do not depend on a precision. -/

/-- The rational `(numerator, denominator)` a zero or a regular number denotes
( `0` for the other values). -/
def ratOf : MpfrVal → Int × Nat
  | .num s m e => toRat s m e
  | _ => (0, 1)

/-- Modelled from the spec: the engine's `mpfr_sgn` ( `mpfr.h` is not part of the
sources): positive, zero or negative with the value, `0` for a zero of either sign
and for NaN.  The result is given as `1` , `0` or `-1` . -/
def mpfr_sgn : MpfrVal → Int
  | .nan => 0
  | .zero _ => 0
  | .inf s => if s then -1 else 1
  | .num s _ _ => if s then -1 else 1

/-- Modelled from the spec: the engine's `mpfr_cmp` ( `mpfr.h` is not part of the
sources): positive, zero or negative as the first value is greater than, equal to
or less than the second, `0` when either is NaN.  The result is given as `1` , `0`
or `-1` . -/
def mpfr_cmp : MpfrVal → MpfrVal → Int
  | .nan, _ => 0
  | _, .nan => 0
  | .inf s, .inf t => if s = t then 0 else if s then -1 else 1
  | .inf s, _ => if s then -1 else 1
  | _, .inf t => if t then 1 else -1
  | a, b =>
      if (ratOf a).1 * (ratOf b).2 < (ratOf b).1 * (ratOf a).2 then -1
      else if (ratOf a).1 * (ratOf b).2 = (ratOf b).1 * (ratOf a).2 then 0
      else 1

/-- Modelled from the spec: the engine's `mpfr_nan_p` ( `mpfr.h` is not part of the
sources). -/
def mpfr_nan_p : MpfrVal → Bool
  | .nan => true
  | _ => false

/-- Modelled from the spec: the engine's `mpfr_unordered_p` ( `mpfr.h` is not part of
the sources): whether either value is NaN. -/
def mpfr_unordered_p (a b : MpfrVal) : Bool := mpfr_nan_p a || mpfr_nan_p b

/-- Modelled from the spec: the engine's `mpfr_lessgreater_p` ( `mpfr.h` is not part
of the sources): whether one value is less or greater than the other, false when
either is NaN. -/
def mpfr_lessgreater_p (a b : MpfrVal) : Bool :=
  !mpfr_unordered_p a b && decide (mpfr_cmp a b ≠ 0)

/-- Reference `mpfr_pow_si` : the exact power of the operand by the integer, rounded
once; the power by zero is one whatever the operand; a zero or an infinity keeps its
sign under an odd power only. -/
def refPowSi (rnd : Rounding) (prec : Int) (x : MpfrVal) (n : Int) : MpfrVal :=
  if n = 0 then roundSigned rnd prec 1 1 false
  else
    match x with
    | .nan => .nan
    | .inf s => if 0 < n then .inf (s && decide (n % 2 = 1)) else .zero (s && decide (n % 2 = 1))
    | .zero s => if 0 < n then .zero (s && decide (n % 2 = 1)) else .inf (s && decide (n % 2 = 1))
    | .num s m e =>
        let a := toRat s m e
        if 0 < n then
          roundRat rnd prec (s && decide (n % 2 = 1)) (a.1.natAbs ^ n.toNat) (a.2 ^ n.toNat)
        else
          roundRat rnd prec (s && decide (n % 2 = 1)) (a.2 ^ (-n).toNat) (a.1.natAbs ^ (-n).toNat)

/-- Reference `mpfr_dim` : the positive difference, that is the first operand minus the
second, rounded, when the first is greater, `+0` when it is not, NaN when either is
NaN. -/
def refDim (rnd : Rounding) (prec : Int) (a b : MpfrVal) : MpfrVal :=
  if mpfr_unordered_p a b = true then .nan
  else if 0 < mpfr_cmp a b then refSub rnd prec a b
  else if prec ≤ 0 then .nan else .zero false

/-- The least integer not below a regular number. -/
def ceilPart (s : Bool) (m : Nat) (e : Int) : Int :=
  let a := toRat s m e
  if s then -((a.1.natAbs / a.2 : Nat) : Int) else (((a.1.natAbs + a.2 - 1) / a.2 : Nat) : Int)

/-- Reference `mpfr_ceil` : the next higher or equal representable integer, with the
sign of the operand when it is zero. -/
def refCeil (prec : Int) : MpfrVal → MpfrVal
  | .num s m e => roundSigned .TowardPositiveInfinity prec (ceilPart s m e) 1 s
  | v => v

/-- The integer a regular number or a zero rounds to under the directive. -/
def roundToInt (rnd : Rounding) : MpfrVal → Int
  | .num s m e =>
      let a := toRat s m e
      let q := a.1.natAbs / a.2
      let r := a.1.natAbs % a.2
      let q1 := if r ≠ 0 ∧ roundsUp rnd s q r a.2 = true then q + 1 else q
      if s then -(q1 : Int) else (q1 : Int)
  | _ => 0

/-- Reference `mpfr_get_si` for a `long` of 32 bits: the operand rounded to an integer
under the directive; `0` for NaN; the least or the greatest `long` when the integer
does not fit. -/
def refGetSi (rnd : Rounding) : MpfrVal → Int
  | .nan => 0
  | .inf s => if s then -2147483648 else 2147483647
  | v => max (-2147483648) (min 2147483647 (roundToInt rnd v))

/-- Reference `mpfr_get_ui` for an `unsigned long` of 32 bits: the operand rounded to
an integer under the directive; `0` for NaN; `0` or the greatest `unsigned long` when
the integer does not fit. -/
def refGetUi (rnd : Rounding) : MpfrVal → Nat
  | .nan => 0
  | .inf s => if s then 0 else 4294967295
  | v => (max 0 (min 4294967295 (roundToInt rnd v))).toNat

/-- The reference engine. -/
def mpfrRef : Engine where
  set_si := refSetSi
  set_ui := refSetUi
  set := refSet
  neg := refNeg
  add := refAdd
  sub := refSub
  mul := refMul
  div := refDiv
  frac := refFrac
  modf := refModf
  set_str := refSetStr
  pow_si := refPowSi
  dim := refDim
  ceil := refCeil
  get_si := refGetSi
  get_ui := refGetUi

/-- Modelled from the spec: the engine's `mpfr_pow` ( `mpfr.h` is not part of the
sources), taken as a parameter: the first operand raised to the second, rounded under
the Rounding Directive to the precision of the destination. -/
structure EnginePowers where
  /-- The function `mpfr_pow(rop, op1, op2, rnd)` . -/
  pow : Rounding → Int → MpfrVal → MpfrVal → MpfrVal

/-! ### The arguments the engine accepts

The engine checks the precision and the base it is handed with an assertion, and a
failed assertion stops the process.  The calls that hand it a precision or a base
( `mpfr_init2` , `mpfr_set_prec` , `mpfr_set_default_prec` , `mpfr_set_str` ) are
modelled below for the arguments it accepts: what they give outside these ranges
stands for no run of the program, and what is stated about an allocation, a resize,
the default precision or a parse is stated inside them. -/

/-- Modelled from the spec: the least precision of the engine, `MPFR_PREC_MIN`
( `mpfr.h` is not part of the sources): the spec's engine floor, "an integer ≥ 2". -/
def MPFR_PREC_MIN : Int := 2

/-- Modelled from the spec: the greatest precision of the engine, `MPFR_PREC_MAX`
( `mpfr.h` is not part of the sources, and the spec names the floor only): taken as the
engine defines it for its precision type, a `long` of 32 bits here: the greatest
value of the type less `256` . -/
def MPFR_PREC_MAX : Int := 2147483391

/-- Whether the engine accepts the precision: `MPFR_PREC_MIN ≤ prec ≤ MPFR_PREC_MAX` . -/
def enginePrecision (prec : Int) : Bool :=
  decide (MPFR_PREC_MIN ≤ prec) && decide (prec ≤ MPFR_PREC_MAX)

/-- Modelled from the spec: whether the engine's `mpfr_set_str` accepts the base
( `mpfr.h` is not part of the sources, and the spec speaks of "a numeric base" only):
taken as the engine defines it: `0` , for a base read from the string, or a base from
`2` to `62` . -/
def engineBase (base : Int) : Bool :=
  decide (base = 0) || (decide (2 ≤ base) && decide (base ≤ 62))

/-! ## Managed objects and the world -/

/-- A managed reference `BigDecimal^` . -/
abbrev Ref := Nat

/-- The field `mpfr_ptr _value` together with the engine number it points to:
null, pointing to a live number of some precision, or still pointing to a number
that has been cleared and deleted. -/
inductive Storage
  | null
  | live (prec : Int) (val : MpfrVal)
  | released
  deriving DecidableEq, Repr

/-- The fields of a `BigDecimal` object. -/
structure BigDecimal where
  _precision : Int32
  _value : Storage
  _isDisposed : Bool

/-- What stops a call. -/
inductive Fault
  /-- An engine call received a pointer to a cleared and deleted number
  (undefined behaviour in the source). -/
  | releasedStorage
  /-- An engine call received a null pointer. -/
  | nullStorage
  /-- A reference that no `gcnew` has returned. -/
  | invalidReference
  /-- The exception `NotImplementedException` . -/
  | notImplemented
  /-- The exception `ArgumentException` . -/
  | argument
  /-- The exception `InvalidCastException` . -/
  | invalidCast
  deriving DecidableEq, Repr

/-- The managed heap, the static fields of the class, and counters of the calls
made to the engine. -/
structure World where
  heap : Ref → BigDecimal
  next : Ref
  _defaultRounding : Rounding
  _defaultPrecision : Int32
  CombinePrecisionOperator : Option (BigDecimal → BigDecimal → Nat)
  initCalls : Nat
  clearCalls : Nat
  engineCalls : Nat

/-- The world at process start: `_defaultRounding = Rounding::NearestTiesToEven` ,
`_defaultPrecision = 53` , no policy, no object. -/
def World.init : World where
  heap := fun _ => ⟨⟨53, by decide, by decide⟩, .null, false⟩
  next := 0
  _defaultRounding := .NearestTiesToEven
  _defaultPrecision := ⟨53, by decide, by decide⟩
  CombinePrecisionOperator := none
  initCalls := 0
  clearCalls := 0
  engineCalls := 0

/-- Replace the fields of object `r` . -/
def World.update (w : World) (r : Ref) (b : BigDecimal) : World :=
  { w with heap := Function.update w.heap r b }

/-- Replace the storage of object `r` . -/
def World.setStorage (w : World) (r : Ref) (s : Storage) : World :=
  w.update r { w.heap r with _value := s }

/-- Record one call to the engine. -/
def World.called (w : World) : World :=
  { w with engineCalls := w.engineCalls + 1 }

/-- The getter of the static property `DefaultPrecision` . -/
def DefaultPrecision (w : World) : Nat := toUInt64 w._defaultPrecision.val

/-- The setter of the static property `DefaultPrecision` : the field is assigned, then
`mpfr_set_default_prec(precision)` is called, which receives the precision narrowed
to the engine's precision type; the call is modelled for a precision the engine
accepts (see `enginePrecision` ). -/
def setDefaultPrecision (w : World) (precision : Nat) : World :=
  { w with _defaultPrecision := toInt32 precision, engineCalls := w.engineCalls + 1 }

/-- The setter of the static property `DefaultRounding` . -/
def setDefaultRounding (w : World) (rounding : Rounding) : World :=
  { w with _defaultRounding := rounding, engineCalls := w.engineCalls + 1 }

/-- The getter of the property `Precision` . -/
def Precision (b : BigDecimal) : Nat := toUInt64 b._precision.val

/-- The numeric value a read of the object yields: an object without storage
reads as the engine's initial value, since a read allocates it first. -/
def numericValue (b : BigDecimal) : MpfrVal :=
  match b._value with
  | .live _ v => v
  | _ => .nan

/-- The protected constructor `BigDecimal()` under `gcnew` : the field initialisers
`_precision = DefaultPrecision` , `_value` null, `_isDisposed = false` . -/
def gcnew (w : World) : World × Ref :=
  ({ w with
      heap := Function.update w.heap w.next ⟨toInt32 (DefaultPrecision w), .null, false⟩
      next := w.next + 1 }, w.next)

/-- The getter of the property `value` : a null `_value` is allocated with
`mpfr_init2(_value, Precision)` , which leaves the number NaN.  The engine receives
the `Precision` narrowed to its precision type; the call is modelled for a precision
the engine accepts (see `enginePrecision` and `firstUseAborts` ). -/
def value (w : World) (r : Ref) : World :=
  match (w.heap r)._value with
  | .null =>
      { w.setStorage r (.live (toLong (Precision (w.heap r))) .nan) with
        initCalls := w.initCalls + 1
        engineCalls := w.engineCalls + 1 }
  | _ => w

/-- Whether the first use of the object stops in the engine: the getter `value` has to
allocate, and the precision it hands to `mpfr_init2` , the `Precision` narrowed to the
engine's precision type, is not one the engine accepts. -/
def firstUseAborts (b : BigDecimal) : Bool :=
  decide (b._value = .null) && !enginePrecision (toLong (Precision b))

/-- The engine number behind the (non-null) pointer of object `r` . -/
def deref (w : World) (r : Ref) : Except Fault (Int × MpfrVal) :=
  match (w.heap r)._value with
  | .live p v => .ok (p, v)
  | .released => .error .releasedStorage
  | .null => .error .nullStorage

/-- The engine call `mpfr_set_prec(x, prec)` : the number gets the precision and
becomes NaN.  The engine receives `prec` narrowed to its precision type; the call is
modelled for a precision the engine accepts (see `enginePrecision` ). -/
def mpfr_set_prec (w : World) (r : Ref) (prec : Nat) : Except Fault World :=
  match deref w r with
  | .ok _ => .ok (w.setStorage r (.live (toLong prec) .nan)).called
  | .error e => .error e

/-- The engine call `mpfr_swap(x, y)` : the two numbers exchange value and
precision. -/
def mpfr_swap (w : World) (r y : Ref) : Except Fault World :=
  match deref w r, deref w y with
  | .ok (p, a), .ok (q, b) => .ok ((w.setStorage r (.live q b)).setStorage y (.live p a)).called
  | .error e, _ => .error e
  | _, .error e => .error e

/-- A kernel call `f(value, value, rnd)` or `f(value, ..)` on the receiver. -/
def kernel1 (w : World) (r : Ref) (f : Int → MpfrVal → MpfrVal) : Except Fault World :=
  let w1 := value w r
  match deref w1 r with
  | .ok (p, v) => .ok (w1.setStorage r (.live p (f p v))).called
  | .error e => .error e

/-- A kernel call `f(value, value, y->value, rnd)` or `f(value, y->value, rnd)` . -/
def kernel2 (w : World) (r y : Ref) (f : Int → MpfrVal → MpfrVal → MpfrVal) :
    Except Fault World :=
  let w1 := value w r
  let w2 := value w1 y
  match deref w2 r, deref w2 y with
  | .ok (p, a), .ok (_, b) => .ok (w2.setStorage r (.live p (f p a b))).called
  | .error e, _ => .error e
  | _, .error e => .error e

/-! ## Construction, precision, disposal -/

/-- The setter of the property `Precision` . -/
def setPrecision (w : World) (r : Ref) (precision : Nat) : Except Fault World :=
  if Precision (w.heap r) ≠ precision then
    let w1 := w.update r { w.heap r with _precision := toInt32 precision }
    match (w1.heap r)._value with
    | .null => .ok w1
    | _ => mpfr_set_prec (value w1 r) r precision
  else .ok w

/-- The method `SetPrecision(UInt64 precision)` . -/
def SetPrecision (w : World) (r : Ref) (precision : Nat) : Except Fault World :=
  setPrecision w r precision

/-- The method `SetPrecision(BigDecimal^ y)` . -/
def SetPrecisionOf (w : World) (r y : Ref) : Except Fault World :=
  setPrecision w r (Precision (w.heap y))

/-- The factory `Create()` . -/
def Create (w : World) : World × Ref := gcnew w

/-- The factory `Create(UInt64 precision)` . -/
def CreateP (w : World) (precision : Nat) : Except Fault (World × Ref) :=
  match SetPrecision (Create w).1 (Create w).2 precision with
  | .ok w1 => .ok (w1, (Create w).2)
  | .error e => .error e

/-- The finalizer `!BigDecimal()` . -/
def finalizer (w : World) (r : Ref) : Except Fault World :=
  match (w.heap r)._value with
  | .null => .ok w
  | .live _ _ =>
      .ok { w.setStorage r .released with
            clearCalls := w.clearCalls + 1
            engineCalls := w.engineCalls + 1 }
  | .released => .error .releasedStorage

/-- The destructor `~BigDecimal()` , that is `Dispose()` . -/
def Dispose (w : World) (r : Ref) : Except Fault World :=
  if (w.heap r)._isDisposed = false then
    match finalizer w r with
    | .ok w1 => .ok (w1.update r { w1.heap r with _isDisposed := true })
    | .error e => .error e
  else .ok w

/-! ## Value setters and arithmetic -/

/-- The method `Set(Int64 value)` : the engine's `mpfr_set_si` takes a `long` , 32 bits
wide under the C++/CLI compiler. -/
def Set_Int64 (E : Engine) (w : World) (r : Ref) (v : Int) : Except Fault World :=
  kernel1 w r (fun p _ => E.set_si p (longOfInt64 v))

/-- The method `Set(UInt64 value)` : the engine's `mpfr_set_ui` takes an
`unsigned long` , 32 bits wide under the C++/CLI compiler. -/
def Set_UInt64 (E : Engine) (w : World) (r : Ref) (v : Nat) : Except Fault World :=
  kernel1 w r (fun p _ => E.set_ui p (toULong v))

/-- The method `SetNaN()` . -/
def SetNaN (w : World) (r : Ref) : Except Fault World :=
  kernel1 w r (fun _ _ => .nan)

/-- The method `Set(BigDecimal^ y, Rounding^ rounding)` . -/
def SetR (E : Engine) (w : World) (r y : Ref) (rounding : Rounding) : Except Fault World :=
  kernel2 w r y (fun p _ b => E.set rounding p b)

/-- The method `Set(BigDecimal^ y)` . -/
def Set (E : Engine) (w : World) (r y : Ref) : Except Fault World :=
  SetR E w r y w._defaultRounding

/-- The method `Swap(BigDecimal^ y)` . -/
def Swap (w : World) (r y : Ref) : Except Fault World :=
  match mpfr_swap (value (value w r) y) r y with
  | .error e => .error e
  | .ok w1 =>
      let precision := Precision (w1.heap r)
      match SetPrecisionOf w1 r y with
      | .error e => .error e
      | .ok w2 => SetPrecision w2 y precision

/-- The method `Neg(Rounding^ rounding)` . -/
def NegR (E : Engine) (w : World) (r : Ref) (rounding : Rounding) : Except Fault World :=
  kernel1 w r (E.neg rounding)

/-- The method `Neg()` . -/
def Neg (E : Engine) (w : World) (r : Ref) : Except Fault World :=
  NegR E w r w._defaultRounding

/-- The method `Add(BigDecimal^ y, Rounding^ rounding)` . -/
def AddR (E : Engine) (w : World) (r y : Ref) (rounding : Rounding) : Except Fault World :=
  kernel2 w r y (E.add rounding)

/-- The method `Add(BigDecimal^ y)` . -/
def Add (E : Engine) (w : World) (r y : Ref) : Except Fault World :=
  AddR E w r y w._defaultRounding

/-- The method `Sub(BigDecimal^ y, Rounding^ rounding)` . -/
def SubR (E : Engine) (w : World) (r y : Ref) (rounding : Rounding) : Except Fault World :=
  kernel2 w r y (E.sub rounding)

/-- The method `Sub(BigDecimal^ y)` . -/
def Sub (E : Engine) (w : World) (r y : Ref) : Except Fault World :=
  SubR E w r y w._defaultRounding

/-- The method `Mul(BigDecimal^ y, Rounding^ rounding)` . -/
def MulR (E : Engine) (w : World) (r y : Ref) (rounding : Rounding) : Except Fault World :=
  kernel2 w r y (E.mul rounding)

/-- The method `Mul(BigDecimal^ y)` . -/
def Mul (E : Engine) (w : World) (r y : Ref) : Except Fault World :=
  MulR E w r y w._defaultRounding

/-- The method `Div(BigDecimal^ y, Rounding^ rounding)` . -/
def DivR (E : Engine) (w : World) (r y : Ref) (rounding : Rounding) : Except Fault World :=
  kernel2 w r y (E.div rounding)

/-- The method `Div(BigDecimal^ y)` . -/
def Div (E : Engine) (w : World) (r y : Ref) : Except Fault World :=
  DivR E w r y w._defaultRounding

/-- The method `Pow(BigDecimal^ y)` : the source returns `Div(y, DefaultRounding)` . -/
def Pow (E : Engine) (w : World) (r y : Ref) : Except Fault World :=
  DivR E w r y w._defaultRounding

/-- The method `Frac(Rounding^ rounding)` . -/
def FracR (E : Engine) (w : World) (r : Ref) (rounding : Rounding) : Except Fault World :=
  kernel1 w r (E.frac rounding)

/-- The method `Frac()` . -/
def Frac (E : Engine) (w : World) (r : Ref) : Except Fault World :=
  FracR E w r w._defaultRounding

/-- The constructor `BigDecimal(Int64 value, UInt64 precision)` . -/
def newInt64 (E : Engine) (w : World) (v : Int) (precision : Nat) :
    Except Fault (World × Ref) :=
  match SetPrecision (gcnew w).1 (gcnew w).2 precision with
  | .error e => .error e
  | .ok w1 =>
      match Set_Int64 E w1 (gcnew w).2 v with
      | .error e => .error e
      | .ok w2 => .ok (w2, (gcnew w).2)

/-- The constructor `BigDecimal(UInt64 value, UInt64 precision)` . -/
def newUInt64 (E : Engine) (w : World) (v : Nat) (precision : Nat) :
    Except Fault (World × Ref) :=
  match SetPrecision (gcnew w).1 (gcnew w).2 precision with
  | .error e => .error e
  | .ok w1 =>
      match Set_UInt64 E w1 (gcnew w).2 v with
      | .error e => .error e
      | .ok w2 => .ok (w2, (gcnew w).2)

/-- The implicit conversion `operator BigDecimal^(Int32 x)` , through the
constructor `BigDecimal(Int32 value)` : the value at the `DefaultPrecision` . -/
def ofInt32 (E : Engine) (w : World) (v : Int) : Except Fault (World × Ref) :=
  newInt64 E w v (DefaultPrecision w)

/-! ## Operators -/

/-- The method `LPrecision(BigDecimal^ y)` . -/
def LPrecision (w : World) (r y : Ref) : Except Fault World :=
  let precision : Nat :=
    match w.CombinePrecisionOperator with
    | some op => op (w.heap r) (w.heap y) % 18446744073709551616
    | none => max (Precision (w.heap r)) (Precision (w.heap y))
  SetPrecision w r precision

/-- The method `LValue(BigDecimal^ x)` . -/
def LValue (E : Engine) (w : World) (x : Ref) : Except Fault (World × Ref) :=
  match CreateP w (Precision (w.heap x)) with
  | .error e => .error e
  | .ok (w1, r) =>
      match Set E w1 r x with
      | .error e => .error e
      | .ok w2 => .ok (w2, r)

/-- The method `LValue(BigDecimal^ x, BigDecimal^ y)` . -/
def LValue2 (E : Engine) (w : World) (x y : Ref) : Except Fault (World × Ref) :=
  match CreateP w (Precision (w.heap x)) with
  | .error e => .error e
  | .ok (w1, r) =>
      match LPrecision w1 r y with
      | .error e => .error e
      | .ok w2 =>
          match Set E w2 r x with
          | .error e => .error e
          | .ok w3 => .ok (w3, r)

/-- The binary infix operators. -/
inductive BinOp
  | plus
  | minus
  | times
  | divide
  | modulo
  | power
  deriving DecidableEq, Repr

/-- The unary operators. -/
inductive UnOp
  | plus
  | minus
  | increment
  | decrement
  deriving DecidableEq, Repr

/-- The static binary operators `operator +, -, *, /, %, ^` . -/
def binop (E : Engine) (o : BinOp) (w : World) (x y : Ref) : Except Fault (World × Ref) :=
  match LValue2 E w x y with
  | .error e => .error e
  | .ok (w1, r) =>
      match o with
      | .plus => (Add E w1 r y).map (fun w2 => (w2, r))
      | .minus => (Sub E w1 r y).map (fun w2 => (w2, r))
      | .times => (Mul E w1 r y).map (fun w2 => (w2, r))
      | .divide => (Div E w1 r y).map (fun w2 => (w2, r))
      | .modulo =>
          match Div E w1 r y with
          | .error e => .error e
          | .ok w2 => (Frac E w2 r).map (fun w3 => (w3, r))
      | .power => (Pow E w1 r y).map (fun w2 => (w2, r))

/-- The static unary operators `operator +, -, ++, --` ; the literal `1` of the last
two reaches `Add` and `Sub` through the implicit conversion from `Int32` . -/
def unop (E : Engine) (o : UnOp) (w : World) (x : Ref) : Except Fault (World × Ref) :=
  match LValue E w x with
  | .error e => .error e
  | .ok (w1, r) =>
      match o with
      | .plus => .ok (w1, r)
      | .minus => (Neg E w1 r).map (fun w2 => (w2, r))
      | .increment =>
          match ofInt32 E w1 1 with
          | .error e => .error e
          | .ok (w2, one) => (Add E w2 r one).map (fun w3 => (w3, r))
      | .decrement =>
          match ofInt32 E w1 1 with
          | .error e => .error e
          | .ok (w2, one) => (Sub E w2 r one).map (fun w3 => (w3, r))

/-- The method `Modf(fraction, integral, rounding)` : returns the references stored
into `fraction` and `integral` . -/
def ModfR (E : Engine) (w : World) (r : Ref) (rounding : Rounding) :
    Except Fault (World × Ref × Ref) :=
  match CreateP w (Precision (w.heap r)) with
  | .error e => .error e
  | .ok (w1, fraction) =>
      match CreateP w1 (Precision (w1.heap r)) with
      | .error e => .error e
      | .ok (w2, integral) =>
          let w3 := value (value (value w2 fraction) integral) r
          match deref w3 fraction, deref w3 integral, deref w3 r with
          | .ok (pf, _), .ok (pi, _), .ok (_, v) =>
              .ok (((w3.setStorage fraction (.live pf (E.modf rounding pf pi v).1)).setStorage
                    integral (.live pi (E.modf rounding pf pi v).2)).called, fraction, integral)
          | .error e, _, _ => .error e
          | _, .error e, _ => .error e
          | _, _, .error e => .error e

/-- The method `Modf(fraction, integral)` . -/
def Modf (E : Engine) (w : World) (r : Ref) : Except Fault (World × Ref × Ref) :=
  ModfR E w r w._defaultRounding

/-- The setter of the static property `CombinePrecisionOperator` . -/
def setCombinePrecisionOperator (w : World) (op : Option (BigDecimal → BigDecimal → Nat)) :
    World :=
  { w with CombinePrecisionOperator := op }

/-! ## Comparison and classification -/

/-- A call `f(value)` that reads the receiver and returns the result. -/
def query1 {α : Type} (w : World) (r : Ref) (f : MpfrVal → α) : Except Fault (World × α) :=
  let w1 := value w r
  match deref w1 r with
  | .ok (_, v) => .ok (w1.called, f v)
  | .error e => .error e

/-- A call `f(value, y->value)` that reads both objects and returns the result. -/
def query2 {α : Type} (w : World) (r y : Ref) (f : MpfrVal → MpfrVal → α) :
    Except Fault (World × α) :=
  let w1 := value w r
  let w2 := value w1 y
  match deref w2 r, deref w2 y with
  | .ok (_, a), .ok (_, b) => .ok (w2.called, f a b)
  | .error e, _ => .error e
  | _, .error e => .error e

/-- The method `Compare(BigDecimal^ y)` . -/
def Compare (w : World) (r y : Ref) : Except Fault (World × Int) :=
  query2 w r y mpfr_cmp

/-- The method `Sign()` . -/
def Sign (w : World) (r : Ref) : Except Fault (World × Int) :=
  query1 w r mpfr_sgn

/-- The method `IsPositive()` . -/
def IsPositive (w : World) (r : Ref) : Except Fault (World × Bool) :=
  match Sign w r with
  | .ok (w1, sg) => .ok (w1, decide (sg > 0))
  | .error e => .error e

/-- The method `IsNegative()` . -/
def IsNegative (w : World) (r : Ref) : Except Fault (World × Bool) :=
  match Sign w r with
  | .ok (w1, sg) => .ok (w1, decide (sg < 0))
  | .error e => .error e

/-- The method `IsNotEqual(BigDecimal^ y)` . -/
def IsNotEqual (w : World) (r y : Ref) : Except Fault (World × Bool) :=
  query2 w r y mpfr_lessgreater_p

/-- The method `IsNaN()` . -/
def IsNaN (w : World) (r : Ref) : Except Fault (World × Bool) :=
  query1 w r mpfr_nan_p

/-! ## Setters of constants, strings, factories -/

/-- The method `SetInf(int sign)` : `mpfr_set_inf` gives the infinity the sign of
`sign` , plus for a sign that is not negative. -/
def SetInfS (w : World) (r : Ref) (sign : Int) : Except Fault World :=
  kernel1 w r (fun _ _ => .inf (decide (sign < 0)))

/-- The method `SetInfPositive()` . -/
def SetInfPositive (w : World) (r : Ref) : Except Fault World := SetInfS w r 1

/-- The method `SetInfNegative()` . -/
def SetInfNegative (w : World) (r : Ref) : Except Fault World := SetInfS w r (-1)

/-- The method `SetInf()` . -/
def SetInf (w : World) (r : Ref) : Except Fault World := SetInfPositive w r

/-- The method `SetZero(int sign)` : `mpfr_set_zero` gives the zero the sign of
`sign` , plus for a sign that is not negative. -/
def SetZeroS (w : World) (r : Ref) (sign : Int) : Except Fault World :=
  kernel1 w r (fun _ _ => .zero (decide (sign < 0)))

/-- The method `SetZeroPositive()` . -/
def SetZeroPositive (w : World) (r : Ref) : Except Fault World := SetZeroS w r 1

/-- The method `SetZeroNegative()` . -/
def SetZeroNegative (w : World) (r : Ref) : Except Fault World := SetZeroS w r (-1)

/-- The method `SetZero()` . -/
def SetZero (w : World) (r : Ref) : Except Fault World := SetZeroPositive w r

/-- The method `SetLn2(Rounding^ rounding)` . -/
def SetLn2R (K : EngineConstants) (w : World) (r : Ref) (rounding : Rounding) :
    Except Fault World :=
  kernel1 w r (fun p _ => K.const_log2 rounding p)

/-- The method `SetLn2()` . -/
def SetLn2 (K : EngineConstants) (w : World) (r : Ref) : Except Fault World :=
  SetLn2R K w r w._defaultRounding

/-- The method `SetPi(Rounding^ rounding)` . -/
def SetPiR (K : EngineConstants) (w : World) (r : Ref) (rounding : Rounding) :
    Except Fault World :=
  kernel1 w r (fun p _ => K.const_pi rounding p)

/-- The method `SetPi()` . -/
def SetPi (K : EngineConstants) (w : World) (r : Ref) : Except Fault World :=
  SetPiR K w r w._defaultRounding

/-- The method `SetEuler(Rounding^ rounding)` . -/
def SetEulerR (K : EngineConstants) (w : World) (r : Ref) (rounding : Rounding) :
    Except Fault World :=
  kernel1 w r (fun p _ => K.const_euler rounding p)

/-- The method `SetEuler()` . -/
def SetEuler (K : EngineConstants) (w : World) (r : Ref) : Except Fault World :=
  SetEulerR K w r w._defaultRounding

/-- The method `SetCatalan(Rounding^ rounding)` . -/
def SetCatalanR (K : EngineConstants) (w : World) (r : Ref) (rounding : Rounding) :
    Except Fault World :=
  kernel1 w r (fun p _ => K.const_catalan rounding p)

/-- The method `SetCatalan()` . -/
def SetCatalan (K : EngineConstants) (w : World) (r : Ref) : Except Fault World :=
  SetCatalanR K w r w._defaultRounding

/-- The method `Set(String^ value, int base)` : the return code of `mpfr_set_str` is
dropped.  The call is modelled for a base the engine accepts (see `engineBase` ). -/
def Set_String (E : Engine) (w : World) (r : Ref) (s : String) (base : Int) :
    Except Fault World :=
  kernel1 w r (fun p v => (E.set_str p v s base).2)

/-- The method `Set(String^ value)` . -/
def Set_String10 (E : Engine) (w : World) (r : Ref) (s : String) : Except Fault World :=
  Set_String E w r s 10

/-- The constructor `BigDecimal(String^ value, int base, UInt64 precision)` : the
source calls `Set(value)` , without the base. -/
def newString (E : Engine) (w : World) (s : String) (_base : Int) (precision : Nat) :
    Except Fault (World × Ref) :=
  match SetPrecision (gcnew w).1 (gcnew w).2 precision with
  | .error e => .error e
  | .ok w1 =>
      match Set_String10 E w1 (gcnew w).2 s with
      | .error e => .error e
      | .ok w2 => .ok (w2, (gcnew w).2)

/-- The constructor `BigDecimal(String^ value, UInt64 precision)` . -/
def newString10 (E : Engine) (w : World) (s : String) (precision : Nat) :
    Except Fault (World × Ref) :=
  newString E w s 10 precision

/-- The constructor `BigDecimal(String^ value, int base)` . -/
def ofStringBase (E : Engine) (w : World) (s : String) (base : Int) :
    Except Fault (World × Ref) :=
  newString E w s base (DefaultPrecision w)

/-- The constructor `BigDecimal(String^ value)` . -/
def ofString (E : Engine) (w : World) (s : String) : Except Fault (World × Ref) :=
  ofStringBase E w s 10

/-- The constructor `BigDecimal(Int64 value)` . -/
def ofInt64 (E : Engine) (w : World) (v : Int) : Except Fault (World × Ref) :=
  newInt64 E w v (DefaultPrecision w)

/-- The constructor `BigDecimal(UInt64 value)` . -/
def ofUInt64 (E : Engine) (w : World) (v : Nat) : Except Fault (World × Ref) :=
  newUInt64 E w v (DefaultPrecision w)

/-- A static property `Create()->Set...()` : the setter applied to a new object. -/
def factory (w : World) (setter : World → Ref → Except Fault World) :
    Except Fault (World × Ref) :=
  match setter (Create w).1 (Create w).2 with
  | .ok w1 => .ok (w1, (Create w).2)
  | .error e => .error e

/-- The static property `NaN` . -/
def NaN (w : World) : Except Fault (World × Ref) := factory w SetNaN

/-- The static property `Infinity` . -/
def Infinity (w : World) : Except Fault (World × Ref) := factory w SetInf

/-- The static property `PositiveInfinity` . -/
def PositiveInfinity (w : World) : Except Fault (World × Ref) := factory w SetInfPositive

/-- The static property `NegativeInfinity` . -/
def NegativeInfinity (w : World) : Except Fault (World × Ref) := factory w SetInfNegative

/-- The static property `Zero` . -/
def Zero (w : World) : Except Fault (World × Ref) := factory w SetZero

/-- The static property `PositiveZero` . -/
def PositiveZero (w : World) : Except Fault (World × Ref) := factory w SetZeroPositive

/-- The static property `NegativeZero` . -/
def NegativeZero (w : World) : Except Fault (World × Ref) := factory w SetZeroNegative

/-- The static property `Ln2` . -/
def Ln2 (K : EngineConstants) (w : World) : Except Fault (World × Ref) :=
  factory w (SetLn2 K)

/-- The static property `Pi` . -/
def Pi (K : EngineConstants) (w : World) : Except Fault (World × Ref) :=
  factory w (SetPi K)

/-- The static property `Euler` . -/
def Euler (K : EngineConstants) (w : World) : Except Fault (World × Ref) :=
  factory w (SetEuler K)

/-- The static property `Catalan` . -/
def Catalan (K : EngineConstants) (w : World) : Except Fault (World × Ref) :=
  factory w (SetCatalan K)

/-! ## Conversion to `Decimal` -/

/-- The host type `Decimal` : an unscaled integer and a scale. -/
abbrev Decimal := Int × Nat

/-- The host interface `IFormatProvider^` , null or a name. -/
abbrev IFormatProvider := Option String

/-- The method `ToDecimal(Rounding^ rounding)` : the body throws. -/
def ToDecimalR (_w : World) (_r : Ref) (_rounding : Rounding) : Except Fault (World × Decimal) :=
  .error .notImplemented

/-- The method `ToDecimal()` . -/
def ToDecimal (w : World) (r : Ref) : Except Fault (World × Decimal) :=
  ToDecimalR w r w._defaultRounding

/-- The method `ToDecimal(IFormatProvider^ provider)` of `IConvertible` . -/
def ToDecimalP (w : World) (r : Ref) (_provider : IFormatProvider) :
    Except Fault (World × Decimal) :=
  ToDecimal w r

/-- The operator `explicit operator Decimal(BigDecimal^ x)` . -/
def op_Explicit_Decimal (w : World) (x : Ref) : Except Fault (World × Decimal) :=
  ToDecimal w x

/-- The fluent return `return this` of a method: the world and the receiver. -/
def returningThis (x : Except Fault World) (r : Ref) : Except Fault (World × Ref) :=
  match x with
  | .ok w => .ok (w, r)
  | .error e => .error e

/-! ## Powers, positive difference, rounding to an integer -/

/-- The method `Pow(BigDecimal^ y, Rounding^ rounding)` . -/
def PowR (P : EnginePowers) (w : World) (r y : Ref) (rounding : Rounding) :
    Except Fault World :=
  kernel2 w r y (P.pow rounding)

/-- The method `Dim(BigDecimal^ y, Rounding^ rounding)` . -/
def DimR (E : Engine) (w : World) (r y : Ref) (rounding : Rounding) : Except Fault World :=
  kernel2 w r y (E.dim rounding)

/-- The method `Dim(BigDecimal^ y)` : the source returns `Div(y, DefaultRounding)` . -/
def Dim (E : Engine) (w : World) (r y : Ref) : Except Fault World :=
  DivR E w r y w._defaultRounding

/-- The method `Sqrt(UInt64 y, Rounding^ rounding)` : the source calls
`mpfr_pow_si(value, value, y, rounding)` , whose exponent is a `long` . -/
def Sqrt_UInt64R (E : Engine) (w : World) (r : Ref) (y : Nat) (rounding : Rounding) :
    Except Fault World :=
  kernel1 w r (fun p v => E.pow_si rounding p v (toLong y))

/-- The method `Sqrt(UInt64 y)` . -/
def Sqrt_UInt64 (E : Engine) (w : World) (r : Ref) (y : Nat) : Except Fault World :=
  Sqrt_UInt64R E w r y w._defaultRounding

/-- The method `CeilAfz()` . -/
def CeilAfz (E : Engine) (w : World) (r : Ref) : Except Fault World :=
  kernel1 w r E.ceil

/-- The method `TruncAfz()` : the source calls `mpfr_ceil(value, value)` . -/
def TruncAfz (E : Engine) (w : World) (r : Ref) : Except Fault World :=
  kernel1 w r E.ceil

/-! ## Conversion to integers -/

/-- Conversion of an `Int64` to `Int32` (two's complement). -/
def int32OfInt64 (v : Int) : Int := toLong (toUInt64 v)

/-- Conversion of a signed integer to `UInt32` (modulo `2^32` ). -/
def toUInt32 (i : Int) : Nat := (i % 4294967296).toNat

/-- The result of a call converted to the return type of the caller. -/
def converted {α β : Type} (x : Except Fault (World × α)) (f : α → β) :
    Except Fault (World × β) :=
  match x with
  | .ok (w, a) => .ok (w, f a)
  | .error e => .error e

/-- The method `ToInt64(Rounding^ rounding)` : `mpfr_get_si` returns a `long` . -/
def ToInt64R (E : Engine) (w : World) (r : Ref) (rounding : Rounding) :
    Except Fault (World × Int) :=
  query1 w r (fun v => longOfInt64 (E.get_si rounding v))

/-- The method `ToInt32()` . -/
def ToInt32 (E : Engine) (w : World) (r : Ref) : Except Fault (World × Int) :=
  converted (ToInt64R E w r w._defaultRounding) int32OfInt64

/-- The method `ToUInt64(Rounding^ rounding)` : `mpfr_get_ui` returns an
`unsigned long` . -/
def ToUInt64R (E : Engine) (w : World) (r : Ref) (rounding : Rounding) :
    Except Fault (World × Nat) :=
  query1 w r (fun v => toULong (E.get_ui rounding v))

/-- The method `ToUInt64()` . -/
def ToUInt64 (E : Engine) (w : World) (r : Ref) : Except Fault (World × Nat) :=
  ToUInt64R E w r w._defaultRounding

/-- The method `ToUInt32(Rounding^ rounding)` . -/
def ToUInt32R (E : Engine) (w : World) (r : Ref) (rounding : Rounding) :
    Except Fault (World × Nat) :=
  converted (ToUInt64R E w r rounding) (fun v => v % 4294967296)

/-- The method `ToUInt32()` . -/
def ToUInt32 (E : Engine) (w : World) (r : Ref) : Except Fault (World × Nat) :=
  converted (ToUInt64R E w r w._defaultRounding) (fun v => v % 4294967296)

/-- The method `ToByte(Rounding^ rounding)` , declared to return `UInt32` . -/
def ToByteR (E : Engine) (w : World) (r : Ref) (rounding : Rounding) :
    Except Fault (World × Nat) :=
  converted (ToUInt64R E w r rounding) (fun v => v % 4294967296)

/-- The method `ToByte()` , declared to return `UInt32` . -/
def ToByte (E : Engine) (w : World) (r : Ref) : Except Fault (World × Nat) :=
  converted (ToUInt64R E w r w._defaultRounding) (fun v => v % 4294967296)

/-- The method `ToUInt16(Rounding^ rounding)` , declared to return `UInt32` . -/
def ToUInt16R (E : Engine) (w : World) (r : Ref) (rounding : Rounding) :
    Except Fault (World × Nat) :=
  converted (ToUInt64R E w r rounding) (fun v => v % 4294967296)

/-- The method `ToUInt16()` , declared to return `UInt32` . -/
def ToUInt16 (E : Engine) (w : World) (r : Ref) : Except Fault (World × Nat) :=
  converted (ToUInt64R E w r w._defaultRounding) (fun v => v % 4294967296)

/-- The conversion `explicit operator UInt32(BigDecimal^ x)` : the source returns
`x->ToInt32()` . -/
def op_Explicit_UInt32 (E : Engine) (w : World) (x : Ref) : Except Fault (World × Nat) :=
  converted (ToInt32 E w x) toUInt32

/-- The conversion `explicit operator UInt64(BigDecimal^ x)` . -/
def op_Explicit_UInt64 (E : Engine) (w : World) (x : Ref) : Except Fault (World × Nat) :=
  ToUInt64 E w x

/-- The conversion `explicit operator UInt16(BigDecimal^ x)` . -/
def op_Explicit_UInt16 (E : Engine) (w : World) (x : Ref) : Except Fault (World × Nat) :=
  converted (ToUInt16 E w x) (fun v => v % 65536)

/-- The conversion `explicit operator Byte(BigDecimal^ x)` . -/
def op_Explicit_Byte (E : Engine) (w : World) (x : Ref) : Except Fault (World × Nat) :=
  converted (ToByte E w x) (fun v => v % 256)

/-! ## Comparison with objects, equality -/

/-- The getter of the protected property `isDisposed` , whose body `return isDisposed;`
reads the property itself, not the field `_isDisposed` : a call makes the same call
again.  Each unit of `fuel` pays for one call; the result is `none` when the fuel is
spent before a call has returned. -/
def isDisposed (w : World) (r : Ref) : Nat → Option Bool
  | 0 => none
  | fuel + 1 => isDisposed w r fuel

/-! ## Programs -/

/-- The world in which a call returned a new reference. -/
def dropRef (x : Except Fault (World × Ref)) : Except Fault World :=
  match x with
  | .ok (w, _) => .ok w
  | .error e => .error e

/-- The unary in-place methods. -/
inductive Method1
  | Neg
  | Frac
  deriving DecidableEq, Repr

/-- The binary in-place methods. -/
inductive Method2
  | Set
  | Add
  | Sub
  | Mul
  | Div
  | Pow
  deriving DecidableEq, Repr

/-- A unary in-place method, in its overload without a Rounding Directive. -/
def call1 (E : Engine) (m : Method1) (w : World) (r : Ref) : Except Fault World :=
  match m with
  | .Neg => Neg E w r
  | .Frac => Frac E w r

/-- A binary in-place method, in its overload without a Rounding Directive. -/
def call2 (E : Engine) (m : Method2) (w : World) (r y : Ref) : Except Fault World :=
  match m with
  | .Set => Set E w r y
  | .Add => Add E w r y
  | .Sub => Sub E w r y
  | .Mul => Mul E w r y
  | .Div => Div E w r y
  | .Pow => Pow E w r y

/-- A unary in-place method, in its overload with a Rounding Directive. -/
def call1R (E : Engine) (m : Method1) (w : World) (r : Ref) (rnd : Rounding) :
    Except Fault World :=
  match m with
  | .Neg => NegR E w r rnd
  | .Frac => FracR E w r rnd

/-- One call of the public surface, on references a caller holds. -/
inductive Op
  | create
  | createP (precision : Nat)
  | newInt64 (v : Int) (precision : Nat)
  | newUInt64 (v : Nat) (precision : Nat)
  | ofInt32 (v : Int)
  | setPrecision (r : Ref) (precision : Nat)
  | setPrecisionOf (r y : Ref)
  | setInt64 (r : Ref) (v : Int)
  | setUInt64 (r : Ref) (v : Nat)
  | setNaN (r : Ref)
  | inplace1 (m : Method1) (r : Ref)
  | inplace1R (m : Method1) (r : Ref) (rnd : Rounding)
  | inplace2 (m : Method2) (r y : Ref)
  | binary (o : BinOp) (x y : Ref)
  | unary (o : UnOp) (x : Ref)
  | modf (r : Ref)
  | swap (r y : Ref)
  | dispose (r : Ref)
  | setDefaultPrecision (precision : Nat)
  | setDefaultRounding (rnd : Rounding)
  | setPolicy (op : Option (BigDecimal → BigDecimal → Nat))

/-- The references an operation is called on. -/
def Op.refs : Op → List Ref
  | .setPrecision r _ => [r]
  | .setPrecisionOf r y => [r, y]
  | .setInt64 r _ => [r]
  | .setUInt64 r _ => [r]
  | .setNaN r => [r]
  | .inplace1 _ r => [r]
  | .inplace1R _ r _ => [r]
  | .inplace2 _ r y => [r, y]
  | .binary _ x y => [x, y]
  | .unary _ x => [x]
  | .modf r => [r]
  | .swap r y => [r, y]
  | .dispose r => [r]
  | _ => []

/-- The world after one call; a call on a reference no `gcnew` has returned is
rejected. -/
def step (E : Engine) (w : World) (op : Op) : Except Fault World :=
  if op.refs.all (fun r => decide (r < w.next)) then
    match op with
    | .create => .ok (Create w).1
    | .createP p => dropRef (CreateP w p)
    | .newInt64 v p => dropRef (newInt64 E w v p)
    | .newUInt64 v p => dropRef (newUInt64 E w v p)
    | .ofInt32 v => dropRef (ofInt32 E w v)
    | .setPrecision r p => SetPrecision w r p
    | .setPrecisionOf r y => SetPrecisionOf w r y
    | .setInt64 r v => Set_Int64 E w r v
    | .setUInt64 r v => Set_UInt64 E w r v
    | .setNaN r => SetNaN w r
    | .inplace1 m r => call1 E m w r
    | .inplace1R m r rnd => call1R E m w r rnd
    | .inplace2 m r y => call2 E m w r y
    | .binary o x y => dropRef (binop E o w x y)
    | .unary o x => dropRef (unop E o w x)
    | .modf r =>
        match Modf E w r with
        | .ok (w1, _, _) => .ok w1
        | .error e => .error e
    | .swap r y => Swap w r y
    | .dispose r => Dispose w r
    | .setDefaultPrecision p => .ok (setDefaultPrecision w p)
    | .setDefaultRounding rnd => .ok (setDefaultRounding w rnd)
    | .setPolicy op => .ok (setCombinePrecisionOperator w op)
  else .error .invalidReference

/-- The world after a sequence of calls. -/
def run (E : Engine) (w : World) : List Op → Except Fault World
  | [] => .ok w
  | op :: ops =>
      match step E w op with
      | .ok w1 => run E w1 ops
      | .error e => .error e

/-- Every precision the operation supplies is below `2^31` ; for a policy, every
precision it can return. -/
def Op.precisionsBelow : Op → Prop
  | .createP p => p < 2147483648
  | .newInt64 _ p => p < 2147483648
  | .newUInt64 _ p => p < 2147483648
  | .setPrecision _ p => p < 2147483648
  | .setDefaultPrecision p => p < 2147483648
  | .setPolicy (some f) => ∀ a b, f a b < 2147483648
  | _ => True

/-- The storage of an object, when allocated, has the object's stored precision,
and that precision is not negative. -/
def Sized (b : BigDecimal) : Prop :=
  (∀ p v, b._value = .live p v → p = b._precision.val) ∧ 0 ≤ b._precision.val

/-- Every object is `Sized` , the default precision is not negative, and the policy
returns precisions below `2^31` . -/
def Good (w : World) : Prop :=
  (∀ r, Sized (w.heap r)) ∧ 0 ≤ w._defaultPrecision.val ∧
  (∀ f, w.CombinePrecisionOperator = some f → ∀ a b, f a b < 2147483648)

/-! ## Observation of results -/

/-- What `f` observes in the world a call returns, if it returns. -/
def after {α : Type} (x : Except Fault World) (f : World → α) : Option α :=
  match x with
  | .ok w => some (f w)
  | .error _ => none

/-- What `f` observes in the world and the reference a call returns, if it returns. -/
def afterNew {α : Type} (x : Except Fault (World × Ref)) (f : World → Ref → α) : Option α :=
  match x with
  | .ok (w, r) => some (f w r)
  | .error _ => none

/-- The world after the calls `g` on the world a call returns. -/
def andThen (x : Except Fault World) (g : World → Except Fault World) : Except Fault World :=
  match x with
  | .ok w => g w
  | .error e => .error e

/-- The world a call returns, the initial world if it does not return. -/
def worldOf (x : Except Fault World) : World :=
  match x with
  | .ok w => w
  | .error _ => World.init

/-- A world with one object, reference `0` , built by `BigDecimal(1, 8)` on the
reference engine. -/
def oneAt8 : World := worldOf (dropRef (newInt64 mpfrRef World.init 1 8))

/-- Repeated calls of `SetPrecision` on object `r` , one for each listed precision. -/
def SetPrecisionAll (w : World) (r : Ref) : List Nat → Except Fault World
  | [] => .ok w
  | p :: ps =>
      match SetPrecision w r p with
      | .ok w1 => SetPrecisionAll w1 r ps
      | .error e => .error e

/-- Repeated calls of `Dispose` on object `r` . -/
def DisposeN (w : World) (r : Ref) : Nat → Except Fault World
  | 0 => .ok w
  | n + 1 =>
      match Dispose w r with
      | .ok w1 => DisposeN w1 r n
      | .error e => .error e

/-- The number of `mpfr_clear` calls a first `Dispose` adds: one for an allocated
storage, none for a null one. -/
def releasesOf (s : Storage) : Nat :=
  match s with
  | .live _ _ => 1
  | _ => 0

/-- A world with one object, reference `0` , built by `Create()` . -/
def fresh : World := (Create World.init).1

/-- A world with two objects built on the reference engine: reference `0` by
`BigDecimal(1, 64)` and reference `1` by `BigDecimal(2, 128)` . -/
def oneAt64TwoAt128 : World :=
  worldOf (dropRef (newInt64 mpfrRef
    (worldOf (dropRef (newInt64 mpfrRef World.init 1 64))) 2 128))

/-- A world with two objects built on the reference engine: reference `0` by
`BigDecimal(1, 64)` and reference `1` by `BigDecimal(2, 64)` . -/
def oneAt64TwoAt64 : World :=
  worldOf (dropRef (newInt64 mpfrRef
    (worldOf (dropRef (newInt64 mpfrRef World.init 1 64))) 2 64))

/-- What a call keeps of object `r` : the precision, the numeric value, the
disposed flag, and whether the storage is released. -/
def Kept (w w1 : World) (r : Ref) : Prop :=
  (w1.heap r)._precision = (w.heap r)._precision ∧
  numericValue (w1.heap r) = numericValue (w.heap r) ∧
  (w1.heap r)._isDisposed = (w.heap r)._isDisposed ∧
  ((w1.heap r)._value = .released ↔ (w.heap r)._value = .released)

/-- The static fields and the reference counter a method call keeps. -/
def SameStatics (w w1 : World) : Prop :=
  w1.next = w.next ∧ w1._defaultRounding = w._defaultRounding ∧
  w1._defaultPrecision = w._defaultPrecision ∧
  w1.CombinePrecisionOperator = w.CombinePrecisionOperator

/-- The precision `LPrecision` computes for the operands `x` and `y` : the policy,
when one is set, applied to the clone (the precision of `x` , no storage yet) and to
`y` ; the larger of the two precisions otherwise. -/
def combinedPrecision (w : World) (x y : Ref) : Nat :=
  match w.CombinePrecisionOperator with
  | some op => op ⟨(w.heap x)._precision, .null, false⟩ (w.heap y) % 18446744073709551616
  | none => max (Precision (w.heap x)) (Precision (w.heap y))

/-- The kernel calls a binary operator makes on its clone: the value computed from
the clone's value `a` and the right operand's value `b` at the clone's precision. -/
def opValue (E : Engine) (o : BinOp) (rnd : Rounding) (prec : Int) (a b : MpfrVal) : MpfrVal :=
  match o with
  | .plus => E.add rnd prec a b
  | .minus => E.sub rnd prec a b
  | .times => E.mul rnd prec a b
  | .divide => E.div rnd prec a b
  | .modulo => E.frac rnd prec (E.div rnd prec a b)
  | .power => E.div rnd prec a b

/-- The world `oneAt64TwoAt128` with the policy that returns `2^32 + 5` for every
pair of operands. -/
def widePolicyWorld : World :=
  setCombinePrecisionOperator oneAt64TwoAt128 (some (fun _ _ => 4294967301))

/-- The world `oneAt64TwoAt128` with the policy that adds the two precisions. -/
def sumPolicyWorld : World :=
  setCombinePrecisionOperator oneAt64TwoAt128 (some (fun a b => Precision a + Precision b))

/-- A program: two constructions, a swap across precisions, a policy, a sum, a
`Modf` , a change of precision and a value setter. -/
def demoOps : List Op :=
  [.newInt64 1 64, .newInt64 2 128, .swap 0 1, .setPolicy (some (fun _ _ => 96)),
   .binary .plus 0 1, .modf 2, .setPrecision 1 32, .setInt64 1 5]

/-- The world the program `demoOps` returns on the reference engine. -/
def demoWorld : World := worldOf (run mpfrRef World.init demoOps)

/-- Only a disposed object has a released storage. -/
def Tidy (w : World) : Prop :=
  ∀ r, (w.heap r)._value = .released → (w.heap r)._isDisposed = true

/-- The result a call returns, if it returns. -/
def resultOf {α : Type} (x : Except Fault (World × α)) : Option α :=
  match x with
  | .ok (_, a) => some a
  | .error _ => none

/-- The fault that stops a call, if one does. -/
def faultOf {α : Type} (x : Except Fault α) : Option Fault :=
  match x with
  | .ok _ => none
  | .error e => some e

/-- The static properties `PositiveZero` and then `NegativeZero` : the world and the
two references. -/
def twoZeros (w : World) : Except Fault (World × Ref × Ref) :=
  match PositiveZero w with
  | .error e => .error e
  | .ok (w1, pz) =>
      match NegativeZero w1 with
      | .error e => .error e
      | .ok (w2, nz) => .ok (w2, pz, nz)

/-- The world after `PositiveZero` and `NegativeZero` in the initial world:
references `0` and `1` . -/
def zerosWorld : World :=
  match twoZeros World.init with
  | .ok (w, _, _) => w
  | .error _ => World.init

/-- A world with one object, reference `0` , built by `BigDecimal("2.75", 53)` on the
reference engine. -/
def twoPointSevenFive : World := worldOf (dropRef (newString10 mpfrRef World.init "2.75" 53))

/-- What `Modf` returns, if it returns: the objects stored into `fraction` and
`integral` , observed by `f` in the world returned. -/
def afterModf {α : Type} (x : Except Fault (World × Ref × Ref))
    (f : World → Ref → Ref → α) : Option α :=
  match x with
  | .ok (w, fraction, integral) => some (f w fraction integral)
  | .error _ => none

/-- Every stored precision satisfies `Q` , the default precision satisfies `D` , and
the policy returns precisions whose stored form satisfies `Q` . -/
def FieldInv (Q D : Int32 → Prop) (w : World) : Prop :=
  (∀ r, Q (w.heap r)._precision) ∧ D w._defaultPrecision ∧
  (∀ f, w.CombinePrecisionOperator = some f →
    ∀ a b, Q (toInt32 (f a b % 18446744073709551616)))

/-- Every precision the operation supplies satisfies, once stored, `Q` , or `D` for
the default precision. -/
def Op.supplies (Q D : Int32 → Prop) : Op → Prop
  | .createP p => Q (toInt32 p)
  | .newInt64 _ p => Q (toInt32 p)
  | .newUInt64 _ p => Q (toInt32 p)
  | .setPrecision _ p => Q (toInt32 p)
  | .setDefaultPrecision p => D (toInt32 p)
  | .setPolicy (some f) => ∀ a b, Q (toInt32 (f a b % 18446744073709551616))
  | _ => True

/-- Every precision the operation supplies is at least `2` and below `2^31` ; for a
policy, every precision it can return. -/
def Op.precisionsFrom2 : Op → Prop
  | .createP p => 2 ≤ p ∧ p < 2147483648
  | .newInt64 _ p => 2 ≤ p ∧ p < 2147483648
  | .newUInt64 _ p => 2 ≤ p ∧ p < 2147483648
  | .setPrecision _ p => 2 ≤ p ∧ p < 2147483648
  | .setDefaultPrecision p => 2 ≤ p ∧ p < 2147483648
  | .setPolicy (some f) => ∀ a b, 2 ≤ f a b ∧ f a b < 2147483648
  | _ => True

/-- The operation is not a call of the setter of `DefaultPrecision` . -/
def Op.keepsDefault : Op → Prop
  | .setDefaultPrecision _ => False
  | _ => True

/-- The precision of the object a construction returns, if it returns. -/
def newPrecision (x : Except Fault (World × Ref)) : Option Nat :=
  afterNew x (fun w r => Precision (w.heap r))

/-- The body shared by the constructors with a value: `SetPrecision(precision)` and
then a setter that is one kernel call `f` , on a new object. -/
def ctorWith (w : World) (precision : Nat) (f : Int → MpfrVal → MpfrVal) :
    Except Fault (World × Ref) :=
  match SetPrecision (gcnew w).1 (gcnew w).2 precision with
  | .error e => .error e
  | .ok w1 =>
      match kernel1 w1 (gcnew w).2 f with
      | .error e => .error e
      | .ok w2 => .ok (w2, (gcnew w).2)

/-- Whether a value is one an engine number of precision `prec` can hold: a regular
number has an odd significand of at most `prec` bits. -/
def fits (prec : Int) : MpfrVal → Bool
  | .num _ m _ => decide (0 < prec) && decide (m % 2 = 1) && decide (m < 2 ^ prec.toNat)
  | _ => true

/-- The chain `x.Neg(rounding1).Neg(rounding2)` : each call returns its receiver, on
which the next is made. -/
def negNegR (E : Engine) (w : World) (r : Ref) (rounding1 rounding2 : Rounding) :
    Except Fault (World × Ref) :=
  match returningThis (NegR E w r rounding1) r with
  | .ok (w1, r1) => returningThis (NegR E w1 r1 rounding2) r1
  | .error e => .error e

/-- The chain `x.Neg().Neg()` . -/
def negNeg (E : Engine) (w : World) (r : Ref) : Except Fault (World × Ref) :=
  match returningThis (Neg E w r) r with
  | .ok (w1, r1) => returningThis (Neg E w1 r1) r1
  | .error e => .error e

/-- A world with one object, reference `0` , built by `BigDecimal("-2.75", 53)` on the
reference engine. -/
def minusTwoPointSevenFive : World :=
  worldOf (dropRef (newString10 mpfrRef World.init "-2.75" 53))

/-- Two objects at precision `53` : object `0` holds `a` , object `1` holds `b` . -/
def pairAt53 (a b : Int) : World :=
  worldOf (dropRef (newInt64 mpfrRef (worldOf (dropRef (newInt64 mpfrRef World.init a 53))) b 53))

/-- Object `0` holds `2` , object `1` holds `3` , both at precision `53` . -/
def twoAndThree : World := pairAt53 2 3

/-- Object `0` holds `5` , object `1` holds `3` , both at precision `53` . -/
def fiveAndThree : World := pairAt53 5 3

/-- One object, at precision `53` , holding the numeral `s` read in base ten. -/
def holding (s : String) : World := worldOf (dropRef (newString10 mpfrRef World.init s 53))

/-- The value truncated toward zero: the integral part of a regular number, with its
sign, rounded toward zero to the precision; the other values as they are. -/
def truncatedTowardZero (prec : Int) : MpfrVal → MpfrVal
  | .num s m e => roundSigned .TowardZero prec (truncPart s m e) 1 s
  | v => v

/-- The object made by `Create()` , disposed, and then given the value `5` . -/
def usedAfterDispose : World :=
  worldOf (andThen (Dispose fresh 0) (fun w => Set_Int64 mpfrRef w 0 5))

/-! ## Theorems -/

theorem enginePrecision_bounds {p : Int} (h : enginePrecision p = true) :
    2 ≤ p ∧ p ≤ 2147483391 := by
  simpa [enginePrecision, MPFR_PREC_MIN, MPFR_PREC_MAX] using h

/-- A 64-bit precision the engine accepts as it is: it is at least `2` and the
narrowing to the engine's precision type keeps it. -/
theorem enginePrecision_nat {q : Nat} (h : enginePrecision (q : Int) = true) :
    2 ≤ q ∧ q < 2147483648 := by
  have := enginePrecision_bounds h
  omega

theorem heap_update_same (w : World) (r : Ref) (b : BigDecimal) :
    (w.update r b).heap r = b := by
  simp [World.update]

theorem heap_update_other (w : World) (r r' : Ref) (b : BigDecimal) (h : r' ≠ r) :
    (w.update r b).heap r' = w.heap r' := by
  simp [World.update, Function.update_noteq h]

theorem toUInt64_toLong (q : Nat) (h : q < 2147483648) : toUInt64 (toLong q) = q := by
  unfold toUInt64 toLong
  split <;> omega

theorem toLong_toUInt64 (i : Int32) : toLong (toUInt64 i.val) = i.val := by
  have h1 := i.lo
  have h2 := i.hi
  unfold toUInt64 toLong
  split <;> omega

theorem toInt32_Precision (b : BigDecimal) : toInt32 (Precision b) = b._precision := by
  have h := toLong_toUInt64 b._precision
  cases hb : b._precision with
  | mk v lo hi =>
    simp only [toInt32, Precision, hb] at h ⊢
    simp [h]

theorem Precision_toInt32 (q : Nat) (h : q < 2147483648) (s : Storage)
    (d : Bool) : Precision ⟨toInt32 q, s, d⟩ = q := by
  simp [Precision, toInt32, toUInt64_toLong q h]

theorem Kept.kept_refl (w : World) (r : Ref) : Kept w w r := ⟨rfl, rfl, rfl, Iff.rfl⟩

theorem Kept.chain {w w1 w2 : World} {r : Ref} (h1 : Kept w w1 r) (h2 : Kept w1 w2 r) :
    Kept w w2 r :=
  ⟨h2.1.trans h1.1, h2.2.1.trans h1.2.1, h2.2.2.1.trans h1.2.2.1, h2.2.2.2.trans h1.2.2.2⟩

theorem Kept.of_heap_eq {w w1 : World} {r : Ref} (h : w1.heap r = w.heap r) : Kept w w1 r := by
  simp [Kept, h]

theorem Kept.precision {w w1 : World} {r : Ref} (h : Kept w w1 r) :
    Precision (w1.heap r) = Precision (w.heap r) := by
  simp [Precision, h.1]

theorem SameStatics.statics_refl (w : World) : SameStatics w w := ⟨rfl, rfl, rfl, rfl⟩

theorem SameStatics.seq {w w1 w2 : World} (h1 : SameStatics w w1) (h2 : SameStatics w1 w2) :
    SameStatics w w2 :=
  ⟨h2.1.trans h1.1, h2.2.1.trans h1.2.1, h2.2.2.1.trans h1.2.2.1, h2.2.2.2.trans h1.2.2.2⟩

theorem value_other (w : World) (r r' : Ref) (h : r' ≠ r) :
    (value w r).heap r' = w.heap r' := by
  unfold value
  cases (w.heap r)._value <;> simp [World.setStorage, World.update, Function.update_noteq h]

theorem value_of_live (w : World) (r : Ref) (p : Int) (v : MpfrVal)
    (h : (w.heap r)._value = .live p v) : value w r = w := by
  simp [value, h]

theorem value_kept (w : World) (r r' : Ref) : Kept w (value w r) r' := by
  by_cases h : r' = r
  · subst h
    unfold value
    cases hv : (w.heap r')._value <;>
      simp [Kept, World.setStorage, World.update, numericValue, hv]
  · exact Kept.of_heap_eq (value_other w r r' h)

theorem value_statics (w : World) (r : Ref) : SameStatics w (value w r) := by
  unfold value
  cases (w.heap r)._value <;> simp [SameStatics, World.setStorage, World.update]

/-- After the getter the storage of a non-released object is live, at the stored
precision when it was null before. -/
theorem value_live (w : World) (r : Ref) (h : (w.heap r)._value ≠ .released) :
    ∃ p, ((value w r).heap r)._value = .live p (numericValue (w.heap r)) ∧
      ((w.heap r)._value = .null → p = (w.heap r)._precision.val) ∧
      (∀ q v, (w.heap r)._value = .live q v → p = q) := by
  unfold value
  cases hv : (w.heap r)._value with
  | released => exact absurd hv h
  | null =>
    refine ⟨(w.heap r)._precision.val, ?_, fun _ => rfl, fun q v hq => by simp at hq⟩
    simp [World.setStorage, World.update, numericValue, hv, toLong_toUInt64, Precision]
  | live p v =>
    refine ⟨p, ?_, fun hq => by simp at hq, fun q v hq => by simp at hq; exact hq.1⟩
    simp [numericValue, hv]

/-- A unary kernel call on a live storage. -/
theorem kernel1_live (w : World) (r : Ref) (f : Int → MpfrVal → MpfrVal) (p : Int) (v : MpfrVal)
    (h : (w.heap r)._value = .live p v) :
    ∃ w1, kernel1 w r f = .ok w1 ∧ (w1.heap r)._value = .live p (f p v) ∧
      (w1.heap r)._precision = (w.heap r)._precision ∧
      (w1.heap r)._isDisposed = (w.heap r)._isDisposed ∧
      (∀ r', r' ≠ r → w1.heap r' = w.heap r') ∧ SameStatics w w1 := by
  refine ⟨_, by simp [kernel1, value_of_live w r p v h, deref, h]; rfl, ?_, ?_, ?_, ?_, ?_⟩
  · simp [World.called, World.setStorage, World.update]
  · simp [World.called, World.setStorage, World.update]
  · simp [World.called, World.setStorage, World.update]
  · intro r' hr
    simp [World.called, World.setStorage, World.update, Function.update_noteq hr]
  · simp [SameStatics, World.called, World.setStorage, World.update]

/-- A binary kernel call whose receiver has a live storage and whose argument is
another object, not released. -/
theorem kernel2_live (w : World) (r y : Ref) (f : Int → MpfrVal → MpfrVal → MpfrVal) (p : Int)
    (v : MpfrVal) (h : (w.heap r)._value = .live p v) (hy : (w.heap y)._value ≠ .released)
    (hne : y ≠ r) :
    ∃ w1, kernel2 w r y f = .ok w1 ∧
      (w1.heap r)._value = .live p (f p v (numericValue (w.heap y))) ∧
      (w1.heap r)._precision = (w.heap r)._precision ∧
      (w1.heap r)._isDisposed = (w.heap r)._isDisposed ∧
      (∀ r', r' ≠ r → Kept w w1 r') ∧ SameStatics w w1 := by
  obtain ⟨q, hq, _, _⟩ := value_live w y hy
  have hr : ((value w y).heap r)._value = .live p v := by
    rw [value_other w y r (fun e => hne e.symm)]
    exact h
  refine ⟨((value w y).setStorage r (.live p (f p v (numericValue (w.heap y))))).called,
    ?_, ?_, ?_, ?_, ?_, ?_⟩
  · simp [kernel2, value_of_live w r p v h, deref, hq, hr]
  · simp [World.called, World.setStorage, World.update]
  · simp [World.called, World.setStorage, World.update, value_other w y r (fun e => hne e.symm)]
  · simp [World.called, World.setStorage, World.update, value_other w y r (fun e => hne e.symm)]
  · intro r' hr'
    have : (((value w y).setStorage r (.live p (f p v (numericValue (w.heap y))))).called).heap r'
        = (value w y).heap r' := by
      simp [World.called, World.setStorage, World.update, Function.update_noteq hr']
    exact (value_kept w y r').chain (Kept.of_heap_eq this)
  · have hs := value_statics w y
    simpa [SameStatics, World.called, World.setStorage, World.update] using hs

theorem value_idem (w : World) (r : Ref) : value (value w r) r = value w r := by
  cases hv : (w.heap r)._value with
  | null =>
    have : ((value w r).heap r)._value
        = .live (toLong (Precision (w.heap r))) .nan := by
      simp [value, hv, World.setStorage, World.update]
    exact value_of_live _ _ _ _ this
  | live p v => rw [value_of_live w r p v hv, value_of_live w r p v hv]
  | released => simp [value, hv]

/-- A unary kernel call on an object that is not released. -/
theorem kernel1_spec (w : World) (r : Ref) (f : Int → MpfrVal → MpfrVal)
    (h : (w.heap r)._value ≠ .released) :
    ∃ w1 p, kernel1 w r f = .ok w1 ∧
      (w1.heap r)._value = .live p (f p (numericValue (w.heap r))) ∧
      ((w.heap r)._value = .null → p = (w.heap r)._precision.val) ∧
      (∀ q v, (w.heap r)._value = .live q v → p = q) ∧
      (w1.heap r)._precision = (w.heap r)._precision ∧
      (w1.heap r)._isDisposed = (w.heap r)._isDisposed ∧
      (∀ r', r' ≠ r → w1.heap r' = w.heap r') ∧ SameStatics w w1 := by
  obtain ⟨p, hp, hn, hl⟩ := value_live w r h
  obtain ⟨w1, h1, hv, hpr, hd, ho, hs⟩ := kernel1_live (value w r) r f p _ hp
  have hk := value_kept w r r
  refine ⟨w1, p, ?_, hv, hn, hl, hpr.trans hk.1, hd.trans hk.2.2.1, ?_, (value_statics w r).seq hs⟩
  · rw [← h1]
    simp [kernel1, value_idem]
  · intro r' hr
    rw [ho r' hr, value_other w r r' hr]

/-- A binary kernel call whose receiver and argument are distinct objects, neither
released. -/
theorem kernel2_spec (w : World) (r y : Ref) (f : Int → MpfrVal → MpfrVal → MpfrVal)
    (h : (w.heap r)._value ≠ .released) (hy : (w.heap y)._value ≠ .released) (hne : y ≠ r) :
    ∃ w1 p, kernel2 w r y f = .ok w1 ∧
      (w1.heap r)._value = .live p (f p (numericValue (w.heap r)) (numericValue (w.heap y))) ∧
      ((w.heap r)._value = .null → p = (w.heap r)._precision.val) ∧
      (∀ q v, (w.heap r)._value = .live q v → p = q) ∧
      (w1.heap r)._precision = (w.heap r)._precision ∧
      (w1.heap r)._isDisposed = (w.heap r)._isDisposed ∧
      (∀ r', r' ≠ r → Kept w w1 r') ∧ SameStatics w w1 := by
  obtain ⟨p, hp, hn, hl⟩ := value_live w r h
  have hyo : (value w r).heap y = w.heap y := value_other w r y hne
  have hy' : ((value w r).heap y)._value ≠ .released := by rw [hyo]; exact hy
  obtain ⟨w1, h1, hv, hpr, hd, ho, hs⟩ := kernel2_live (value w r) r y f p _ hp hy' hne
  have hk := value_kept w r r
  refine ⟨w1, p, ?_, ?_, hn, hl, hpr.trans hk.1, hd.trans hk.2.2.1, ?_,
    (value_statics w r).seq hs⟩
  · rw [← h1]
    simp [kernel2, value_idem]
  · rw [hv, hyo]
  · intro r' hr
    exact (value_kept w r r').chain (ho r' hr)

/-- The setter of `Precision` on an object whose storage is null. -/
theorem setPrecision_null_spec (w : World) (r : Ref) (q : Nat)
    (hs : (w.heap r)._value = .null) :
    ∃ w1, SetPrecision w r q = .ok w1 ∧
      w1.heap r = ⟨toInt32 q, .null, (w.heap r)._isDisposed⟩ ∧
      (∀ r', r' ≠ r → w1.heap r' = w.heap r') ∧ SameStatics w w1 := by
  unfold SetPrecision setPrecision
  by_cases h : Precision (w.heap r) ≠ q
  · rw [if_pos h]
    refine ⟨_, by simp [World.update, hs]; rfl, by simp [World.update, hs], ?_, ?_⟩
    · intro r' hr
      simp [World.update, Function.update_noteq hr]
    · simp [SameStatics, World.update]
  · rw [if_neg h]
    have hq : Precision (w.heap r) = q := not_not.mp h
    refine ⟨w, rfl, ?_, fun _ _ => rfl, SameStatics.statics_refl w⟩
    rw [← hq, toInt32_Precision, ← hs]

/-- The factory `Create(q)` returns the next reference, with the precision `q`
narrowed to `int` and a null storage; nothing else changes. -/
theorem createP_spec (w : World) (q : Nat) :
    ∃ w1, CreateP w q = .ok (w1, w.next) ∧ w1.heap w.next = ⟨toInt32 q, .null, false⟩ ∧
      (∀ r', r' ≠ w.next → w1.heap r' = w.heap r') ∧ w1.next = w.next + 1 ∧
      w1._defaultRounding = w._defaultRounding ∧
      w1._defaultPrecision = w._defaultPrecision ∧
      w1.CombinePrecisionOperator = w.CombinePrecisionOperator := by
  have hn : (((Create w).1).heap (Create w).2)._value = .null := by simp [Create, gcnew]
  obtain ⟨w1, h1, hh, ho, hst⟩ := setPrecision_null_spec (Create w).1 (Create w).2 q hn
  refine ⟨w1, ?_, ?_, ?_, ?_, ?_, ?_, ?_⟩
  · unfold CreateP
    rw [h1]
    rfl
  · have : (Create w).2 = w.next := rfl
    rw [this] at hh
    rw [hh]
    simp [Create, gcnew]
  · intro r' hr
    have : (Create w).2 = w.next := rfl
    rw [this] at ho
    rw [ho r' hr]
    simp [Create, gcnew, Function.update_noteq hr]
  · rw [hst.1]; rfl
  · rw [hst.2.1]; rfl
  · rw [hst.2.2.1]; rfl
  · rw [hst.2.2.2]; rfl

/-- The clone `LValue(x, y)` makes: the next reference, at the combined precision
narrowed to `int` , holding the value of `x` rounded to it; the existing objects keep
precision and value. -/
theorem LValue2_spec (E : Engine) (w : World) (x y : Ref) (hx : x < w.next) (hy : y < w.next)
    (hxs : (w.heap x)._value ≠ .released) :
    ∃ w3, LValue2 E w x y = .ok (w3, w.next) ∧
      (w3.heap w.next)._value = .live (toLong (combinedPrecision w x y))
        (E.set w._defaultRounding (toLong (combinedPrecision w x y))
          (numericValue (w.heap x))) ∧
      (w3.heap w.next)._precision = toInt32 (combinedPrecision w x y) ∧
      (w3.heap w.next)._isDisposed = false ∧
      (∀ r', r' ≠ w.next → Kept w w3 r') ∧ w3.next = w.next + 1 ∧
      w3._defaultRounding = w._defaultRounding ∧
      w3._defaultPrecision = w._defaultPrecision ∧
      w3.CombinePrecisionOperator = w.CombinePrecisionOperator := by
  have hxn : x ≠ w.next := Nat.ne_of_lt hx
  have hyn : y ≠ w.next := Nat.ne_of_lt hy
  obtain ⟨w1, h1, hh1, ho1, hn1, hr1, hd1, hp1⟩ := createP_spec w (Precision (w.heap x))
  have hc : LPrecision w1 w.next y = SetPrecision w1 w.next (combinedPrecision w x y) := by
    unfold LPrecision combinedPrecision
    rw [hp1, hh1, ho1 y hyn, toInt32_Precision]
    cases w.CombinePrecisionOperator with
    | none => simp [Precision]
    | some op => rfl
  obtain ⟨w2, h2, hh2, ho2, hst2⟩ :=
    setPrecision_null_spec w1 w.next (combinedPrecision w x y) (by rw [hh1])
  have hx2 : w2.heap x = w.heap x := by rw [ho2 x hxn, ho1 x hxn]
  have hnull : (w2.heap w.next)._value = .null := by rw [hh2]
  obtain ⟨w3, p, h3, hv3, hpn, _, hpr3, hdi3, hk3, hst3⟩ :=
    kernel2_spec w2 w.next x (fun p _ b => E.set w2._defaultRounding p b)
      (by rw [hnull]; simp) (by rw [hx2]; exact hxs) hxn
  have hp : p = toLong (combinedPrecision w x y) := by
    rw [hpn hnull, hh2]
    rfl
  have hrd : w2._defaultRounding = w._defaultRounding := by rw [hst2.2.1, hr1]
  refine ⟨w3, ?_, ?_, ?_, ?_, ?_, ?_, ?_, ?_, ?_⟩
  · unfold LValue2
    rw [h1]
    simp only []
    rw [hc, h2]
    simp only [Set, SetR]
    rw [h3]
  · rw [hv3, hx2, hp, hrd]
  · rw [hpr3, hh2]
  · rw [hdi3, hh2, hh1]
  · intro r' hr
    have h12 : w2.heap r' = w.heap r' := by rw [ho2 r' hr, ho1 r' hr]
    exact (Kept.of_heap_eq h12).chain (hk3 r' hr)
  · rw [hst3.1, hst2.1, hn1]
  · rw [hst3.2.1, hrd]
  · rw [hst3.2.2.1, hst2.2.2.1, hd1]
  · rw [hst3.2.2.2, hst2.2.2.2, hp1]

/-- A binary operator on operands that are not released returns the next reference;
the new object has the combined precision narrowed to `int` and holds the value the
operator's kernel calls compute from the value of `x` rounded to that precision and
the value of `y` ; the existing objects keep precision and value. -/
theorem binop_spec (E : Engine) (o : BinOp) (w : World) (x y : Ref) (hx : x < w.next)
    (hy : y < w.next) (hxs : (w.heap x)._value ≠ .released)
    (hys : (w.heap y)._value ≠ .released) :
    ∃ w4, binop E o w x y = .ok (w4, w.next) ∧
      (w4.heap w.next)._value = .live (toLong (combinedPrecision w x y))
        (opValue E o w._defaultRounding (toLong (combinedPrecision w x y))
          (E.set w._defaultRounding (toLong (combinedPrecision w x y))
            (numericValue (w.heap x)))
          (numericValue (w.heap y))) ∧
      (w4.heap w.next)._precision = toInt32 (combinedPrecision w x y) ∧
      (∀ r', r' ≠ w.next → Kept w w4 r') := by
  have hyn : y ≠ w.next := Nat.ne_of_lt hy
  obtain ⟨w3, h3, hv3, hp3, _, hk3, _, hrd3, _, _⟩ := LValue2_spec E w x y hx hy hxs
  have hy3 : (w3.heap y)._value ≠ .released := fun h => hys ((hk3 y hyn).2.2.2.1 h)
  have hyv : numericValue (w3.heap y) = numericValue (w.heap y) := (hk3 y hyn).2.1
  have key : ∀ f : Int → MpfrVal → MpfrVal → MpfrVal,
      ∃ w4, kernel2 w3 w.next y f = .ok w4 ∧
        (w4.heap w.next)._value = .live (toLong (combinedPrecision w x y))
          (f (toLong (combinedPrecision w x y))
            (E.set w._defaultRounding (toLong (combinedPrecision w x y))
              (numericValue (w.heap x)))
            (numericValue (w.heap y))) ∧
        (w4.heap w.next)._precision = toInt32 (combinedPrecision w x y) ∧
        (∀ r', r' ≠ w.next → Kept w w4 r') ∧ SameStatics w3 w4 := by
    intro f
    obtain ⟨w4, h4, hv4, hp4, _, hk4, hs4⟩ := kernel2_live w3 w.next y f _ _ hv3 hy3 hyn
    refine ⟨w4, h4, ?_, hp4.trans hp3, fun r' hr => (hk3 r' hr).chain (hk4 r' hr), hs4⟩
    rw [hv4, hyv]
  unfold binop
  rw [h3]
  cases o with
  | plus =>
    obtain ⟨w4, h4, hv, hp, hk, _⟩ := key (E.add w3._defaultRounding)
    refine ⟨w4, ?_, ?_, hp, hk⟩
    · simp [Add, AddR, h4, Except.map]
    · rw [hv, hrd3]; rfl
  | minus =>
    obtain ⟨w4, h4, hv, hp, hk, _⟩ := key (E.sub w3._defaultRounding)
    refine ⟨w4, ?_, ?_, hp, hk⟩
    · simp [Sub, SubR, h4, Except.map]
    · rw [hv, hrd3]; rfl
  | times =>
    obtain ⟨w4, h4, hv, hp, hk, _⟩ := key (E.mul w3._defaultRounding)
    refine ⟨w4, ?_, ?_, hp, hk⟩
    · simp [Mul, MulR, h4, Except.map]
    · rw [hv, hrd3]; rfl
  | divide =>
    obtain ⟨w4, h4, hv, hp, hk, _⟩ := key (E.div w3._defaultRounding)
    refine ⟨w4, ?_, ?_, hp, hk⟩
    · simp [Div, DivR, h4, Except.map]
    · rw [hv, hrd3]; rfl
  | power =>
    obtain ⟨w4, h4, hv, hp, hk, _⟩ := key (E.div w3._defaultRounding)
    refine ⟨w4, ?_, ?_, hp, hk⟩
    · simp [Pow, DivR, h4, Except.map]
    · rw [hv, hrd3]; rfl
  | modulo =>
    obtain ⟨w4, h4, hv, hp, hk, hs4⟩ := key (E.div w3._defaultRounding)
    obtain ⟨w5, h5, hv5, hp5, _, ho5, _⟩ :=
      kernel1_live w4 w.next (E.frac w4._defaultRounding) _ _ hv
    refine ⟨w5, ?_, ?_, hp5.trans hp, ?_⟩
    · simp [Div, DivR, h4, Frac, FracR, h5, Except.map]
    · rw [hv5, hs4.2.1, hrd3]; rfl
    · intro r' hr
      exact (hk r' hr).chain (Kept.of_heap_eq (ho5 r' hr))

theorem deref_ok {w : World} {r : Ref} {p : Int} {v : MpfrVal} (h : deref w r = .ok (p, v)) :
    (w.heap r)._value = .live p v := by
  unfold deref at h
  cases hv : (w.heap r)._value with
  | null => simp [hv] at h
  | released => simp [hv] at h
  | live q u =>
    simp [hv] at h
    rw [h.1, h.2]

theorem Good.of_same {w w1 : World} (h : Good w) (hh : w1.heap = w.heap)
    (hd : w1._defaultPrecision = w._defaultPrecision)
    (hp : w1.CombinePrecisionOperator = w.CombinePrecisionOperator) : Good w1 := by
  unfold Good
  rw [hh, hd, hp]
  exact h

theorem Good.update {w : World} (h : Good w) (r : Ref) (b : BigDecimal) (hb : Sized b) :
    Good (w.update r b) := by
  refine ⟨fun r' => ?_, h.2.1, h.2.2⟩
  by_cases e : r' = r
  · subst e
    rw [heap_update_same]
    exact hb
  · rw [heap_update_other w r r' b e]
    exact h.1 r'

theorem Good.setStorage_live {w : World} (h : Good w) (r : Ref) (p : Int) (v v' : MpfrVal)
    (hs : (w.heap r)._value = .live p v) : Good (w.setStorage r (.live p v')).called := by
  have hg : Good (w.setStorage r (.live p v')) := by
    unfold World.setStorage
    refine h.update r _ ⟨?_, (h.1 r).2⟩
    intro q u hq
    simp at hq
    rw [← hq.1]
    exact (h.1 r).1 p v hs
  exact hg.of_same rfl rfl rfl

theorem value_good {w : World} (h : Good w) (r : Ref) : Good (value w r) := by
  unfold value
  cases hv : (w.heap r)._value with
  | null =>
    have hg : Good (w.setStorage r (.live (toLong (Precision (w.heap r))) .nan)) := by
      unfold World.setStorage
      refine h.update r _ ⟨?_, (h.1 r).2⟩
      intro q u hq
      simp at hq
      rw [← hq.1]
      exact toLong_toUInt64 _
    exact hg.of_same rfl rfl rfl
  | live p v => exact h
  | released => exact h

theorem kernel1_good {w w1 : World} {r : Ref} {f : Int → MpfrVal → MpfrVal} (h : Good w)
    (hk : kernel1 w r f = .ok w1) : Good w1 := by
  unfold kernel1 at hk
  cases hd : deref (value w r) r with
  | error e => simp [hd] at hk
  | ok pv =>
    obtain ⟨p, v⟩ := pv
    simp [hd] at hk
    rw [← hk]
    exact (value_good h r).setStorage_live r p v _ (deref_ok hd)

theorem kernel2_good {w w1 : World} {r y : Ref} {f : Int → MpfrVal → MpfrVal → MpfrVal}
    (h : Good w) (hk : kernel2 w r y f = .ok w1) : Good w1 := by
  unfold kernel2 at hk
  cases hd : deref (value (value w r) y) r with
  | error e => simp [hd] at hk
  | ok pv =>
    obtain ⟨p, v⟩ := pv
    cases hd2 : deref (value (value w r) y) y with
    | error e => simp [hd, hd2] at hk
    | ok qu =>
      obtain ⟨q, u⟩ := qu
      simp [hd, hd2] at hk
      rw [← hk]
      exact (value_good (value_good h r) y).setStorage_live r p v _ (deref_ok hd)

theorem toLong_nonneg (q : Nat) (h : q < 2147483648) : 0 ≤ toLong q := by
  unfold toLong
  split <;> omega

theorem Precision_lt (b : BigDecimal) (h : 0 ≤ b._precision.val) : Precision b < 2147483648 := by
  have h2 := b._precision.hi
  unfold Precision toUInt64
  omega

theorem precision_eq_of_Precision_eq (a b : BigDecimal) (h : Precision a = Precision b) :
    a._precision.val = b._precision.val := by
  have h1 := toLong_toUInt64 a._precision
  have h2 := toLong_toUInt64 b._precision
  unfold Precision at h
  rw [← h1, ← h2, h]

/-- The setter of `Precision` , called with a precision below `2^31` on an object
whose storage, if allocated, has the stored precision unless that already equals the
new one: afterwards the object is `Sized` , and nothing else has changed. -/
theorem setPrecision_fix {w w1 : World} {r : Ref} {q : Nat} (hq : q < 2147483648)
    (hk : setPrecision w r q = .ok w1) (hn : 0 ≤ (w.heap r)._precision.val)
    (hs : ∀ p v, (w.heap r)._value = .live p v → Precision (w.heap r) = q →
      p = (w.heap r)._precision.val) :
    Sized (w1.heap r) ∧ (∀ r', r' ≠ r → w1.heap r' = w.heap r') ∧
      w1._defaultPrecision = w._defaultPrecision ∧
      w1.CombinePrecisionOperator = w.CombinePrecisionOperator ∧
      Precision (w1.heap r) = q := by
  unfold setPrecision at hk
  by_cases hne : Precision (w.heap r) ≠ q
  · rw [if_pos hne] at hk
    cases hv : (w.heap r)._value with
    | null =>
      simp [World.update, hv] at hk
      rw [← hk]
      refine ⟨⟨?_, ?_⟩, ?_, rfl, rfl, ?_⟩
      · intro p v hp
        simp [hv] at hp
      · simpa [toInt32] using toLong_nonneg q hq
      · intro r' hr
        simp [Function.update_noteq hr]
      · simp [Precision, toInt32, toUInt64_toLong q hq]
    | live p v =>
      simp [World.update, hv, value, mpfr_set_prec, deref, World.setStorage, World.called] at hk
      rw [← hk]
      refine ⟨⟨?_, ?_⟩, ?_, rfl, rfl, ?_⟩
      · intro p v hp
        simp at hp
        simp [toInt32, hp.1]
      · simpa [toInt32] using toLong_nonneg q hq
      · intro r' hr
        simp [Function.update_noteq hr]
      · simp [Precision, toInt32, toUInt64_toLong q hq]
    | released =>
      simp [World.update, hv, value, mpfr_set_prec, deref] at hk
  · rw [if_neg hne] at hk
    have he : Precision (w.heap r) = q := not_not.mp hne
    simp at hk
    rw [← hk]
    exact ⟨⟨fun p v hp => hs p v hp he, hn⟩, fun _ _ => rfl, rfl, rfl, he⟩

theorem setPrecision_good {w w1 : World} {r : Ref} {q : Nat} (h : Good w)
    (hq : q < 2147483648) (hk : setPrecision w r q = .ok w1) : Good w1 := by
  obtain ⟨hs, ho, hd, hp, _⟩ :=
    setPrecision_fix hq hk (h.1 r).2 (fun p v hv _ => (h.1 r).1 p v hv)
  refine ⟨fun r' => ?_, by rw [hd]; exact h.2.1, by rw [hp]; exact h.2.2⟩
  by_cases e : r' = r
  · subst e
    exact hs
  · rw [ho r' e]
    exact h.1 r'

theorem DefaultPrecision_lt {w : World} (h : Good w) : DefaultPrecision w < 2147483648 := by
  have h1 := h.2.1
  have h2 := w._defaultPrecision.hi
  unfold DefaultPrecision toUInt64
  omega

theorem gcnew_good {w : World} (h : Good w) : Good (gcnew w).1 := by
  have hg : Good (w.update w.next ⟨toInt32 (DefaultPrecision w), .null, false⟩) := by
    refine h.update _ _ ⟨?_, ?_⟩
    · intro p v hp
      simp at hp
    · simpa [toInt32] using toLong_nonneg _ (DefaultPrecision_lt h)
  exact hg.of_same rfl rfl rfl

theorem createP_good {w w1 : World} {q : Nat} {r : Ref} (h : Good w) (hq : q < 2147483648)
    (hk : CreateP w q = .ok (w1, r)) : Good w1 := by
  unfold CreateP at hk
  cases hs : SetPrecision (Create w).1 (Create w).2 q with
  | error e => simp [hs] at hk
  | ok w2 =>
    simp [hs] at hk
    rw [← hk.1]
    exact setPrecision_good (gcnew_good h) hq hs

theorem newInt64_good {E : Engine} {w w1 : World} {v : Int} {q : Nat} {r : Ref} (h : Good w)
    (hq : q < 2147483648) (hk : newInt64 E w v q = .ok (w1, r)) : Good w1 := by
  unfold newInt64 at hk
  cases hs : SetPrecision (gcnew w).1 (gcnew w).2 q with
  | error e => simp [hs] at hk
  | ok w2 =>
    cases hv : Set_Int64 E w2 (gcnew w).2 v with
    | error e => simp [hs, hv] at hk
    | ok w3 =>
      simp [hs, hv] at hk
      rw [← hk.1]
      exact kernel1_good (setPrecision_good (gcnew_good h) hq hs) hv

theorem newUInt64_good {E : Engine} {w w1 : World} {v : Nat} {q : Nat} {r : Ref} (h : Good w)
    (hq : q < 2147483648) (hk : newUInt64 E w v q = .ok (w1, r)) : Good w1 := by
  unfold newUInt64 at hk
  cases hs : SetPrecision (gcnew w).1 (gcnew w).2 q with
  | error e => simp [hs] at hk
  | ok w2 =>
    cases hv : Set_UInt64 E w2 (gcnew w).2 v with
    | error e => simp [hs, hv] at hk
    | ok w3 =>
      simp [hs, hv] at hk
      rw [← hk.1]
      exact kernel1_good (setPrecision_good (gcnew_good h) hq hs) hv

theorem LPrecision_good {w w1 : World} {r y : Ref} (h : Good w)
    (hk : LPrecision w r y = .ok w1) : Good w1 := by
  unfold LPrecision at hk
  refine setPrecision_good h ?_ hk
  cases hp : w.CombinePrecisionOperator with
  | none =>
    have h1 := Precision_lt (w.heap r) (h.1 r).2
    have h2 := Precision_lt (w.heap y) (h.1 y).2
    simp only []
    exact max_lt h1 h2
  | some f =>
    have := h.2.2 f hp (w.heap r) (w.heap y)
    simp only []
    omega

theorem LValue_good {E : Engine} {w w1 : World} {x r : Ref} (h : Good w)
    (hk : LValue E w x = .ok (w1, r)) : Good w1 := by
  unfold LValue at hk
  cases hc : CreateP w (Precision (w.heap x)) with
  | error e => simp [hc] at hk
  | ok wr =>
    obtain ⟨w2, n⟩ := wr
    cases hs : Set E w2 n x with
    | error e => simp [hc, hs] at hk
    | ok w3 =>
      simp [hc, hs] at hk
      rw [← hk.1]
      exact kernel2_good (createP_good h (Precision_lt _ (h.1 x).2) hc) hs

theorem LValue2_good {E : Engine} {w w1 : World} {x y r : Ref} (h : Good w)
    (hk : LValue2 E w x y = .ok (w1, r)) : Good w1 := by
  unfold LValue2 at hk
  cases hc : CreateP w (Precision (w.heap x)) with
  | error e => simp [hc] at hk
  | ok wr =>
    obtain ⟨w2, n⟩ := wr
    cases hl : LPrecision w2 n y with
    | error e => simp [hc, hl] at hk
    | ok w3 =>
      cases hs : Set E w3 n x with
      | error e => simp [hc, hl, hs] at hk
      | ok w4 =>
        simp [hc, hl, hs] at hk
        rw [← hk.1]
        exact kernel2_good
          (LPrecision_good (createP_good h (Precision_lt _ (h.1 x).2) hc) hl) hs

theorem call1_good {E : Engine} {m : Method1} {w w1 : World} {r : Ref} (h : Good w)
    (hk : call1 E m w r = .ok w1) : Good w1 := by
  cases m <;> exact kernel1_good h hk

theorem call1R_good {E : Engine} {m : Method1} {w w1 : World} {r : Ref} {rnd : Rounding}
    (h : Good w) (hk : call1R E m w r rnd = .ok w1) : Good w1 := by
  cases m <;> exact kernel1_good h hk

theorem call2_good {E : Engine} {m : Method2} {w w1 : World} {r y : Ref} (h : Good w)
    (hk : call2 E m w r y = .ok w1) : Good w1 := by
  cases m <;> exact kernel2_good h hk

theorem map_ok {w1 : World} {r n : Ref} {x : Except Fault World}
    (h : x.map (fun w2 => (w2, r)) = .ok (w1, n)) : x = .ok w1 := by
  cases x with
  | error e => simp [Except.map] at h
  | ok w2 =>
    simp [Except.map] at h
    rw [h.1]

theorem binop_good {E : Engine} {o : BinOp} {w w1 : World} {x y r : Ref} (h : Good w)
    (hk : binop E o w x y = .ok (w1, r)) : Good w1 := by
  unfold binop at hk
  cases hl : LValue2 E w x y with
  | error e => simp [hl] at hk
  | ok wr =>
    obtain ⟨w2, n⟩ := wr
    have h2 := LValue2_good h hl
    simp only [hl] at hk
    cases o with
    | plus => exact kernel2_good h2 (map_ok hk)
    | minus => exact kernel2_good h2 (map_ok hk)
    | times => exact kernel2_good h2 (map_ok hk)
    | divide => exact kernel2_good h2 (map_ok hk)
    | power => exact kernel2_good h2 (map_ok hk)
    | modulo =>
      cases hd : Div E w2 n y with
      | error e => simp [hd] at hk
      | ok w3 =>
        simp only [hd] at hk
        exact kernel1_good (kernel2_good h2 hd) (map_ok hk)

theorem unop_good {E : Engine} {o : UnOp} {w w1 : World} {x r : Ref} (h : Good w)
    (hk : unop E o w x = .ok (w1, r)) : Good w1 := by
  unfold unop at hk
  cases hl : LValue E w x with
  | error e => simp [hl] at hk
  | ok wr =>
    obtain ⟨w2, n⟩ := wr
    have h2 := LValue_good h hl
    simp only [hl] at hk
    cases o with
    | plus =>
      simp at hk
      rw [← hk.1]
      exact h2
    | minus => exact kernel1_good h2 (map_ok hk)
    | increment =>
      cases hc : ofInt32 E w2 1 with
      | error e => simp [hc] at hk
      | ok wo =>
        obtain ⟨w3, one⟩ := wo
        simp only [hc] at hk
        exact kernel2_good (newInt64_good h2 (DefaultPrecision_lt h2) hc) (map_ok hk)
    | decrement =>
      cases hc : ofInt32 E w2 1 with
      | error e => simp [hc] at hk
      | ok wo =>
        obtain ⟨w3, one⟩ := wo
        simp only [hc] at hk
        exact kernel2_good (newInt64_good h2 (DefaultPrecision_lt h2) hc) (map_ok hk)

theorem dispose_good {w w1 : World} {r : Ref} (h : Good w) (hk : Dispose w r = .ok w1) :
    Good w1 := by
  unfold Dispose at hk
  by_cases hd : (w.heap r)._isDisposed = false
  · rw [if_pos hd] at hk
    unfold finalizer at hk
    cases hv : (w.heap r)._value with
    | null =>
      simp [hv] at hk
      rw [← hk]
      refine h.update r _ ⟨?_, (h.1 r).2⟩
      intro p v hp
      simp [hv] at hp
    | released => simp [hv] at hk
    | live p v =>
      simp [hv] at hk
      rw [← hk]
      have hg : Good (w.setStorage r .released) := by
        unfold World.setStorage
        refine h.update r _ ⟨?_, (h.1 r).2⟩
        intro p v hp
        simp at hp
      have hg2 : Good { w.setStorage r .released with
            clearCalls := w.clearCalls + 1
            engineCalls := w.engineCalls + 1 } := hg.of_same rfl rfl rfl
      refine hg2.update r _ ⟨?_, ?_⟩
      · intro p v hp
        simp [World.setStorage, World.update] at hp
      · simpa [World.setStorage, World.update] using (h.1 r).2
  · rw [if_neg hd] at hk
    simp at hk
    rw [← hk]
    exact h

/-- What `mpfr_swap` returns: both storages were live, they are exchanged, and
nothing else changes. -/
theorem mpfr_swap_ok {w w1 : World} {r y : Ref} (hk : mpfr_swap w r y = .ok w1) :
    ∃ p a q b, (w.heap r)._value = .live p a ∧ (w.heap y)._value = .live q b ∧
      (w1.heap y)._value = .live p a ∧ (r ≠ y → (w1.heap r)._value = .live q b) ∧
      (∀ r', (w1.heap r')._precision = (w.heap r')._precision) ∧
      (∀ r', r' ≠ r → r' ≠ y → w1.heap r' = w.heap r') ∧
      w1._defaultPrecision = w._defaultPrecision ∧
      w1.CombinePrecisionOperator = w.CombinePrecisionOperator := by
  unfold mpfr_swap at hk
  cases hd : deref w r with
  | error e => simp [hd] at hk
  | ok pv =>
    obtain ⟨p, a⟩ := pv
    cases hd2 : deref w y with
    | error e => simp [hd, hd2] at hk
    | ok qu =>
      obtain ⟨q, b⟩ := qu
      simp [hd, hd2] at hk
      refine ⟨p, a, q, b, deref_ok hd, deref_ok hd2, ?_, ?_, ?_, ?_, ?_, ?_⟩
      · rw [← hk]
        simp [World.called, World.setStorage, World.update]
      · intro hne
        rw [← hk]
        simp [World.called, World.setStorage, World.update, Function.update_noteq hne]
      · intro r'
        rw [← hk]
        by_cases e1 : r' = y
        · subst e1
          by_cases e2 : r' = r
          · subst e2
            simp [World.called, World.setStorage, World.update]
          · simp [World.called, World.setStorage, World.update, Function.update_noteq e2]
        · by_cases e2 : r' = r
          · subst e2
            simp [World.called, World.setStorage, World.update, Function.update_noteq e1]
          · simp [World.called, World.setStorage, World.update, Function.update_noteq e1,
              Function.update_noteq e2]
      · intro r' e2 e1
        rw [← hk]
        simp [World.called, World.setStorage, World.update, Function.update_noteq e1,
          Function.update_noteq e2]
      · rw [← hk]
        rfl
      · rw [← hk]
        rfl

theorem swap_good {w w3 : World} {r y : Ref} (h : Good w) (hk : Swap w r y = .ok w3) :
    Good w3 := by
  unfold Swap at hk
  have hg := value_good (value_good h r) y
  generalize value (value w r) y = w0 at hk hg
  cases hm : mpfr_swap w0 r y with
  | error e => simp [hm] at hk
  | ok w1 =>
    obtain ⟨p, a, q, b, hr0, hy0, hy1, hr1, hpr, ho1, hd1, hp1⟩ := mpfr_swap_ok hm
    have hpp : p = (w0.heap r)._precision.val := (hg.1 r).1 p a hr0
    have hqq : q = (w0.heap y)._precision.val := (hg.1 y).1 q b hy0
    simp only [hm] at hk
    cases hs : SetPrecisionOf w1 r y with
    | error e => simp [hs] at hk
    | ok w2 =>
      simp only [hs] at hk
      have hn1 : ∀ r', 0 ≤ (w1.heap r')._precision.val := fun r' => by
        rw [hpr r']
        exact (hg.1 r').2
      obtain ⟨hs2, ho2, hd2, hp2, _⟩ :=
        setPrecision_fix (Precision_lt _ (hn1 y)) hs (hn1 r) (by
          intro p' v hv he
          have hev := precision_eq_of_Precision_eq _ _ he
          by_cases e : r = y
          · subst e
            rw [hy1] at hv
            simp at hv
            rw [← hv.1, hpp, hpr]
          · rw [hr1 e] at hv
            simp at hv
            rw [← hv.1, hqq, hev, hpr])
      obtain ⟨hs3, ho3, hd3, hp3, _⟩ :=
        setPrecision_fix (Precision_lt _ (hn1 r)) hk (by
          by_cases e : y = r
          · subst e
            exact hs2.2
          · rw [ho2 y e]
            exact hn1 y) (by
          intro p' v hv he
          by_cases e : y = r
          · subst e
            exact hs2.1 p' v hv
          · rw [ho2 y e] at hv he ⊢
            have hev := precision_eq_of_Precision_eq _ _ he
            rw [hy1] at hv
            simp at hv
            rw [← hv.1, hpp, hev, hpr])
      refine ⟨fun r' => ?_, ?_, ?_⟩
      · by_cases e1 : r' = y
        · subst e1
          exact hs3
        · rw [ho3 r' e1]
          by_cases e2 : r' = r
          · subst e2
            exact hs2
          · rw [ho2 r' e2, ho1 r' e2 e1]
            exact hg.1 r'
      · rw [hd3, hd2, hd1]
        exact hg.2.1
      · rw [hp3, hp2, hp1]
        exact hg.2.2

theorem Good.setStorage_prec {w : World} (h : Good w) (r : Ref) (p : Int) (v : MpfrVal)
    (hp : p = (w.heap r)._precision.val) : Good (w.setStorage r (.live p v)) := by
  unfold World.setStorage
  refine h.update r _ ⟨?_, (h.1 r).2⟩
  intro q u hq
  simp at hq
  rw [← hq.1]
  exact hp

theorem setStorage_precision (w : World) (r r' : Ref) (s : Storage) :
    ((w.setStorage r s).heap r')._precision = (w.heap r')._precision := by
  by_cases e : r' = r
  · subst e
    simp [World.setStorage, World.update]
  · simp [World.setStorage, World.update, Function.update_noteq e]

theorem modf_good {E : Engine} {w w1 : World} {r : Ref} {out : Ref × Ref} (h : Good w)
    (hk : Modf E w r = .ok (w1, out)) : Good w1 := by
  unfold Modf ModfR at hk
  cases hc : CreateP w (Precision (w.heap r)) with
  | error e => simp [hc] at hk
  | ok wr =>
    obtain ⟨w2, fraction⟩ := wr
    have h2 := createP_good h (Precision_lt _ (h.1 r).2) hc
    simp only [hc] at hk
    cases hc2 : CreateP w2 (Precision (w2.heap r)) with
    | error e => simp [hc2] at hk
    | ok wr2 =>
      obtain ⟨w3, integral⟩ := wr2
      have h3 := createP_good h2 (Precision_lt _ (h2.1 r).2) hc2
      simp only [hc2] at hk
      have h4 := value_good (value_good (value_good h3 fraction) integral) r
      generalize value (value (value w3 fraction) integral) r = w4 at hk h4
      cases hd1 : deref w4 fraction with
      | error e => simp [hd1] at hk
      | ok pv =>
        obtain ⟨pf, vf⟩ := pv
        cases hd2 : deref w4 integral with
        | error e => simp [hd1, hd2] at hk
        | ok pv2 =>
          obtain ⟨pi, vi⟩ := pv2
          cases hd3 : deref w4 r with
          | error e => simp [hd1, hd2, hd3] at hk
          | ok pv3 =>
            obtain ⟨pr, vr⟩ := pv3
            simp [hd1, hd2, hd3] at hk
            rw [← hk.1]
            have hpf := (h4.1 fraction).1 pf vf (deref_ok hd1)
            have hpi := (h4.1 integral).1 pi vi (deref_ok hd2)
            have hg5 := h4.setStorage_prec fraction pf
              (E.modf w._defaultRounding pf pi vr).1 hpf
            have hg6 := hg5.setStorage_prec integral pi
              (E.modf w._defaultRounding pf pi vr).2
              (by rw [setStorage_precision]; exact hpi)
            exact hg6.of_same rfl rfl rfl

theorem dropRef_ok {x : Except Fault (World × Ref)} {w1 : World} (h : dropRef x = .ok w1) :
    ∃ r, x = .ok (w1, r) := by
  cases x with
  | error e => simp [dropRef] at h
  | ok wr =>
    obtain ⟨w2, r⟩ := wr
    simp [dropRef] at h
    exact ⟨r, by rw [h]⟩

/-- One call that returns keeps the world `Good` when the precisions it supplies are
below `2^31` . -/
theorem step_good {E : Engine} {w w1 : World} {op : Op} (h : Good w)
    (hb : op.precisionsBelow) (hk : step E w op = .ok w1) : Good w1 := by
  unfold step at hk
  by_cases hr : op.refs.all (fun r => decide (r < w.next)) = true
  · rw [if_pos hr] at hk
    cases op with
    | create =>
      simp at hk
      rw [← hk]
      exact gcnew_good h
    | createP p =>
      obtain ⟨r, hx⟩ := dropRef_ok hk
      exact createP_good h hb hx
    | newInt64 v p =>
      obtain ⟨r, hx⟩ := dropRef_ok hk
      exact newInt64_good h hb hx
    | newUInt64 v p =>
      obtain ⟨r, hx⟩ := dropRef_ok hk
      exact newUInt64_good h hb hx
    | ofInt32 v =>
      obtain ⟨r, hx⟩ := dropRef_ok hk
      exact newInt64_good h (DefaultPrecision_lt h) hx
    | setPrecision r p => exact setPrecision_good h hb hk
    | setPrecisionOf r y => exact setPrecision_good h (Precision_lt _ (h.1 y).2) hk
    | setInt64 r v => exact kernel1_good h hk
    | setUInt64 r v => exact kernel1_good h hk
    | setNaN r => exact kernel1_good h hk
    | inplace1 m r => exact call1_good h hk
    | inplace1R m r rnd => exact call1R_good h hk
    | inplace2 m r y => exact call2_good h hk
    | binary o x y =>
      obtain ⟨r, hx⟩ := dropRef_ok hk
      exact binop_good h hx
    | unary o x =>
      obtain ⟨r, hx⟩ := dropRef_ok hk
      exact unop_good h hx
    | modf r =>
      simp only [] at hk
      cases hm : Modf E w r with
      | error e => simp [hm] at hk
      | ok wo =>
        obtain ⟨w2, out⟩ := wo
        simp [hm] at hk
        rw [← hk]
        exact modf_good h hm
    | swap r y => exact swap_good h hk
    | dispose r => exact dispose_good h hk
    | setDefaultPrecision p =>
      simp at hk
      rw [← hk]
      refine ⟨h.1, ?_, h.2.2⟩
      simpa [setDefaultPrecision, toInt32] using toLong_nonneg p hb
    | setDefaultRounding rnd =>
      simp at hk
      rw [← hk]
      exact h.of_same rfl rfl rfl
    | setPolicy f =>
      simp at hk
      rw [← hk]
      refine ⟨h.1, h.2.1, ?_⟩
      intro g hg
      cases f with
      | none => simp [setCombinePrecisionOperator] at hg
      | some f0 =>
        simp [setCombinePrecisionOperator] at hg
        rw [← hg]
        exact hb
  · rw [if_neg hr] at hk
    simp at hk

theorem init_good : Good World.init := by
  refine ⟨fun r => ⟨?_, ?_⟩, ?_, ?_⟩
  · intro p v hp
    simp [World.init] at hp
  · simp [World.init]
  · simp [World.init]
  · intro f hf
    simp [World.init] at hf

theorem run_good {E : Engine} (ops : List Op) {w w1 : World} (h : Good w)
    (hb : ∀ op ∈ ops, op.precisionsBelow) (hk : run E w ops = .ok w1) : Good w1 := by
  induction ops generalizing w with
  | nil =>
    simp [run] at hk
    rw [← hk]
    exact h
  | cons op ops ih =>
    unfold run at hk
    cases hs : step E w op with
    | error e => simp [hs] at hk
    | ok w2 =>
      simp only [hs] at hk
      exact ih (step_good h (hb op (List.mem_cons_self op ops)) hs)
        (fun o ho => hb o (List.mem_cons_of_mem op ho)) hk

theorem Tidy.same_heap {w w1 : World} (h : Tidy w) (hh : w1.heap = w.heap) : Tidy w1 := by
  unfold Tidy
  rw [hh]
  exact h

theorem Tidy.updated {w : World} (h : Tidy w) (r : Ref) (b : BigDecimal)
    (hb : b._value = .released → b._isDisposed = true) : Tidy (w.update r b) := by
  intro r'
  by_cases e : r' = r
  · subst e
    rw [heap_update_same]
    exact hb
  · rw [heap_update_other w r r' b e]
    exact h r'

theorem Tidy.stored_live {w : World} (h : Tidy w) (r : Ref) (p : Int) (v : MpfrVal) :
    Tidy (w.setStorage r (.live p v)) := by
  unfold World.setStorage
  exact Tidy.updated h r _ (fun hb => by simp at hb)

theorem value_tidy {w : World} (h : Tidy w) (r : Ref) : Tidy (value w r) := by
  unfold value
  cases hv : (w.heap r)._value with
  | null => exact (h.stored_live r _ _).same_heap rfl
  | live p v => exact h
  | released => exact h

theorem kernel1_tidy {w w1 : World} {r : Ref} {f : Int → MpfrVal → MpfrVal} (h : Tidy w)
    (hk : kernel1 w r f = .ok w1) : Tidy w1 := by
  unfold kernel1 at hk
  cases hd : deref (value w r) r with
  | error e => simp [hd] at hk
  | ok pv =>
    obtain ⟨p, v⟩ := pv
    simp [hd] at hk
    rw [← hk]
    exact ((value_tidy h r).stored_live r p _).same_heap rfl

theorem kernel2_tidy {w w1 : World} {r y : Ref} {f : Int → MpfrVal → MpfrVal → MpfrVal}
    (h : Tidy w) (hk : kernel2 w r y f = .ok w1) : Tidy w1 := by
  unfold kernel2 at hk
  cases hd : deref (value (value w r) y) r with
  | error e => simp [hd] at hk
  | ok pv =>
    obtain ⟨p, v⟩ := pv
    cases hd2 : deref (value (value w r) y) y with
    | error e => simp [hd, hd2] at hk
    | ok qu =>
      obtain ⟨q, u⟩ := qu
      simp [hd, hd2] at hk
      rw [← hk]
      exact ((value_tidy (value_tidy h r) y).stored_live r p _).same_heap rfl

theorem mpfr_set_prec_tidy {w w1 : World} {r : Ref} {q : Nat} (h : Tidy w)
    (hk : mpfr_set_prec w r q = .ok w1) : Tidy w1 := by
  unfold mpfr_set_prec at hk
  cases hd : deref w r with
  | error e => simp [hd] at hk
  | ok pv =>
    simp [hd] at hk
    rw [← hk]
    exact (h.stored_live r _ _).same_heap rfl

theorem setPrecision_tidy {w w1 : World} {r : Ref} {q : Nat} (h : Tidy w)
    (hk : setPrecision w r q = .ok w1) : Tidy w1 := by
  unfold setPrecision at hk
  by_cases hne : Precision (w.heap r) ≠ q
  · rw [if_pos hne] at hk
    have h1 : Tidy (w.update r { w.heap r with _precision := toInt32 q }) :=
      Tidy.updated h r _ (fun hb => h r hb)
    generalize w.update r { w.heap r with _precision := toInt32 q } = wa at hk h1
    cases hv : (wa.heap r)._value with
    | null =>
      simp [hv] at hk
      rw [← hk]
      exact h1
    | live p v =>
      simp only [hv] at hk
      exact mpfr_set_prec_tidy (value_tidy h1 r) hk
    | released =>
      simp only [hv] at hk
      exact mpfr_set_prec_tidy (value_tidy h1 r) hk
  · rw [if_neg hne] at hk
    simp at hk
    rw [← hk]
    exact h

theorem gcnew_tidy {w : World} (h : Tidy w) : Tidy (gcnew w).1 := by
  have hg : Tidy (w.update w.next ⟨toInt32 (DefaultPrecision w), .null, false⟩) :=
    Tidy.updated h _ _ (fun hb => by simp at hb)
  exact Tidy.same_heap hg rfl

theorem createP_tidy {w w1 : World} {q : Nat} {r : Ref} (h : Tidy w)
    (hk : CreateP w q = .ok (w1, r)) : Tidy w1 := by
  unfold CreateP at hk
  cases hs : SetPrecision (Create w).1 (Create w).2 q with
  | error e => simp [hs] at hk
  | ok w2 =>
    simp [hs] at hk
    rw [← hk.1]
    exact setPrecision_tidy (gcnew_tidy h) hs

theorem newInt64_tidy {E : Engine} {w w1 : World} {v : Int} {q : Nat} {r : Ref} (h : Tidy w)
    (hk : newInt64 E w v q = .ok (w1, r)) : Tidy w1 := by
  unfold newInt64 at hk
  cases hs : SetPrecision (gcnew w).1 (gcnew w).2 q with
  | error e => simp [hs] at hk
  | ok w2 =>
    cases hv : Set_Int64 E w2 (gcnew w).2 v with
    | error e => simp [hs, hv] at hk
    | ok w3 =>
      simp [hs, hv] at hk
      rw [← hk.1]
      exact kernel1_tidy (setPrecision_tidy (gcnew_tidy h) hs) hv

theorem newUInt64_tidy {E : Engine} {w w1 : World} {v : Nat} {q : Nat} {r : Ref} (h : Tidy w)
    (hk : newUInt64 E w v q = .ok (w1, r)) : Tidy w1 := by
  unfold newUInt64 at hk
  cases hs : SetPrecision (gcnew w).1 (gcnew w).2 q with
  | error e => simp [hs] at hk
  | ok w2 =>
    cases hv : Set_UInt64 E w2 (gcnew w).2 v with
    | error e => simp [hs, hv] at hk
    | ok w3 =>
      simp [hs, hv] at hk
      rw [← hk.1]
      exact kernel1_tidy (setPrecision_tidy (gcnew_tidy h) hs) hv

theorem LValue_tidy {E : Engine} {w w1 : World} {x r : Ref} (h : Tidy w)
    (hk : LValue E w x = .ok (w1, r)) : Tidy w1 := by
  unfold LValue at hk
  cases hc : CreateP w (Precision (w.heap x)) with
  | error e => simp [hc] at hk
  | ok wr =>
    obtain ⟨w2, n⟩ := wr
    cases hs : Set E w2 n x with
    | error e => simp [hc, hs] at hk
    | ok w3 =>
      simp [hc, hs] at hk
      rw [← hk.1]
      exact kernel2_tidy (createP_tidy h hc) hs

theorem LValue2_tidy {E : Engine} {w w1 : World} {x y r : Ref} (h : Tidy w)
    (hk : LValue2 E w x y = .ok (w1, r)) : Tidy w1 := by
  unfold LValue2 at hk
  cases hc : CreateP w (Precision (w.heap x)) with
  | error e => simp [hc] at hk
  | ok wr =>
    obtain ⟨w2, n⟩ := wr
    cases hl : LPrecision w2 n y with
    | error e => simp [hc, hl] at hk
    | ok w3 =>
      cases hs : Set E w3 n x with
      | error e => simp [hc, hl, hs] at hk
      | ok w4 =>
        simp [hc, hl, hs] at hk
        rw [← hk.1]
        exact kernel2_tidy (setPrecision_tidy (createP_tidy h hc) hl) hs

theorem binop_tidy {E : Engine} {o : BinOp} {w w1 : World} {x y r : Ref} (h : Tidy w)
    (hk : binop E o w x y = .ok (w1, r)) : Tidy w1 := by
  unfold binop at hk
  cases hl : LValue2 E w x y with
  | error e => simp [hl] at hk
  | ok wr =>
    obtain ⟨w2, n⟩ := wr
    have h2 := LValue2_tidy h hl
    simp only [hl] at hk
    cases o with
    | plus => exact kernel2_tidy h2 (map_ok hk)
    | minus => exact kernel2_tidy h2 (map_ok hk)
    | times => exact kernel2_tidy h2 (map_ok hk)
    | divide => exact kernel2_tidy h2 (map_ok hk)
    | power => exact kernel2_tidy h2 (map_ok hk)
    | modulo =>
      cases hd : Div E w2 n y with
      | error e => simp [hd] at hk
      | ok w3 =>
        simp only [hd] at hk
        exact kernel1_tidy (kernel2_tidy h2 hd) (map_ok hk)

theorem unop_tidy {E : Engine} {o : UnOp} {w w1 : World} {x r : Ref} (h : Tidy w)
    (hk : unop E o w x = .ok (w1, r)) : Tidy w1 := by
  unfold unop at hk
  cases hl : LValue E w x with
  | error e => simp [hl] at hk
  | ok wr =>
    obtain ⟨w2, n⟩ := wr
    have h2 := LValue_tidy h hl
    simp only [hl] at hk
    cases o with
    | plus =>
      simp at hk
      rw [← hk.1]
      exact h2
    | minus => exact kernel1_tidy h2 (map_ok hk)
    | increment =>
      cases hc : ofInt32 E w2 1 with
      | error e => simp [hc] at hk
      | ok wo =>
        obtain ⟨w3, one⟩ := wo
        simp only [hc] at hk
        exact kernel2_tidy (newInt64_tidy h2 hc) (map_ok hk)
    | decrement =>
      cases hc : ofInt32 E w2 1 with
      | error e => simp [hc] at hk
      | ok wo =>
        obtain ⟨w3, one⟩ := wo
        simp only [hc] at hk
        exact kernel2_tidy (newInt64_tidy h2 hc) (map_ok hk)

theorem dispose_tidy {w w1 : World} {r : Ref} (h : Tidy w) (hk : Dispose w r = .ok w1) :
    Tidy w1 := by
  unfold Dispose at hk
  by_cases hd : (w.heap r)._isDisposed = false
  · rw [if_pos hd] at hk
    cases hf : finalizer w r with
    | error e => simp [hf] at hk
    | ok w2 =>
      simp [hf] at hk
      rw [← hk]
      intro r'
      by_cases e : r' = r
      · subst e
        intro _
        simp [World.update]
      · rw [heap_update_other _ _ _ _ e]
        unfold finalizer at hf
        cases hv : (w.heap r)._value with
        | null =>
          simp [hv] at hf
          rw [← hf]
          exact h r'
        | released => simp [hv] at hf
        | live p v =>
          simp [hv] at hf
          rw [← hf]
          simp only [World.setStorage, World.update, Function.update_noteq e]
          exact h r'
  · rw [if_neg hd] at hk
    simp at hk
    rw [← hk]
    exact h

theorem swap_tidy {w w3 : World} {r y : Ref} (h : Tidy w) (hk : Swap w r y = .ok w3) :
    Tidy w3 := by
  unfold Swap at hk
  have hg := value_tidy (value_tidy h r) y
  generalize value (value w r) y = w0 at hk hg
  cases hm : mpfr_swap w0 r y with
  | error e => simp [hm] at hk
  | ok w1 =>
    have h1 : Tidy w1 := by
      unfold mpfr_swap at hm
      cases hd : deref w0 r with
      | error e => simp [hd] at hm
      | ok pv =>
        obtain ⟨p, a⟩ := pv
        cases hd2 : deref w0 y with
        | error e => simp [hd, hd2] at hm
        | ok qu =>
          obtain ⟨q, b⟩ := qu
          simp [hd, hd2] at hm
          rw [← hm]
          exact (((hg.stored_live r q b).stored_live y p a)).same_heap rfl
    simp only [hm] at hk
    cases hs : SetPrecisionOf w1 r y with
    | error e => simp [hs] at hk
    | ok w2 =>
      simp only [hs] at hk
      exact setPrecision_tidy (setPrecision_tidy h1 hs) hk

theorem modf_tidy {E : Engine} {w w1 : World} {r : Ref} {out : Ref × Ref} (h : Tidy w)
    (hk : Modf E w r = .ok (w1, out)) : Tidy w1 := by
  unfold Modf ModfR at hk
  cases hc : CreateP w (Precision (w.heap r)) with
  | error e => simp [hc] at hk
  | ok wr =>
    obtain ⟨w2, fraction⟩ := wr
    have h2 := createP_tidy h hc
    simp only [hc] at hk
    cases hc2 : CreateP w2 (Precision (w2.heap r)) with
    | error e => simp [hc2] at hk
    | ok wr2 =>
      obtain ⟨w3, integral⟩ := wr2
      have h3 := createP_tidy h2 hc2
      simp only [hc2] at hk
      have h4 := value_tidy (value_tidy (value_tidy h3 fraction) integral) r
      generalize value (value (value w3 fraction) integral) r = w4 at hk h4
      cases hd1 : deref w4 fraction with
      | error e => simp [hd1] at hk
      | ok pv =>
        obtain ⟨pf, vf⟩ := pv
        cases hd2 : deref w4 integral with
        | error e => simp [hd1, hd2] at hk
        | ok pv2 =>
          obtain ⟨pi, vi⟩ := pv2
          cases hd3 : deref w4 r with
          | error e => simp [hd1, hd2, hd3] at hk
          | ok pv3 =>
            obtain ⟨pr, vr⟩ := pv3
            simp [hd1, hd2, hd3] at hk
            rw [← hk.1]
            exact ((h4.stored_live fraction pf _).stored_live integral pi _).same_heap rfl

/-- One call that returns keeps the world `Tidy` . -/
theorem step_tidy {E : Engine} {w w1 : World} {op : Op} (h : Tidy w)
    (hk : step E w op = .ok w1) : Tidy w1 := by
  unfold step at hk
  by_cases hr : op.refs.all (fun r => decide (r < w.next)) = true
  · rw [if_pos hr] at hk
    cases op with
    | create =>
      simp at hk
      rw [← hk]
      exact gcnew_tidy h
    | createP p =>
      obtain ⟨r, hx⟩ := dropRef_ok hk
      exact createP_tidy h hx
    | newInt64 v p =>
      obtain ⟨r, hx⟩ := dropRef_ok hk
      exact newInt64_tidy h hx
    | newUInt64 v p =>
      obtain ⟨r, hx⟩ := dropRef_ok hk
      exact newUInt64_tidy h hx
    | ofInt32 v =>
      obtain ⟨r, hx⟩ := dropRef_ok hk
      exact newInt64_tidy h hx
    | setPrecision r p => exact setPrecision_tidy h hk
    | setPrecisionOf r y => exact setPrecision_tidy h hk
    | setInt64 r v => exact kernel1_tidy h hk
    | setUInt64 r v => exact kernel1_tidy h hk
    | setNaN r => exact kernel1_tidy h hk
    | inplace1 m r => cases m <;> exact kernel1_tidy h hk
    | inplace1R m r rnd => cases m <;> exact kernel1_tidy h hk
    | inplace2 m r y => cases m <;> exact kernel2_tidy h hk
    | binary o x y =>
      obtain ⟨r, hx⟩ := dropRef_ok hk
      exact binop_tidy h hx
    | unary o x =>
      obtain ⟨r, hx⟩ := dropRef_ok hk
      exact unop_tidy h hx
    | modf r =>
      simp only [] at hk
      cases hm : Modf E w r with
      | error e => simp [hm] at hk
      | ok wo =>
        obtain ⟨w2, out⟩ := wo
        simp [hm] at hk
        rw [← hk]
        exact modf_tidy h hm
    | swap r y => exact swap_tidy h hk
    | dispose r => exact dispose_tidy h hk
    | setDefaultPrecision p =>
      simp at hk
      rw [← hk]
      exact h.same_heap rfl
    | setDefaultRounding rnd =>
      simp at hk
      rw [← hk]
      exact h.same_heap rfl
    | setPolicy f =>
      simp at hk
      rw [← hk]
      exact h.same_heap rfl
  · rw [if_neg hr] at hk
    simp at hk

theorem run_tidy {E : Engine} (ops : List Op) {w w1 : World} (h : Tidy w)
    (hk : run E w ops = .ok w1) : Tidy w1 := by
  induction ops generalizing w with
  | nil =>
    simp [run] at hk
    rw [← hk]
    exact h
  | cons op ops ih =>
    unfold run at hk
    cases hs : step E w op with
    | error e => simp [hs] at hk
    | ok w2 =>
      simp only [hs] at hk
      exact ih (step_tidy h hs) hk

theorem init_tidy : Tidy World.init := by
  intro r hr
  simp [World.init] at hr

/-- C8: setting `Precision` to the value it currently reports returns the world
unchanged: same value, same stored precision, same allocation state, and no call
to the engine is recorded. -/
theorem setPrecision_same_noop (w : World) (r : Ref) :
    SetPrecision w r (Precision (w.heap r)) = .ok w := by
  simp [SetPrecision, setPrecision]

/-- C7 (as amended): on an instance whose storage is allocated, setting `Precision`
to a `q` the engine accepts (from `MPFR_PREC_MIN` to `MPFR_PREC_MAX` ) that differs
from the current precision makes `Precision` read `q` , gives the storage the
precision `q` and leaves it NaN. -/
theorem setPrecision_resizes_and_erases (w : World) (r : Ref) (p : Int) (v : MpfrVal) (q : Nat)
    (hs : (w.heap r)._value = .live p v) (hq : q ≠ Precision (w.heap r))
    (hacc : enginePrecision (q : Int) = true) :
    after (SetPrecision w r q)
      (fun w1 => (Precision (w1.heap r), (w1.heap r)._value, numericValue (w1.heap r)))
      = some (q, .live (q : Int) .nan, .nan) := by
  have hlt : q < 2147483648 := (enginePrecision_nat hacc).2
  have hne : Precision (w.heap r) ≠ q := fun h => hq h.symm
  have hl : toLong q = (q : Int) := by unfold toLong; split <;> omega
  unfold SetPrecision setPrecision
  rw [if_pos hne]
  have hu : toUInt64 (q : Int) = q := by unfold toUInt64; omega
  simp [after, World.update, hs, value, mpfr_set_prec, deref,
    World.setStorage, World.called, numericValue, Precision, toInt32, hu, hl]

/-- Witness for C7 as amended: an instance holding `1` at precision `8` , set to
precision `64` . -/
theorem setPrecision_resizes_and_erases_witness :
    (oneAt8.heap 0)._value = .live 8 (.num false 1 0) ∧ enginePrecision (64 : Nat) = true ∧
    after (SetPrecision oneAt8 0 64)
      (fun w1 => (Precision (w1.heap 0), (w1.heap 0)._value, numericValue (w1.heap 0)))
      = some (64, .live 64 .nan, .nan) :=
  ⟨by decide, by decide, setPrecision_resizes_and_erases oneAt8 0 8 (.num false 1 0) 64
    (by decide) (by decide) (by decide)⟩

/-- C7 (counterexample): the instance holds `1` at precision `8` ; setting
`Precision` to `2^32 + 64` , which differs from `8` , leaves `Precision` reading `64` . -/
theorem setPrecision_wide_not_read_back :
    (Precision (oneAt8.heap 0), (oneAt8.heap 0)._value) = (8, .live 8 (.num false 1 0)) ∧
    after (SetPrecision oneAt8 0 4294967360)
      (fun w => (Precision (w.heap 0), (w.heap 0)._value)) = some (64, .live 64 .nan) ∧
    (64 : Nat) ≠ 4294967360 := by
  decide

theorem setPrecision_null (w : World) (r : Ref) (q : Nat) (hs : (w.heap r)._value = .null) :
    ∃ w1, SetPrecision w r q = .ok w1 ∧ (w1.heap r)._value = .null ∧
      w1.initCalls = w.initCalls ∧ w1.engineCalls = w.engineCalls ∧
      w1.clearCalls = w.clearCalls := by
  unfold SetPrecision setPrecision
  by_cases h : Precision (w.heap r) ≠ q
  · rw [if_pos h]
    simp [World.update, hs]
  · rw [if_neg h]
    exact ⟨w, rfl, hs, rfl, rfl, rfl⟩

theorem setPrecisionAll_null (ps : List Nat) (w : World) (r : Ref)
    (hs : (w.heap r)._value = .null) :
    ∃ w1, SetPrecisionAll w r ps = .ok w1 ∧ (w1.heap r)._value = .null ∧
      w1.initCalls = w.initCalls ∧ w1.engineCalls = w.engineCalls := by
  induction ps generalizing w with
  | nil => exact ⟨w, rfl, hs, rfl, rfl⟩
  | cons p ps ih =>
    obtain ⟨w1, h1, hn, hi, he, _⟩ := setPrecision_null w r p hs
    obtain ⟨w2, h2, hn2, hi2, he2⟩ := ih w1 hn
    refine ⟨w2, ?_, hn2, by omega, by omega⟩
    simp [SetPrecisionAll, h1, h2]

/-- C6 (counterexample): after `Create(2^31)` nothing is allocated and `Precision`
reads `2^64 - 2^31` ; the first use hands the engine's `mpfr_init2` the precision
`-2^31` , which is not the `Precision` and which the engine does not accept: no storage
sized to the `Precision` is allocated.  After `Create(0)` the first use hands it `0` ,
which it does not accept either. -/
theorem first_use_at_unaccepted_precision :
    afterNew (CreateP World.init 2147483648)
      (fun w r => ((w.heap r)._value, w.initCalls, Precision (w.heap r),
        toLong (Precision (w.heap r)), firstUseAborts (w.heap r)))
      = some (.null, 0, 18446744071562067968, -2147483648, true) ∧
    afterNew (CreateP World.init 0)
      (fun w r => ((w.heap r)._value, w.initCalls, Precision (w.heap r),
        toLong (Precision (w.heap r)), firstUseAborts (w.heap r)))
      = some (.null, 0, 0, 0, true) ∧
    enginePrecision (-2147483648) = false ∧ enginePrecision 0 = false := by
  decide

/-- C6 (as amended): `Create()` and `Create(p)` , for every `p` , call the engine for no
allocation and leave the storage null; so does any sequence of `SetPrecision` calls
on an object whose storage is null.  On such an object whose `Precision` the engine
accepts (from `MPFR_PREC_MIN` to `MPFR_PREC_MAX` ), the first use of the `value`
getter, and so a first value setter or a first arithmetic method, allocates once, a
storage of exactly the object's `Precision` of that moment; a further use allocates
nothing. -/
theorem lazy_allocation (E : Engine) (w : World) (r : Ref) (hs : (w.heap r)._value = .null) :
    ((Create w).1.initCalls = w.initCalls ∧ ((Create w).1.heap (Create w).2)._value = .null) ∧
    (∀ p, afterNew (CreateP w p) (fun w1 n => (w1.initCalls, (w1.heap n)._value))
        = some (w.initCalls, .null)) ∧
    (∀ ps, after (SetPrecisionAll w r ps) (fun w1 => (w1.initCalls, (w1.heap r)._value))
        = some (w.initCalls, .null)) ∧
    (enginePrecision (Precision (w.heap r) : Int) = true →
      (firstUseAborts (w.heap r) = false ∧
        (value w r).initCalls = w.initCalls + 1 ∧
        ((value w r).heap r)._value = .live (Precision (w.heap r) : Int) .nan ∧
        value (value w r) r = value w r) ∧
      (∀ v, after (Set_Int64 E w r v) (fun w1 => (w1.initCalls, (w1.heap r)._value))
          = some (w.initCalls + 1,
              .live (Precision (w.heap r) : Int)
                (E.set_si (Precision (w.heap r) : Int) (longOfInt64 v)))) ∧
      (∀ v rnd, after (andThen (Set_Int64 E w r v) (fun w1 => NegR E w1 r rnd))
          (fun w2 => w2.initCalls) = some (w.initCalls + 1))) := by
  refine ⟨⟨rfl, ?_⟩, ?_, ?_, ?_⟩
  · simp [Create, gcnew]
  · intro p
    have hn : (((Create w).1).heap (Create w).2)._value = .null := by simp [Create, gcnew]
    obtain ⟨w1, h1, hn1, hi, _, _⟩ := setPrecision_null (Create w).1 (Create w).2 p hn
    unfold CreateP
    rw [h1]
    simp only [afterNew]
    rw [hn1, hi]
    rfl
  · intro ps
    obtain ⟨w1, h1, hn1, hi, _⟩ := setPrecisionAll_null ps w r hs
    simp [after, h1, hn1, hi]
  · intro hacc
    have hlt := (enginePrecision_nat hacc).2
    have hl : toLong (Precision (w.heap r)) = (Precision (w.heap r) : Int) := by
      unfold toLong
      split <;> omega
    refine ⟨⟨?_, ?_, ?_, ?_⟩, ?_, ?_⟩
    · simp [firstUseAborts, hl, hacc]
    · simp [value, hs]
    · rw [← hl]
      simp [value, hs, World.setStorage, World.update]
    · simp [value, hs, World.setStorage, World.update]
    · intro v
      rw [← hl]
      simp [Set_Int64, kernel1, value, hs, World.setStorage, World.update, deref, after,
        World.called]
    · intro v rnd
      simp [Set_Int64, NegR, kernel1, value, hs, World.setStorage, World.update, deref, after,
        World.called, andThen]

/-- Witness for C6 as amended: the object made by `Create()` in the initial world. -/
theorem lazy_allocation_witness :
    (fresh.heap 0)._value = .null ∧ enginePrecision (Precision (fresh.heap 0) : Int) = true ∧
    after (Set_Int64 mpfrRef fresh 0 5) (fun w1 => (w1.initCalls, (w1.heap 0)._value))
      = some (1, .live 53 (.num false 5 0)) :=
  ⟨by decide, by decide, by
    have h := ((lazy_allocation mpfrRef fresh 0 (by decide)).2.2.2 (by decide)).2.1 5
    rw [h]
    decide⟩

theorem dispose_of_disposed (w : World) (r : Ref) (h : (w.heap r)._isDisposed = true) :
    Dispose w r = .ok w := by
  simp [Dispose, h]

theorem disposeN_of_disposed (n : Nat) (w : World) (r : Ref)
    (h : (w.heap r)._isDisposed = true) : DisposeN w r n = .ok w := by
  induction n with
  | zero => rfl
  | succ n ih => simp [DisposeN, dispose_of_disposed w r h, ih]

/-- The first `Dispose` of an object that is not disposed and whose storage is not
released, and the calls of `Dispose` after it. -/
theorem dispose_first_then_noop (w : World) (r : Ref) (hd : (w.heap r)._isDisposed = false)
    (hs : (w.heap r)._value ≠ .released) :
    ∃ w1, Dispose w r = .ok w1 ∧ (w1.heap r)._isDisposed = true ∧
      w1.clearCalls = w.clearCalls + releasesOf (w.heap r)._value ∧
      (∀ p v, (w1.heap r)._value ≠ .live p v) ∧
      Dispose w1 r = .ok w1 ∧
      (∀ n, DisposeN w r (n + 1) = .ok w1) ∧
      (∀ n, after (DisposeN w r (n + 1)) (fun w2 => w2.clearCalls)
        = some (w.clearCalls + releasesOf (w.heap r)._value)) := by
  cases hv : (w.heap r)._value with
  | released => exact absurd hv hs
  | null =>
    have h1 : Dispose w r = .ok (w.update r { w.heap r with _isDisposed := true }) := by
      simp [Dispose, hd, finalizer, hv]
    have hf : ((w.update r { w.heap r with _isDisposed := true }).heap r)._isDisposed = true := by
      simp [World.update]
    have hN : ∀ n, DisposeN w r (n + 1)
        = .ok (w.update r { w.heap r with _isDisposed := true }) := by
      intro n
      simp only [DisposeN]
      rw [h1]
      exact disposeN_of_disposed n _ r hf
    refine ⟨_, h1, hf, by simp [World.update, releasesOf], ?_, dispose_of_disposed _ _ hf, hN, ?_⟩
    · intro p v
      simp [World.update, hv]
    · intro n
      rw [hN n]
      simp [after, World.update, releasesOf]
  | live p v =>
    have h1 : Dispose w r = .ok
        (World.update { w.setStorage r .released with
            clearCalls := w.clearCalls + 1
            engineCalls := w.engineCalls + 1 } r
          { (w.setStorage r .released).heap r with _isDisposed := true }) := by
      simp [Dispose, hd, finalizer, hv]
    have hf : ((World.update { w.setStorage r .released with
            clearCalls := w.clearCalls + 1
            engineCalls := w.engineCalls + 1 } r
          { (w.setStorage r .released).heap r with _isDisposed := true }).heap r)._isDisposed
          = true := by
      simp [World.update]
    have hN : ∀ n, DisposeN w r (n + 1) = .ok
        (World.update { w.setStorage r .released with
            clearCalls := w.clearCalls + 1
            engineCalls := w.engineCalls + 1 } r
          { (w.setStorage r .released).heap r with _isDisposed := true }) := by
      intro n
      simp only [DisposeN]
      rw [h1]
      exact disposeN_of_disposed n _ r hf
    refine ⟨_, h1, hf, by simp [World.update, releasesOf], ?_, dispose_of_disposed _ _ hf, hN, ?_⟩
    · intro p v
      simp [World.update, World.setStorage]
    · intro n
      rw [hN n]
      simp [after, World.update, releasesOf]

/-- C5 (counterexample): after `Create()` , `Dispose()` and `Set(5)` the object is
disposed and its storage, allocated by the `Set` , is live; whatever the number of
`Dispose` calls that follow, the storage stays allocated and `mpfr_clear` is never
called: a storage that was allocated is released by no `Dispose` . -/
theorem storage_allocated_after_dispose_is_kept :
    ((usedAfterDispose.heap 0)._isDisposed, (usedAfterDispose.heap 0)._value,
      usedAfterDispose.initCalls, usedAfterDispose.clearCalls)
      = (true, .live 53 (.num false 5 0), 1, 0) ∧
    (∀ n, after (DisposeN usedAfterDispose 0 n) (fun w => ((w.heap 0)._value, w.clearCalls))
      = some (.live 53 (.num false 5 0), 0)) ∧
    after (run mpfrRef World.init [.create, .dispose 0, .setInt64 0 5, .dispose 0, .dispose 0])
      (fun w => ((w.heap 0)._value, w.initCalls, w.clearCalls))
      = some (.live 53 (.num false 5 0), 1, 0) := by
  refine ⟨by decide, fun n => ?_, by decide⟩
  rw [disposeN_of_disposed n usedAfterDispose 0 (by decide)]
  decide

/-- C5 (as amended): in every world reached from the initial one by calls of the
public surface, `Dispose` on any object returns and leaves the disposed flag set;
every further `Dispose` , any number of them, returns the same world: nothing is
raised and no state changes.  On an object not yet disposed the first `Dispose`
calls `mpfr_clear` once if the storage was allocated and not at all if it was null,
and leaves no allocated storage; on an object already disposed it changes nothing,
whatever the storage is. -/
theorem dispose_idempotent (E : Engine) (ops : List Op) (w : World)
    (hk : run E World.init ops = .ok w) (r : Ref) :
    ∃ w1, Dispose w r = .ok w1 ∧ (w1.heap r)._isDisposed = true ∧
      Dispose w1 r = .ok w1 ∧
      (∀ n, DisposeN w r (n + 1) = .ok w1) ∧
      ((w.heap r)._isDisposed = false →
        w1.clearCalls = w.clearCalls + releasesOf (w.heap r)._value ∧
        (∀ p v, (w1.heap r)._value ≠ .live p v) ∧
        (∀ n, after (DisposeN w r (n + 1)) (fun w2 => w2.clearCalls)
          = some (w.clearCalls + releasesOf (w.heap r)._value))) ∧
      ((w.heap r)._isDisposed = true → w1 = w) := by
  have ht := run_tidy ops init_tidy hk
  cases hd : (w.heap r)._isDisposed with
  | true =>
    refine ⟨w, dispose_of_disposed w r hd, hd, dispose_of_disposed w r hd,
      fun n => disposeN_of_disposed (n + 1) w r hd, fun h => absurd h (by decide), fun _ => rfl⟩
  | false =>
    have hs : (w.heap r)._value ≠ .released := by
      intro hs
      rw [ht r hs] at hd
      exact absurd hd (by decide)
    obtain ⟨w1, h1, hf, hc, hl, h2, hn, ha⟩ := dispose_first_then_noop w r hd hs
    exact ⟨w1, h1, hf, h2, hn, fun _ => ⟨hc, hl, ha⟩, fun h => absurd h (by decide)⟩

/-- Witness for C5 as amended: the object holding `1` at precision `8` , disposed three
times. -/
theorem dispose_idempotent_witness :
    run mpfrRef World.init [.newInt64 1 8] = .ok oneAt8 ∧
    after (DisposeN oneAt8 0 3) (fun w2 => (w2.clearCalls, (w2.heap 0)._isDisposed))
      = some (1, true) :=
  ⟨rfl, by
    obtain ⟨w1, _, hf, _, hn, hfirst, _⟩ :=
      dispose_idempotent mpfrRef [.newInt64 1 8] oneAt8 rfl 0
    obtain ⟨hc, _, _⟩ := hfirst (by decide)
    rw [hn 2]
    simp only [after, hf, hc]
    decide⟩

/-- C3 (evaluation at the failing input): `x` holds `1` at 64 bits and `y` holds `2`
at 128 bits; after `x.Swap(y)` the precisions are exchanged but both values are
NaN: the `SetPrecision` calls that follow `mpfr_swap` erase them.  With equal
precisions the values are exchanged. -/
theorem swap_different_precisions_erases :
    ((Precision (oneAt64TwoAt128.heap 0), numericValue (oneAt64TwoAt128.heap 0)),
     (Precision (oneAt64TwoAt128.heap 1), numericValue (oneAt64TwoAt128.heap 1)))
      = ((64, .num false 1 0), (128, .num false 1 1)) ∧
    after (Swap oneAt64TwoAt128 0 1)
      (fun w => ((Precision (w.heap 0), numericValue (w.heap 0)),
                 (Precision (w.heap 1), numericValue (w.heap 1))))
      = some ((128, .nan), (64, .nan)) ∧
    after (Swap oneAt64TwoAt64 0 1)
      (fun w => ((Precision (w.heap 0), numericValue (w.heap 0)),
                 (Precision (w.heap 1), numericValue (w.heap 1))))
      = some ((64, .num false 1 1), (64, .num false 1 0)) := by
  decide

theorem Precision_of_toInt32_max (a b : BigDecimal) (s : Storage) (d : Bool) :
    Precision ⟨toInt32 (max (Precision a) (Precision b)), s, d⟩
      = max (Precision a) (Precision b) := by
  rcases Nat.le_total (Precision a) (Precision b) with h | h
  · rw [Nat.max_eq_right h, toInt32_Precision]
    rfl
  · rw [Nat.max_eq_left h, toInt32_Precision]
    rfl

/-- C1 (as amended): for operands whose storage is not released and whose `Precision`
the engine accepts (from `MPFR_PREC_MIN` to `MPFR_PREC_MAX` ), the object a binary
operator returns has the `Precision` `max(x.Precision, y.Precision)` , which the
engine accepts, when no policy is set, and the policy's result on (the clone at the
precision of `x` , `y` ) when a policy is set and the engine accepts that result. -/
theorem binop_result_precision (E : Engine) (o : BinOp) (w : World) (x y : Ref)
    (hx : x < w.next) (hy : y < w.next) (hxs : (w.heap x)._value ≠ .released)
    (hys : (w.heap y)._value ≠ .released)
    (hxp : enginePrecision (Precision (w.heap x) : Int) = true)
    (hyp : enginePrecision (Precision (w.heap y) : Int) = true) :
    (w.CombinePrecisionOperator = none →
      afterNew (binop E o w x y) (fun w1 r => Precision (w1.heap r))
        = some (max (Precision (w.heap x)) (Precision (w.heap y))) ∧
      enginePrecision (max (Precision (w.heap x)) (Precision (w.heap y)) : Nat) = true) ∧
    (∀ op, w.CombinePrecisionOperator = some op →
      enginePrecision (op ⟨(w.heap x)._precision, .null, false⟩ (w.heap y) : Nat) = true →
      afterNew (binop E o w x y) (fun w1 r => Precision (w1.heap r))
        = some (op ⟨(w.heap x)._precision, .null, false⟩ (w.heap y))) := by
  obtain ⟨w4, h4, _, hp, _⟩ := binop_spec E o w x y hx hy hxs hys
  have hP : Precision (w4.heap w.next)
      = Precision ⟨toInt32 (combinedPrecision w x y), .null, false⟩ := by
    simp [Precision, hp]
  constructor
  · intro hnone
    refine ⟨?_, ?_⟩
    · rw [h4]
      simp only [afterNew]
      rw [hP]
      simp only [combinedPrecision, hnone]
      rw [Precision_of_toInt32_max]
    · rcases Nat.le_total (Precision (w.heap x)) (Precision (w.heap y)) with h | h
      · rw [Nat.max_eq_right h]
        exact hyp
      · rw [Nat.max_eq_left h]
        exact hxp
  · intro op hop hacc
    have hlt := (enginePrecision_nat hacc).2
    rw [h4]
    simp only [afterNew]
    rw [hP]
    simp only [combinedPrecision, hop]
    have hm : op ⟨(w.heap x)._precision, .null, false⟩ (w.heap y) % 18446744073709551616
        = op ⟨(w.heap x)._precision, .null, false⟩ (w.heap y) := by omega
    rw [hm, Precision_toInt32 _ hlt]

/-- Witness for C1 as amended: `1` at 64 bits plus `2` at 128 bits without a policy,
and under the policy that adds the precisions. -/
theorem binop_result_precision_witness :
    (enginePrecision (Precision (oneAt64TwoAt128.heap 0) : Int) = true ∧
      enginePrecision (Precision (oneAt64TwoAt128.heap 1) : Int) = true) ∧
    afterNew (binop mpfrRef .plus oneAt64TwoAt128 0 1) (fun w1 r => Precision (w1.heap r))
      = some 128 ∧
    afterNew (binop mpfrRef .plus sumPolicyWorld 0 1) (fun w1 r => Precision (w1.heap r))
      = some 192 :=
  ⟨⟨by decide, by decide⟩,
   ((binop_result_precision mpfrRef .plus oneAt64TwoAt128 0 1 (by decide) (by decide)
      (by decide) (by decide) (by decide) (by decide)).1 rfl).1,
   (binop_result_precision mpfrRef .plus sumPolicyWorld 0 1 (by decide) (by decide)
      (by decide) (by decide) (by decide) (by decide)).2
      (fun a b => Precision a + Precision b) rfl (by decide)⟩

/-- C1 (counterexample): with the policy that returns `2^32 + 5` , the sum of `1` at
64 bits and `2` at 128 bits has `Precision` `5` . -/
theorem binop_wide_policy_precision :
    afterNew (binop mpfrRef .plus widePolicyWorld 0 1) (fun w1 r => Precision (w1.heap r))
      = some 5 ∧
    combinedPrecision widePolicyWorld 0 1 = 4294967301 := by
  decide

/-- C9: in every world reached from the initial one by calls of constructors,
`SetPrecision` , value setters, in-place arithmetic, operators, `Modf` , `Swap`
(and `Dispose` , the setters of the defaults and of the policy) that supply only
precisions below `2^31` , every allocated storage has exactly the `Precision` of its
object. -/
theorem storage_sized_to_precision (E : Engine) (ops : List Op) (w : World)
    (hb : ∀ op ∈ ops, op.precisionsBelow) (hk : run E World.init ops = .ok w)
    (r : Ref) (p : Int) (v : MpfrVal) (hs : (w.heap r)._value = .live p v) :
    p = (Precision (w.heap r) : Int) := by
  have hg := run_good ops init_good hb hk
  have h1 := (hg.1 r).1 p v hs
  have h2 := (hg.1 r).2
  have h3 := (w.heap r)._precision.hi
  rw [h1]
  unfold Precision toUInt64
  omega

/-- Witness for C9: after the program `demoOps` the object `0` , swapped from 64 to
128 bits, has a storage of 128 bits, and the sum made under the policy has a storage
of 96 bits. -/
theorem storage_sized_to_precision_witness :
    ((demoWorld.heap 0)._value, Precision (demoWorld.heap 0)) = (.live 128 .nan, 128) ∧
    ((demoWorld.heap 1)._value, Precision (demoWorld.heap 1))
      = (.live 32 (.num false 5 0), 32) ∧
    (128 : Int) = (Precision (demoWorld.heap 0) : Int) ∧
    (96 : Int) = (Precision (demoWorld.heap 2) : Int) := by
  have hb : ∀ op ∈ demoOps, op.precisionsBelow := by
    intro op hop
    simp only [demoOps, List.mem_cons, List.mem_singleton, List.not_mem_nil, or_false] at hop
    rcases hop with h | h | h | h | h | h | h | h <;> subst h <;>
      simp [Op.precisionsBelow]
  have hk : run mpfrRef World.init demoOps = .ok demoWorld := rfl
  refine ⟨by decide, by decide, ?_, ?_⟩
  · exact storage_sized_to_precision mpfrRef demoOps demoWorld hb hk 0 128 .nan (by decide)
  · exact storage_sized_to_precision mpfrRef demoOps demoWorld hb hk 2 96 .nan (by decide)

theorem toInt32_toUInt64 (i : Int32) : toInt32 (toUInt64 i.val) = i := by
  have h := toLong_toUInt64 i
  cases i with
  | mk v lo hi =>
    simp only [toInt32] at h ⊢
    simp [h]

theorem fieldInv_of_fields {Q D : Int32 → Prop} {w w1 : World} (h : FieldInv Q D w)
    (hp : ∀ r, (w1.heap r)._precision = (w.heap r)._precision)
    (hd : w1._defaultPrecision = w._defaultPrecision)
    (hc : w1.CombinePrecisionOperator = w.CombinePrecisionOperator) : FieldInv Q D w1 := by
  refine ⟨fun r => ?_, ?_, ?_⟩
  · rw [hp r]
    exact h.1 r
  · rw [hd]
    exact h.2.1
  · rw [hc]
    exact h.2.2

theorem fieldInv_update {Q D : Int32 → Prop} {w : World} (h : FieldInv Q D w) (r : Ref)
    (b : BigDecimal) (hb : Q b._precision) : FieldInv Q D (w.update r b) := by
  refine ⟨fun r' => ?_, h.2.1, h.2.2⟩
  by_cases e : r' = r
  · subst e
    rw [heap_update_same]
    exact hb
  · rw [heap_update_other w r r' b e]
    exact h.1 r'

theorem fieldInv_setStorage {Q D : Int32 → Prop} {w : World} (h : FieldInv Q D w) (r : Ref)
    (st : Storage) : FieldInv Q D (w.setStorage r st) :=
  fieldInv_of_fields h (fun r' => setStorage_precision w r r' st) rfl rfl

theorem value_field {Q D : Int32 → Prop} {w : World} (h : FieldInv Q D w) (r : Ref) :
    FieldInv Q D (value w r) :=
  fieldInv_of_fields h (fun r' => (value_kept w r r').1) (value_statics w r).2.2.1
    (value_statics w r).2.2.2

theorem kernel1_field {Q D : Int32 → Prop} {w w1 : World} {r : Ref}
    {f : Int → MpfrVal → MpfrVal} (h : FieldInv Q D w) (hk : kernel1 w r f = .ok w1) :
    FieldInv Q D w1 := by
  unfold kernel1 at hk
  cases hd : deref (value w r) r with
  | error e => simp [hd] at hk
  | ok pv =>
    obtain ⟨p, v⟩ := pv
    simp [hd] at hk
    rw [← hk]
    exact fieldInv_of_fields (fieldInv_setStorage (value_field h r) r _) (fun _ => rfl) rfl rfl

theorem kernel2_field {Q D : Int32 → Prop} {w w1 : World} {r y : Ref}
    {f : Int → MpfrVal → MpfrVal → MpfrVal} (h : FieldInv Q D w)
    (hk : kernel2 w r y f = .ok w1) : FieldInv Q D w1 := by
  unfold kernel2 at hk
  cases hd : deref (value (value w r) y) r with
  | error e => simp [hd] at hk
  | ok pv =>
    obtain ⟨p, v⟩ := pv
    cases hd2 : deref (value (value w r) y) y with
    | error e => simp [hd, hd2] at hk
    | ok qu =>
      obtain ⟨q, u⟩ := qu
      simp [hd, hd2] at hk
      rw [← hk]
      exact fieldInv_of_fields
        (fieldInv_setStorage (value_field (value_field h r) y) r _) (fun _ => rfl) rfl rfl

theorem mpfr_set_prec_field {Q D : Int32 → Prop} {w w1 : World} {r : Ref} {q : Nat}
    (h : FieldInv Q D w) (hk : mpfr_set_prec w r q = .ok w1) : FieldInv Q D w1 := by
  unfold mpfr_set_prec at hk
  cases hd : deref w r with
  | error e => simp [hd] at hk
  | ok pv =>
    simp [hd] at hk
    rw [← hk]
    exact fieldInv_of_fields (fieldInv_setStorage h r _) (fun _ => rfl) rfl rfl

theorem setPrecision_field {Q D : Int32 → Prop} {w w1 : World} {r : Ref} {q : Nat}
    (h : FieldInv Q D w) (hq : Q (toInt32 q)) (hk : setPrecision w r q = .ok w1) :
    FieldInv Q D w1 := by
  unfold setPrecision at hk
  by_cases hne : Precision (w.heap r) ≠ q
  · rw [if_pos hne] at hk
    have h1 : FieldInv Q D (w.update r { w.heap r with _precision := toInt32 q }) :=
      fieldInv_update h r _ hq
    generalize w.update r { w.heap r with _precision := toInt32 q } = wa at hk h1
    cases hv : (wa.heap r)._value with
    | null =>
      simp [hv] at hk
      rw [← hk]
      exact h1
    | live p v =>
      simp only [hv] at hk
      exact mpfr_set_prec_field (value_field h1 r) hk
    | released =>
      simp only [hv] at hk
      exact mpfr_set_prec_field (value_field h1 r) hk
  · rw [if_neg hne] at hk
    simp at hk
    rw [← hk]
    exact h

theorem setPrecisionOf_field {Q D : Int32 → Prop} {w w1 : World} {r y : Ref}
    (h : FieldInv Q D w) (hk : SetPrecisionOf w r y = .ok w1) : FieldInv Q D w1 := by
  refine setPrecision_field h ?_ hk
  rw [toInt32_Precision]
  exact h.1 y

theorem gcnew_field {Q D : Int32 → Prop} {w : World} (hDQ : ∀ x, D x → Q x)
    (h : FieldInv Q D w) : FieldInv Q D (gcnew w).1 := by
  have hg : FieldInv Q D (w.update w.next ⟨toInt32 (DefaultPrecision w), .null, false⟩) := by
    refine fieldInv_update h _ _ ?_
    simp only [DefaultPrecision]
    rw [toInt32_toUInt64]
    exact hDQ _ h.2.1
  exact fieldInv_of_fields hg (fun _ => rfl) rfl rfl

theorem createP_field {Q D : Int32 → Prop} {w w1 : World} {q : Nat} {r : Ref}
    (hDQ : ∀ x, D x → Q x) (h : FieldInv Q D w) (hq : Q (toInt32 q))
    (hk : CreateP w q = .ok (w1, r)) : FieldInv Q D w1 := by
  unfold CreateP at hk
  cases hs : SetPrecision (Create w).1 (Create w).2 q with
  | error e => simp [hs] at hk
  | ok w2 =>
    simp [hs] at hk
    rw [← hk.1]
    exact setPrecision_field (gcnew_field hDQ h) hq hs

theorem newInt64_field {Q D : Int32 → Prop} {E : Engine} {w w1 : World} {v : Int} {q : Nat}
    {r : Ref} (hDQ : ∀ x, D x → Q x) (h : FieldInv Q D w) (hq : Q (toInt32 q))
    (hk : newInt64 E w v q = .ok (w1, r)) : FieldInv Q D w1 := by
  unfold newInt64 at hk
  cases hs : SetPrecision (gcnew w).1 (gcnew w).2 q with
  | error e => simp [hs] at hk
  | ok w2 =>
    cases hv : Set_Int64 E w2 (gcnew w).2 v with
    | error e => simp [hs, hv] at hk
    | ok w3 =>
      simp [hs, hv] at hk
      rw [← hk.1]
      exact kernel1_field (setPrecision_field (gcnew_field hDQ h) hq hs) hv

theorem newUInt64_field {Q D : Int32 → Prop} {E : Engine} {w w1 : World} {v : Nat} {q : Nat}
    {r : Ref} (hDQ : ∀ x, D x → Q x) (h : FieldInv Q D w) (hq : Q (toInt32 q))
    (hk : newUInt64 E w v q = .ok (w1, r)) : FieldInv Q D w1 := by
  unfold newUInt64 at hk
  cases hs : SetPrecision (gcnew w).1 (gcnew w).2 q with
  | error e => simp [hs] at hk
  | ok w2 =>
    cases hv : Set_UInt64 E w2 (gcnew w).2 v with
    | error e => simp [hs, hv] at hk
    | ok w3 =>
      simp [hs, hv] at hk
      rw [← hk.1]
      exact kernel1_field (setPrecision_field (gcnew_field hDQ h) hq hs) hv

theorem default_supplied {Q D : Int32 → Prop} {w : World} (hDQ : ∀ x, D x → Q x)
    (h : FieldInv Q D w) : Q (toInt32 (DefaultPrecision w)) := by
  simp only [DefaultPrecision]
  rw [toInt32_toUInt64]
  exact hDQ _ h.2.1

theorem toInt32_max_Precision (a b : BigDecimal) :
    toInt32 (max (Precision a) (Precision b)) = a._precision ∨
    toInt32 (max (Precision a) (Precision b)) = b._precision := by
  rcases Nat.le_total (Precision a) (Precision b) with h | h
  · right
    rw [Nat.max_eq_right h, toInt32_Precision]
  · left
    rw [Nat.max_eq_left h, toInt32_Precision]

theorem LPrecision_field {Q D : Int32 → Prop} {w w1 : World} {r y : Ref}
    (h : FieldInv Q D w) (hk : LPrecision w r y = .ok w1) : FieldInv Q D w1 := by
  unfold LPrecision at hk
  refine setPrecision_field h ?_ hk
  cases hp : w.CombinePrecisionOperator with
  | none =>
    simp only []
    rcases toInt32_max_Precision (w.heap r) (w.heap y) with e | e
    · rw [e]
      exact h.1 r
    · rw [e]
      exact h.1 y
  | some f =>
    simp only []
    exact h.2.2 f hp (w.heap r) (w.heap y)

theorem LValue_field {Q D : Int32 → Prop} {E : Engine} {w w1 : World} {x r : Ref}
    (hDQ : ∀ x, D x → Q x) (h : FieldInv Q D w) (hk : LValue E w x = .ok (w1, r)) :
    FieldInv Q D w1 := by
  unfold LValue at hk
  cases hc : CreateP w (Precision (w.heap x)) with
  | error e => simp [hc] at hk
  | ok wr =>
    obtain ⟨w2, n⟩ := wr
    cases hs : Set E w2 n x with
    | error e => simp [hc, hs] at hk
    | ok w3 =>
      simp [hc, hs] at hk
      rw [← hk.1]
      exact kernel2_field
        (createP_field hDQ h (by rw [toInt32_Precision]; exact h.1 x) hc) hs

theorem LValue2_field {Q D : Int32 → Prop} {E : Engine} {w w1 : World} {x y r : Ref}
    (hDQ : ∀ x, D x → Q x) (h : FieldInv Q D w) (hk : LValue2 E w x y = .ok (w1, r)) :
    FieldInv Q D w1 := by
  unfold LValue2 at hk
  cases hc : CreateP w (Precision (w.heap x)) with
  | error e => simp [hc] at hk
  | ok wr =>
    obtain ⟨w2, n⟩ := wr
    cases hl : LPrecision w2 n y with
    | error e => simp [hc, hl] at hk
    | ok w3 =>
      cases hs : Set E w3 n x with
      | error e => simp [hc, hl, hs] at hk
      | ok w4 =>
        simp [hc, hl, hs] at hk
        rw [← hk.1]
        exact kernel2_field (LPrecision_field
          (createP_field hDQ h (by rw [toInt32_Precision]; exact h.1 x) hc) hl) hs

theorem binop_field {Q D : Int32 → Prop} {E : Engine} {o : BinOp} {w w1 : World} {x y r : Ref}
    (hDQ : ∀ x, D x → Q x) (h : FieldInv Q D w) (hk : binop E o w x y = .ok (w1, r)) :
    FieldInv Q D w1 := by
  unfold binop at hk
  cases hl : LValue2 E w x y with
  | error e => simp [hl] at hk
  | ok wr =>
    obtain ⟨w2, n⟩ := wr
    have h2 := LValue2_field hDQ h hl
    simp only [hl] at hk
    cases o with
    | plus => exact kernel2_field h2 (map_ok hk)
    | minus => exact kernel2_field h2 (map_ok hk)
    | times => exact kernel2_field h2 (map_ok hk)
    | divide => exact kernel2_field h2 (map_ok hk)
    | power => exact kernel2_field h2 (map_ok hk)
    | modulo =>
      cases hd : Div E w2 n y with
      | error e => simp [hd] at hk
      | ok w3 =>
        simp only [hd] at hk
        exact kernel1_field (kernel2_field h2 hd) (map_ok hk)

theorem unop_field {Q D : Int32 → Prop} {E : Engine} {o : UnOp} {w w1 : World} {x r : Ref}
    (hDQ : ∀ x, D x → Q x) (h : FieldInv Q D w) (hk : unop E o w x = .ok (w1, r)) :
    FieldInv Q D w1 := by
  unfold unop at hk
  cases hl : LValue E w x with
  | error e => simp [hl] at hk
  | ok wr =>
    obtain ⟨w2, n⟩ := wr
    have h2 := LValue_field hDQ h hl
    simp only [hl] at hk
    cases o with
    | plus =>
      simp at hk
      rw [← hk.1]
      exact h2
    | minus => exact kernel1_field h2 (map_ok hk)
    | increment =>
      cases hc : ofInt32 E w2 1 with
      | error e => simp [hc] at hk
      | ok wo =>
        obtain ⟨w3, one⟩ := wo
        simp only [hc] at hk
        exact kernel2_field (newInt64_field hDQ h2 (default_supplied hDQ h2) hc) (map_ok hk)
    | decrement =>
      cases hc : ofInt32 E w2 1 with
      | error e => simp [hc] at hk
      | ok wo =>
        obtain ⟨w3, one⟩ := wo
        simp only [hc] at hk
        exact kernel2_field (newInt64_field hDQ h2 (default_supplied hDQ h2) hc) (map_ok hk)

theorem dispose_field {Q D : Int32 → Prop} {w w1 : World} {r : Ref} (h : FieldInv Q D w)
    (hk : Dispose w r = .ok w1) : FieldInv Q D w1 := by
  unfold Dispose at hk
  by_cases hd : (w.heap r)._isDisposed = false
  · rw [if_pos hd] at hk
    have hf : ∀ w2, finalizer w r = .ok w2 → FieldInv Q D w2 := by
      intro w2 hf
      unfold finalizer at hf
      cases hv : (w.heap r)._value with
      | null =>
        simp [hv] at hf
        rw [← hf]
        exact h
      | released => simp [hv] at hf
      | live p v =>
        simp [hv] at hf
        rw [← hf]
        exact fieldInv_of_fields (fieldInv_setStorage h r .released) (fun _ => rfl) rfl rfl
    cases hfin : finalizer w r with
    | error e => simp [hfin] at hk
    | ok w2 =>
      simp [hfin] at hk
      rw [← hk]
      exact fieldInv_update (hf w2 hfin) r _ ((hf w2 hfin).1 r)
  · rw [if_neg hd] at hk
    simp at hk
    rw [← hk]
    exact h

theorem swap_field {Q D : Int32 → Prop} {w w3 : World} {r y : Ref} (h : FieldInv Q D w)
    (hk : Swap w r y = .ok w3) : FieldInv Q D w3 := by
  unfold Swap at hk
  have hg := value_field (value_field h r) y
  generalize value (value w r) y = w0 at hk hg
  cases hm : mpfr_swap w0 r y with
  | error e => simp [hm] at hk
  | ok w1 =>
    obtain ⟨_, _, _, _, _, _, _, _, hpr, _, hd1, hp1⟩ := mpfr_swap_ok hm
    have h1 : FieldInv Q D w1 := fieldInv_of_fields hg hpr hd1 hp1
    simp only [hm] at hk
    cases hs : SetPrecisionOf w1 r y with
    | error e => simp [hs] at hk
    | ok w2 =>
      simp only [hs] at hk
      refine setPrecision_field (setPrecisionOf_field h1 hs) ?_ hk
      rw [toInt32_Precision]
      exact h1.1 r

theorem modf_field {Q D : Int32 → Prop} {E : Engine} {w w1 : World} {r : Ref}
    {out : Ref × Ref} (hDQ : ∀ x, D x → Q x) (h : FieldInv Q D w)
    (hk : Modf E w r = .ok (w1, out)) : FieldInv Q D w1 := by
  unfold Modf ModfR at hk
  cases hc : CreateP w (Precision (w.heap r)) with
  | error e => simp [hc] at hk
  | ok wr =>
    obtain ⟨w2, fraction⟩ := wr
    have h2 := createP_field hDQ h (by rw [toInt32_Precision]; exact h.1 r) hc
    simp only [hc] at hk
    cases hc2 : CreateP w2 (Precision (w2.heap r)) with
    | error e => simp [hc2] at hk
    | ok wr2 =>
      obtain ⟨w3, integral⟩ := wr2
      have h3 := createP_field hDQ h2 (by rw [toInt32_Precision]; exact h2.1 r) hc2
      simp only [hc2] at hk
      have h4 := value_field (value_field (value_field h3 fraction) integral) r
      generalize value (value (value w3 fraction) integral) r = w4 at hk h4
      cases hd1 : deref w4 fraction with
      | error e => simp [hd1] at hk
      | ok pv =>
        obtain ⟨pf, vf⟩ := pv
        cases hd2 : deref w4 integral with
        | error e => simp [hd1, hd2] at hk
        | ok pv2 =>
          obtain ⟨pi, vi⟩ := pv2
          cases hd3 : deref w4 r with
          | error e => simp [hd1, hd2, hd3] at hk
          | ok pv3 =>
            obtain ⟨pr, vr⟩ := pv3
            simp [hd1, hd2, hd3] at hk
            rw [← hk.1]
            exact fieldInv_of_fields
              (fieldInv_setStorage (fieldInv_setStorage h4 fraction _) integral _)
              (fun _ => rfl) rfl rfl

/-- One call that returns keeps `FieldInv` when the precisions it supplies satisfy
the predicates. -/
theorem step_field {Q D : Int32 → Prop} {E : Engine} {w w1 : World} {op : Op}
    (hDQ : ∀ x, D x → Q x) (h : FieldInv Q D w) (hb : op.supplies Q D)
    (hk : step E w op = .ok w1) : FieldInv Q D w1 := by
  unfold step at hk
  by_cases hr : op.refs.all (fun r => decide (r < w.next)) = true
  · rw [if_pos hr] at hk
    cases op with
    | create =>
      simp at hk
      rw [← hk]
      exact gcnew_field hDQ h
    | createP p =>
      obtain ⟨r, hx⟩ := dropRef_ok hk
      exact createP_field hDQ h hb hx
    | newInt64 v p =>
      obtain ⟨r, hx⟩ := dropRef_ok hk
      exact newInt64_field hDQ h hb hx
    | newUInt64 v p =>
      obtain ⟨r, hx⟩ := dropRef_ok hk
      exact newUInt64_field hDQ h hb hx
    | ofInt32 v =>
      obtain ⟨r, hx⟩ := dropRef_ok hk
      exact newInt64_field hDQ h (default_supplied hDQ h) hx
    | setPrecision r p => exact setPrecision_field h hb hk
    | setPrecisionOf r y => exact setPrecisionOf_field h hk
    | setInt64 r v => exact kernel1_field h hk
    | setUInt64 r v => exact kernel1_field h hk
    | setNaN r => exact kernel1_field h hk
    | inplace1 m r => cases m <;> exact kernel1_field h hk
    | inplace1R m r rnd => cases m <;> exact kernel1_field h hk
    | inplace2 m r y => cases m <;> exact kernel2_field h hk
    | binary o x y =>
      obtain ⟨r, hx⟩ := dropRef_ok hk
      exact binop_field hDQ h hx
    | unary o x =>
      obtain ⟨r, hx⟩ := dropRef_ok hk
      exact unop_field hDQ h hx
    | modf r =>
      simp only [] at hk
      cases hm : Modf E w r with
      | error e => simp [hm] at hk
      | ok wo =>
        obtain ⟨w2, out⟩ := wo
        simp [hm] at hk
        rw [← hk]
        exact modf_field hDQ h hm
    | swap r y => exact swap_field h hk
    | dispose r => exact dispose_field h hk
    | setDefaultPrecision p =>
      simp at hk
      rw [← hk]
      exact ⟨h.1, hb, h.2.2⟩
    | setDefaultRounding rnd =>
      simp at hk
      rw [← hk]
      exact fieldInv_of_fields h (fun _ => rfl) rfl rfl
    | setPolicy f =>
      simp at hk
      rw [← hk]
      refine ⟨h.1, h.2.1, ?_⟩
      intro g hg
      cases f with
      | none => simp [setCombinePrecisionOperator] at hg
      | some f0 =>
        simp [setCombinePrecisionOperator] at hg
        rw [← hg]
        exact hb
  · rw [if_neg hr] at hk
    simp at hk

theorem run_field {Q D : Int32 → Prop} {E : Engine} (hDQ : ∀ x, D x → Q x) (ops : List Op)
    {w w1 : World} (h : FieldInv Q D w) (hb : ∀ op ∈ ops, op.supplies Q D)
    (hk : run E w ops = .ok w1) : FieldInv Q D w1 := by
  induction ops generalizing w with
  | nil =>
    simp [run] at hk
    rw [← hk]
    exact h
  | cons op ops ih =>
    unfold run at hk
    cases hs : step E w op with
    | error e => simp [hs] at hk
    | ok w2 =>
      simp only [hs] at hk
      exact ih (step_field hDQ h (hb op (List.mem_cons_self op ops)) hs)
        (fun o ho => hb o (List.mem_cons_of_mem op ho)) hk

/-- C14: conversion to `Decimal` stops with `NotImplementedException` and returns
no value, for every object (whatever its value, precision or state), every Rounding
Directive and every provider, through `ToDecimal()` , `ToDecimal(rounding)` , the
`IConvertible` `ToDecimal(provider)` and the explicit cast. -/
theorem toDecimal_always_throws (w : World) (r : Ref) (rounding : Rounding)
    (provider : IFormatProvider) :
    ToDecimal w r = .error .notImplemented ∧
    ToDecimalR w r rounding = .error .notImplemented ∧
    ToDecimalP w r provider = .error .notImplemented ∧
    op_Explicit_Decimal w r = .error .notImplemented ∧
    resultOf (ToDecimal w r) = none ∧ resultOf (ToDecimalR w r rounding) = none ∧
    resultOf (ToDecimalP w r provider) = none ∧ resultOf (op_Explicit_Decimal w r) = none :=
  ⟨rfl, rfl, rfl, rfl, rfl, rfl, rfl, rfl⟩

theorem deref_of_live {w : World} {r : Ref} {p : Int} {v : MpfrVal}
    (h : (w.heap r)._value = .live p v) : deref w r = .ok (p, v) := by
  simp [deref, h]

/-- The getter on `y` keeps a live storage of `r` as it is. -/
theorem value_keeps_live (w : World) (r y : Ref) (p : Int) (v : MpfrVal)
    (h : (w.heap r)._value = .live p v) : ((value w y).heap r)._value = .live p v := by
  by_cases e : r = y
  · subst e
    rw [value_of_live w r p v h]
    exact h
  · rw [value_other w y r e]
    exact h

/-- A unary query on an object that is not released returns the function of the
value read and keeps every object. -/
theorem query1_spec {α : Type} (w : World) (r : Ref) (f : MpfrVal → α)
    (h : (w.heap r)._value ≠ .released) :
    ∃ w1, query1 w r f = .ok (w1, f (numericValue (w.heap r))) ∧ ∀ r', Kept w w1 r' := by
  obtain ⟨p, hp, _, _⟩ := value_live w r h
  refine ⟨(value w r).called, ?_, ?_⟩
  · simp [query1, deref_of_live hp]
  · intro r'
    exact (value_kept w r r').chain (Kept.of_heap_eq rfl)

/-- A binary query on objects that are not released returns the function of the two
values read and keeps every object. -/
theorem query2_spec {α : Type} (w : World) (r y : Ref) (f : MpfrVal → MpfrVal → α)
    (h : (w.heap r)._value ≠ .released) (hy : (w.heap y)._value ≠ .released) :
    ∃ w1, query2 w r y f = .ok (w1, f (numericValue (w.heap r)) (numericValue (w.heap y))) ∧
      ∀ r', Kept w w1 r' := by
  obtain ⟨p, hp, _, _⟩ := value_live w r h
  have hk := value_kept w r y
  have hy1 : ((value w r).heap y)._value ≠ .released := fun e => hy (hk.2.2.2.1 e)
  obtain ⟨q, hq, _, _⟩ := value_live (value w r) y hy1
  rw [hk.2.1] at hq
  have hp2 := value_keeps_live (value w r) r y p _ hp
  refine ⟨(value (value w r) y).called, ?_, ?_⟩
  · simp [query2, deref_of_live hp2, deref_of_live hq]
  · intro r'
    exact ((value_kept w r r').chain (value_kept (value w r) y r')).chain (Kept.of_heap_eq rfl)

/-- What `IsPositive` and `IsNegative` return by the kind of the value read. -/
theorem sign_results (w : World) (x : Ref) (hx : (w.heap x)._value ≠ .released) :
    ((numericValue (w.heap x) = .nan ∨ ∃ s, numericValue (w.heap x) = .zero s) →
      resultOf (IsPositive w x) = some false ∧ resultOf (IsNegative w x) = some false) ∧
    (∀ s, (numericValue (w.heap x) = .inf s ∨ ∃ m e, numericValue (w.heap x) = .num s m e) →
      resultOf (IsPositive w x) = some (!s) ∧ resultOf (IsNegative w x) = some s) := by
  obtain ⟨w1, h1, _⟩ := query1_spec w x mpfr_sgn hx
  have hp : resultOf (IsPositive w x)
      = some (decide (mpfr_sgn (numericValue (w.heap x)) > 0)) := by
    simp only [IsPositive, Sign, h1, resultOf]
  have hn : resultOf (IsNegative w x)
      = some (decide (mpfr_sgn (numericValue (w.heap x)) < 0)) := by
    simp only [IsNegative, Sign, h1, resultOf]
  rw [hp, hn]
  constructor
  · rintro (h | ⟨s, h⟩) <;> rw [h] <;> simp [mpfr_sgn]
  · rintro s (h | ⟨m, e, h⟩) <;> rw [h] <;> cases s <;> simp [mpfr_sgn]

/-- A static property made of `Create()` and a setter that is one kernel call
returns the next reference, at the default precision, holding what the kernel
gives; nothing else changes. -/
theorem factory_spec (w : World) (f : Int → MpfrVal → MpfrVal) :
    ∃ w1, factory w (fun w0 r => kernel1 w0 r f) = .ok (w1, w.next) ∧
      (w1.heap w.next)._value
        = .live w._defaultPrecision.val (f w._defaultPrecision.val .nan) ∧
      (w1.heap w.next)._precision = w._defaultPrecision ∧
      (∀ r', r' ≠ w.next → w1.heap r' = w.heap r') ∧ w1.next = w.next + 1 ∧
      w1._defaultRounding = w._defaultRounding ∧
      w1._defaultPrecision = w._defaultPrecision := by
  have hg : (Create w).2 = w.next := rfl
  have hnew : (Create w).1.heap w.next = ⟨w._defaultPrecision, .null, false⟩ := by
    have := toLong_toUInt64 w._defaultPrecision
    simp [Create, gcnew, toInt32, DefaultPrecision, this]
  have hnull : ((Create w).1.heap w.next)._value = .null := by rw [hnew]
  obtain ⟨w1, p, h1, hv, hpn, _, hpr, _, ho, hst⟩ :=
    kernel1_spec (Create w).1 w.next f (by rw [hnull]; simp)
  have hp : p = w._defaultPrecision.val := by rw [hpn hnull, hnew]
  refine ⟨w1, ?_, ?_, ?_, ?_, ?_, ?_, ?_⟩
  · unfold factory
    simp only [hg]
    rw [h1]
  · rw [hv, hp, hnew]
    rfl
  · rw [hpr, hnew]
  · intro r' hr
    rw [ho r' hr]
    simp [Create, gcnew, Function.update_noteq hr]
  · rw [hst.1]; rfl
  · rw [hst.2.1]; rfl
  · rw [hst.2.2.1]; rfl

/-- C13 (counterexample): on the zeros made by `PositiveZero` and `NegativeZero` in
the initial world, `Compare` returns `0` , and `IsPositive` and `IsNegative` return
false on the one as on the other: the sign predicates do not differ. -/
theorem zero_sign_predicates_agree :
    (numericValue (zerosWorld.heap 0), numericValue (zerosWorld.heap 1))
      = (.zero false, .zero true) ∧
    resultOf (Compare zerosWorld 0 1) = some 0 ∧
    resultOf (IsPositive zerosWorld 0) = resultOf (IsPositive zerosWorld 1) ∧
    resultOf (IsNegative zerosWorld 0) = resultOf (IsNegative zerosWorld 1) ∧
    resultOf (Sign zerosWorld 0) = resultOf (Sign zerosWorld 1) := by
  decide

/-- C13 (as amended): in every world, `PositiveZero.Compare(NegativeZero)` returns `0`
and the sign predicates do not tell the two zeros apart: `IsPositive` and
`IsNegative` return false on both. -/
theorem zeros_equal_and_unsigned (w : World) :
    ∃ w2, twoZeros w = .ok (w2, w.next, w.next + 1) ∧
      numericValue (w2.heap w.next) = .zero false ∧
      numericValue (w2.heap (w.next + 1)) = .zero true ∧
      resultOf (Compare w2 w.next (w.next + 1)) = some 0 ∧
      resultOf (IsPositive w2 w.next) = some false ∧
      resultOf (IsNegative w2 w.next) = some false ∧
      resultOf (IsPositive w2 (w.next + 1)) = some false ∧
      resultOf (IsNegative w2 (w.next + 1)) = some false := by
  obtain ⟨w1, h1, hv1, _, _, hn1, _, hd1⟩ := factory_spec w (fun _ _ => .zero (decide ((1 : Int) < 0)))
  obtain ⟨w2, h2, hv2, _, ho2, _, _, _⟩ :=
    factory_spec w1 (fun _ _ => .zero (decide ((-1 : Int) < 0)))
  rw [hn1] at h2 hv2 ho2
  have hne : w.next ≠ w.next + 1 := fun h => Nat.succ_ne_self w.next h.symm
  have hz1 : numericValue (w2.heap w.next) = .zero false := by
    rw [ho2 w.next hne]
    simp [numericValue, hv1]
  have hz2 : numericValue (w2.heap (w.next + 1)) = .zero true := by
    simp [numericValue, hv2]
  have hs1 : (w2.heap w.next)._value ≠ .released := by
    rw [ho2 w.next hne, hv1]
    simp
  have hs2 : (w2.heap (w.next + 1))._value ≠ .released := by
    rw [hv2]
    simp
  have hc := query2_spec w2 w.next (w.next + 1) mpfr_cmp hs1 hs2
  obtain ⟨w3, h3, _⟩ := hc
  have hp1 := (sign_results w2 w.next hs1).1 (Or.inr ⟨false, hz1⟩)
  have hp2 := (sign_results w2 (w.next + 1) hs2).1 (Or.inr ⟨true, hz2⟩)
  refine ⟨w2, ?_, hz1, hz2, ?_, hp1.1, hp1.2, hp2.1, hp2.2⟩
  · have e1 : PositiveZero w
        = factory w (fun w0 r => kernel1 w0 r (fun _ _ => .zero (decide ((1 : Int) < 0)))) := rfl
    have e2 : NegativeZero w1
        = factory w1 (fun w0 r => kernel1 w0 r (fun _ _ => .zero (decide ((-1 : Int) < 0)))) :=
      rfl
    unfold twoZeros
    rw [e1, h1]
    simp only []
    rw [e2, h2]
  · simp only [Compare, h3, resultOf, hz1, hz2]
    rfl

/-- C15 (counterexample): the reference engine rejects `"abc"` in base ten (return
code `-1` ), yet `Set("abc", 10)` returns, leaving `+0` in the object, and the
constructor `BigDecimal("abc", 10, 53)` returns a new object. -/
theorem invalid_string_not_rejected :
    (mpfrRef.set_str 53 .nan "abc" 10).1 = -1 ∧
    faultOf (Set_String mpfrRef fresh 0 "abc" 10) = none ∧
    after (Set_String mpfrRef fresh 0 "abc" 10) (fun w => (w.heap 0)._value)
      = some (.live 53 (.zero false)) ∧
    afterNew (newString mpfrRef World.init "abc" 10 53) (fun w r => (r, (w.heap r)._value))
      = some (0, .live 53 (.zero false)) := by
  decide

/-- C15 (as amended): for every string and every base the engine accepts ( `0` or `2`
to `62` ), `Set(string, base)` on an object whose storage is not released, and whose
`Precision` the engine accepts when the storage is still to be allocated, returns
whatever the return code of the engine's parser: no error is raised and the object
holds the value the parser left.  A string constructor given a precision the engine
accepts (from `MPFR_PREC_MIN` to `MPFR_PREC_MAX` ) returns a new object of exactly that
`Precision` , and the string constructors without a precision return when the engine
accepts the `DefaultPrecision` . -/
theorem set_string_never_rejects (E : Engine) (w : World) (r : Ref) (s : String) (base : Int)
    (hr : (w.heap r)._value ≠ .released)
    (hrp : (w.heap r)._value = .null → enginePrecision (Precision (w.heap r) : Int) = true)
    (_hb : engineBase base = true) :
    (∃ p, faultOf (Set_String E w r s base) = none ∧
      after (Set_String E w r s base) (fun w1 => (w1.heap r)._value)
        = some (.live p (E.set_str p (numericValue (w.heap r)) s base).2) ∧
      ((w.heap r)._value = .null → p = (Precision (w.heap r) : Int))) ∧
    (∀ precision : Nat, enginePrecision (precision : Int) = true →
      faultOf (newString E w s base precision) = none ∧
      afterNew (newString E w s base precision) (fun w1 n => (n, Precision (w1.heap n)))
        = some (w.next, precision)) ∧
    (enginePrecision (DefaultPrecision w : Int) = true →
      faultOf (ofStringBase E w s base) = none ∧ faultOf (ofString E w s) = none) := by
  have hnew : ∀ precision : Nat, enginePrecision (precision : Int) = true →
      faultOf (newString E w s base precision) = none ∧
      afterNew (newString E w s base precision) (fun w1 n => (n, Precision (w1.heap n)))
        = some (w.next, precision) := by
    intro precision hacc
    have hlt := (enginePrecision_nat hacc).2
    have hn : (((gcnew w).1).heap (gcnew w).2)._value = .null := by simp [gcnew]
    have hg : (gcnew w).2 = w.next := rfl
    obtain ⟨w1, h1, hh, _, _⟩ := setPrecision_null_spec (gcnew w).1 (gcnew w).2 precision hn
    rw [hg] at hh
    have hnull : (w1.heap w.next)._value = .null := by rw [hh]
    obtain ⟨w2, p, h2, _, _, _, hpr2, _, _, _⟩ :=
      kernel1_spec w1 w.next (fun p v => (E.set_str p v s 10).2) (by rw [hnull]; simp)
    have hres : newString E w s base precision = .ok (w2, w.next) := by
      unfold newString
      rw [h1]
      simp only [hg, Set_String10, Set_String]
      rw [h2]
    rw [hres]
    refine ⟨rfl, ?_⟩
    simp only [afterNew, Precision]
    rw [hpr2, hh]
    simp only [toInt32]
    rw [toUInt64_toLong precision hlt]
  refine ⟨?_, hnew, fun hd => ⟨(hnew _ hd).1, (hnew _ hd).1⟩⟩
  obtain ⟨w1, p, h1, hv, hpn, _, _, _, _, _⟩ :=
    kernel1_spec w r (fun p v => (E.set_str p v s base).2) hr
  refine ⟨p, ?_, ?_, ?_⟩
  · simp only [Set_String]
    rw [h1]
    rfl
  · simp only [Set_String]
    rw [h1]
    simp only [after]
    rw [hv]
  · intro hnull
    have hlt := (enginePrecision_nat (hrp hnull)).2
    rw [hpn hnull]
    have h2 : toLong (Precision (w.heap r)) = (w.heap r)._precision.val := toLong_toUInt64 _
    rw [← h2]
    unfold toLong
    split <;> omega

/-- Witness for C15 as amended: `Set("abc", 10)` on the object made by `Create()` . -/
theorem set_string_never_rejects_witness :
    (fresh.heap 0)._value ≠ .released ∧
    ((fresh.heap 0)._value = .null → enginePrecision (Precision (fresh.heap 0) : Int) = true) ∧
    engineBase 10 = true ∧
    faultOf (Set_String mpfrRef fresh 0 "abc" 10) = none :=
  ⟨by decide, fun _ => by decide, by decide, by
    obtain ⟨_, h, _⟩ := (set_string_never_rejects mpfrRef fresh 0 "abc" 10 (by decide)
      (fun _ => by decide) (by decide)).1
    exact h⟩

/-- C16 (evaluation at the failing input): the constructor `BigDecimal("10", 2, 53)`
holds ten, where `Create(53).Set("10", 2)` holds two; `BigDecimal("ff", 16, 53)` holds
`+0` , where `Create(53).Set("ff", 16)` holds `255` : the constructor parses in base
ten whatever base it is given. -/
theorem string_constructor_ignores_base :
    afterNew (newString mpfrRef World.init "10" 2 53) (fun w r => numericValue (w.heap r))
      = some (.num false 5 1) ∧
    after (andThen (dropRef (CreateP World.init 53)) (fun w => Set_String mpfrRef w 0 "10" 2))
      (fun w => numericValue (w.heap 0)) = some (.num false 1 1) ∧
    afterNew (newString mpfrRef World.init "ff" 16 53) (fun w r => numericValue (w.heap r))
      = some (.zero false) ∧
    after (andThen (dropRef (CreateP World.init 53)) (fun w => Set_String mpfrRef w 0 "ff" 16))
      (fun w => numericValue (w.heap 0)) = some (.num false 255 0) := by
  decide

/-- C19 (evaluation at the failing input): `Modf` on `2.75` returns two new objects,
distinct from each other and from the source, at the precision of the source, and
leaves the source as it was; but `fraction` holds `2` and `integral` holds `0.75` :
the source passes `fraction` as the integral-part argument of `mpfr_modf` . -/
theorem modf_parts_exchanged :
    (Precision (twoPointSevenFive.heap 0), numericValue (twoPointSevenFive.heap 0))
      = (53, .num false 11 (-2)) ∧
    afterModf (Modf mpfrRef twoPointSevenFive 0)
      (fun w fraction integral =>
        ((fraction, integral), (Precision (w.heap fraction), Precision (w.heap integral)),
         (Precision (w.heap 0), numericValue (w.heap 0))))
      = some ((1, 2), (53, 53), (53, .num false 11 (-2))) ∧
    afterModf (Modf mpfrRef twoPointSevenFive 0)
      (fun w fraction integral =>
        (numericValue (w.heap fraction), numericValue (w.heap integral)))
      = some (.num false 1 1, .num false 3 (-2)) := by
  decide

theorem toLong_of_lt (q : Nat) (h : q < 2147483648) : toLong q = (q : Int) := by
  unfold toLong
  split <;> omega

/-- C18 (counterexample): `Create(0)` returns an object of `Precision` `0` , and
`BigDecimal(5, 1)` and `SetPrecision(1)` leave objects of `Precision` `1` . -/
theorem precision_floor_not_enforced :
    newPrecision (CreateP World.init 0) = some 0 ∧
    newPrecision (newInt64 mpfrRef World.init 5 1) = some 1 ∧
    after (SetPrecision oneAt8 0 1) (fun w => (Precision (w.heap 0), (w.heap 0)._value))
      = some (1, .live 1 .nan) := by
  decide

/-- C18 (as amended): in every world reached from the initial one by calls that
supply only precisions of at least `2` and below `2^31` (arguments of the
constructors, of `Create` , of `SetPrecision` and of the `DefaultPrecision` setter,
results of the policy), every object has a `Precision` of at least `2` . -/
theorem precision_at_least_two (E : Engine) (ops : List Op) (w : World)
    (hb : ∀ op ∈ ops, op.precisionsFrom2) (hk : run E World.init ops = .ok w) (r : Ref) :
    2 ≤ Precision (w.heap r) := by
  have hQ : ∀ q : Nat, 2 ≤ q ∧ q < 2147483648 → 2 ≤ (toInt32 q).val := by
    intro q hq
    have := toLong_of_lt q hq.2
    simp only [toInt32]
    omega
  have hinit : FieldInv (fun i => 2 ≤ i.val) (fun i => 2 ≤ i.val) World.init := by
    refine ⟨fun r => ?_, ?_, ?_⟩
    · simp [World.init]
    · simp [World.init]
    · intro f hf
      simp [World.init] at hf
  have hs : ∀ op ∈ ops, op.supplies (fun i => 2 ≤ i.val) (fun i => 2 ≤ i.val) := by
    intro op hop
    have h := hb op hop
    cases op with
    | createP p => exact hQ p h
    | newInt64 v p => exact hQ p h
    | newUInt64 v p => exact hQ p h
    | setPrecision r p => exact hQ p h
    | setDefaultPrecision p => exact hQ p h
    | setPolicy f =>
      cases f with
      | none => trivial
      | some f0 =>
        intro a b
        have hab := h a b
        have hm : f0 a b % 18446744073709551616 = f0 a b := by omega
        rw [hm]
        exact hQ _ hab
    | _ => trivial
  have hf := run_field (fun _ hx => hx) ops hinit hs hk
  have h2 := hf.1 r
  have h3 := (w.heap r)._precision.hi
  unfold Precision toUInt64
  omega

/-- Witness for C18 as amended: the program `demoOps` . -/
theorem precision_at_least_two_witness :
    (Precision (demoWorld.heap 0), Precision (demoWorld.heap 1), Precision (demoWorld.heap 2))
      = (128, 32, 96) ∧
    2 ≤ Precision (demoWorld.heap 2) := by
  have hb : ∀ op ∈ demoOps, op.precisionsFrom2 := by
    intro op hop
    simp only [demoOps, List.mem_cons, List.mem_singleton, List.not_mem_nil, or_false] at hop
    rcases hop with h | h | h | h | h | h | h | h <;> subst h <;>
      simp [Op.precisionsFrom2]
  exact ⟨by decide, precision_at_least_two mpfrRef demoOps demoWorld hb rfl 2⟩

/-- A constructor made of `SetPrecision(q)` and one kernel call on a new object
returns the next reference with `q` narrowed to `int` as stored precision. -/
theorem ctor_precision (w : World) (q : Nat) (f : Int → MpfrVal → MpfrVal) :
    ∃ w2, ctorWith w q f = .ok (w2, w.next) ∧
      (w2.heap w.next)._precision = toInt32 q := by
  have hn : (((gcnew w).1).heap (gcnew w).2)._value = .null := by simp [gcnew]
  have hg : (gcnew w).2 = w.next := rfl
  obtain ⟨w1, h1, hh, _, _⟩ := setPrecision_null_spec (gcnew w).1 (gcnew w).2 q hn
  rw [hg] at hh
  have hnull : (w1.heap w.next)._value = .null := by rw [hh]
  obtain ⟨w2, p, h2, _, _, _, hpr2, _, _, _⟩ :=
    kernel1_spec w1 w.next f (by rw [hnull]; simp)
  refine ⟨w2, ?_, ?_⟩
  · unfold ctorWith
    rw [h1]
    simp only [hg]
    rw [h2]
  · rw [hpr2, hh]

theorem Precision_eq_Default (w : World) (b : BigDecimal)
    (h : b._precision = toInt32 (DefaultPrecision w)) : Precision b = DefaultPrecision w := by
  simp only [DefaultPrecision] at h
  rw [toInt32_toUInt64] at h
  simp [Precision, DefaultPrecision, h]

/-- Every default-taking construction returns an object whose `Precision` is the
`DefaultPrecision` of the world it is called in. -/
theorem constructions_at_default (E : Engine) (w : World) :
    Precision ((Create w).1.heap (Create w).2) = DefaultPrecision w ∧
    (∀ v, newPrecision (ofInt32 E w v) = some (DefaultPrecision w)) ∧
    (∀ v, newPrecision (ofInt64 E w v) = some (DefaultPrecision w)) ∧
    (∀ v, newPrecision (ofUInt64 E w v) = some (DefaultPrecision w)) ∧
    (∀ s, newPrecision (ofString E w s) = some (DefaultPrecision w)) ∧
    (∀ s base, newPrecision (ofStringBase E w s base) = some (DefaultPrecision w)) ∧
    (newPrecision (NaN w) = some (DefaultPrecision w) ∧
      newPrecision (Infinity w) = some (DefaultPrecision w) ∧
      newPrecision (PositiveInfinity w) = some (DefaultPrecision w) ∧
      newPrecision (NegativeInfinity w) = some (DefaultPrecision w) ∧
      newPrecision (Zero w) = some (DefaultPrecision w) ∧
      newPrecision (PositiveZero w) = some (DefaultPrecision w) ∧
      newPrecision (NegativeZero w) = some (DefaultPrecision w)) ∧
    (∀ K, newPrecision (Ln2 K w) = some (DefaultPrecision w) ∧
      newPrecision (Pi K w) = some (DefaultPrecision w) ∧
      newPrecision (Euler K w) = some (DefaultPrecision w) ∧
      newPrecision (Catalan K w) = some (DefaultPrecision w)) := by
  have hc : ∀ f : Int → MpfrVal → MpfrVal,
      newPrecision (ctorWith w (DefaultPrecision w) f) = some (DefaultPrecision w) := by
    intro f
    obtain ⟨w2, h2, hp⟩ := ctor_precision w (DefaultPrecision w) f
    rw [h2]
    simp only [newPrecision, afterNew]
    rw [Precision_eq_Default w _ hp]
  have e1 : ∀ v, ofInt32 E w v
      = ctorWith w (DefaultPrecision w) (fun p _ => E.set_si p (longOfInt64 v)) := fun _ => rfl
  have e2 : ∀ v, ofInt64 E w v
      = ctorWith w (DefaultPrecision w) (fun p _ => E.set_si p (longOfInt64 v)) := fun _ => rfl
  have e3 : ∀ v, ofUInt64 E w v
      = ctorWith w (DefaultPrecision w) (fun p _ => E.set_ui p (toULong v)) := fun _ => rfl
  have e4 : ∀ s base, ofStringBase E w s base
      = ctorWith w (DefaultPrecision w) (fun p v => (E.set_str p v s 10).2) := fun _ _ => rfl
  have e5 : ∀ s, ofString E w s
      = ctorWith w (DefaultPrecision w) (fun p v => (E.set_str p v s 10).2) := fun _ => rfl
  have hf : ∀ f : Int → MpfrVal → MpfrVal,
      newPrecision (factory w (fun w0 r => kernel1 w0 r f)) = some (DefaultPrecision w) := by
    intro f
    obtain ⟨w1, h1, _, hp, _⟩ := factory_spec w f
    rw [h1]
    simp only [newPrecision, afterNew]
    simp [Precision, DefaultPrecision, hp]
  refine ⟨?_, fun v => by rw [e1]; exact hc _, fun v => by rw [e2]; exact hc _,
    fun v => by rw [e3]; exact hc _, fun s => by rw [e5]; exact hc _,
    fun s base => by rw [e4]; exact hc _,
    ⟨hf _, hf _, hf _, hf _, hf _, hf _, hf _⟩, fun K => ⟨hf _, hf _, hf _, hf _⟩⟩
  exact Precision_eq_Default w _ (by simp [Create, gcnew])

/-- C17 (counterexample): after `DefaultPrecision` is set to `2^32 + 64` the getter
reads `64` , and the objects made by `Create()` and by `BigDecimal(7)` have
`Precision` `64` . -/
theorem wide_default_precision_not_applied :
    DefaultPrecision (setDefaultPrecision World.init 4294967360) = 64 ∧
    Precision ((Create (setDefaultPrecision World.init 4294967360)).1.heap 0) = 64 ∧
    newPrecision (ofInt64 mpfrRef (setDefaultPrecision World.init 4294967360) 7) = some 64 ∧
    (64 : Nat) ≠ 4294967360 := by
  decide

/-- C17 (as amended): the default precision is `53` in the initial world.  Setting
`DefaultPrecision` to a `d` the engine accepts (from `MPFR_PREC_MIN` to
`MPFR_PREC_MAX` ) changes no object, whether its storage is allocated or not; and in
every world reached afterwards by calls other than that setter, `DefaultPrecision`
reads `d` and every default-taking construction ( `Create()` , a constructor from a
number or a string without a precision, a named factory) returns an object of
`Precision` `d` . -/
theorem default_precision_applies (E : Engine) (w : World) (d : Nat)
    (hacc : enginePrecision (d : Int) = true) :
    (DefaultPrecision World.init = 53 ∧
      Precision ((Create World.init).1.heap (Create World.init).2) = 53) ∧
    (∀ r, (setDefaultPrecision w d).heap r = w.heap r) ∧
    (∀ ops w1, (∀ op ∈ ops, op.keepsDefault) → run E (setDefaultPrecision w d) ops = .ok w1 →
      DefaultPrecision w1 = d ∧
      Precision ((Create w1).1.heap (Create w1).2) = d ∧
      (∀ v, newPrecision (ofInt32 E w1 v) = some d) ∧
      (∀ v, newPrecision (ofInt64 E w1 v) = some d) ∧
      (∀ v, newPrecision (ofUInt64 E w1 v) = some d) ∧
      (∀ s, newPrecision (ofString E w1 s) = some d) ∧
      (∀ s base, newPrecision (ofStringBase E w1 s base) = some d) ∧
      (newPrecision (NaN w1) = some d ∧ newPrecision (Infinity w1) = some d ∧
        newPrecision (PositiveInfinity w1) = some d ∧
        newPrecision (NegativeInfinity w1) = some d ∧ newPrecision (Zero w1) = some d ∧
        newPrecision (PositiveZero w1) = some d ∧ newPrecision (NegativeZero w1) = some d) ∧
      (∀ K, newPrecision (Ln2 K w1) = some d ∧ newPrecision (Pi K w1) = some d ∧
        newPrecision (Euler K w1) = some d ∧ newPrecision (Catalan K w1) = some d)) := by
  have hd : d < 2147483648 := (enginePrecision_nat hacc).2
  refine ⟨⟨by decide, by decide⟩, fun r => rfl, ?_⟩
  intro ops w1 hops hk
  have h0 : FieldInv (fun _ => True) (fun i => i = toInt32 d) (setDefaultPrecision w d) :=
    ⟨fun _ => trivial, rfl, fun _ _ _ _ => trivial⟩
  have hs : ∀ op ∈ ops, op.supplies (fun _ => True) (fun i => i = toInt32 d) := by
    intro op hop
    have h := hops op hop
    cases op with
    | setDefaultPrecision p => exact absurd h (by simp [Op.keepsDefault])
    | setPolicy f =>
      cases f with
      | none => trivial
      | some f0 => exact fun _ _ => trivial
    | _ => trivial
  have hf := run_field (fun _ _ => trivial) ops h0 hs hk
  have hD : DefaultPrecision w1 = d := by
    have h1 : w1._defaultPrecision = toInt32 d := hf.2.1
    simp only [DefaultPrecision, h1, toInt32]
    exact toUInt64_toLong d hd
  have hc := constructions_at_default E w1
  rw [hD] at hc
  exact ⟨hD, hc⟩

/-- Witness for C17 as amended: in the world of the object holding `1` at precision
`8` , the default is set to `100` ; after a later `BigDecimal(1, 64)` a new
`BigDecimal(7)` has `Precision` `100` , and the earlier object still has `8` . -/
theorem default_precision_applies_witness :
    enginePrecision (100 : Nat) = true ∧
    Precision ((setDefaultPrecision oneAt8 100).heap 0) = 8 ∧
    newPrecision (ofInt64 mpfrRef
      (worldOf (run mpfrRef (setDefaultPrecision oneAt8 100) [.newInt64 1 64])) 7)
      = some 100 :=
  ⟨by decide, by decide,
    ((default_precision_applies mpfrRef oneAt8 100 (by decide)).2.2 [.newInt64 1 64] _
      (by
        intro op hop
        simp only [List.mem_singleton] at hop
        subst hop
        trivial) rfl).2.2.2.1 7⟩

theorem log2F_eq_log (fuel n : Nat) (h : n ≤ fuel) : log2F fuel n = Nat.log 2 n := by
  induction fuel generalizing n with
  | zero =>
    have : n = 0 := by omega
    subst this
    simp [log2F]
  | succ f ih =>
    unfold log2F
    by_cases h2 : n < 2
    · rw [if_pos h2, Nat.log_of_lt h2]
    · have h3 : Nat.log 2 n = Nat.log 2 (n / 2) + 1 :=
        Nat.log_of_one_lt_of_le (by norm_num) (by omega)
      rw [if_neg h2, ih (n / 2) (by omega), h3]

theorem ilog2_eq_log (n : Nat) : ilog2 n = Nat.log 2 n :=
  log2F_eq_log n n (Nat.le_refl n)

theorem log_mul_two_pow (m a : Nat) (hm : m ≠ 0) : Nat.log 2 (m * 2 ^ a) = Nat.log 2 m + a := by
  induction a with
  | zero => simp
  | succ a ih =>
    have h0 : m * 2 ^ a ≠ 0 := Nat.mul_ne_zero hm (by positivity)
    rw [pow_succ, ← Nat.mul_assoc, Nat.log_mul_base (by norm_num) h0, ih]
    omega

theorem stripTwos_odd (j : Nat) : ∀ (fuel m : Nat) (e : Int), m % 2 = 1 → j ≤ fuel →
    stripTwos fuel (m * 2 ^ j) e = (m, e + j) := by
  induction j with
  | zero =>
    intro fuel m e hm _
    cases fuel with
    | zero => simp [stripTwos]
    | succ f =>
      have : ¬ (m % 2 = 0 ∧ m ≠ 0) := by omega
      simp [stripTwos, this]
  | succ j ih =>
    intro fuel m e hm hf
    cases fuel with
    | zero => omega
    | succ f =>
      have h1 : m * 2 ^ (j + 1) = (m * 2 ^ j) * 2 := by rw [pow_succ, Nat.mul_assoc]
      have h2 : (m * 2 ^ (j + 1)) % 2 = 0 ∧ m * 2 ^ (j + 1) ≠ 0 := by
        constructor
        · rw [h1]; omega
        · exact Nat.mul_ne_zero (by omega) (by positivity)
      have h3 : m * 2 ^ (j + 1) / 2 = m * 2 ^ j := by rw [h1]; omega
      unfold stripTwos
      rw [if_pos h2, h3, ih f m (e + 1) hm (by omega)]
      congr 1
      push_cast
      ring

theorem mkNum_odd (s : Bool) (m c : Nat) (e : Int) (hm : m % 2 = 1) :
    mkNum s (m * 2 ^ c) e = .num s m (e + c) := by
  have hm0 : m ≠ 0 := by omega
  have h0 : m * 2 ^ c ≠ 0 := Nat.mul_ne_zero hm0 (by positivity)
  unfold mkNum
  rw [if_neg h0]
  have hl : ilog2 (m * 2 ^ c) + 1 = Nat.log 2 m + c + 1 := by
    rw [ilog2_eq_log, log_mul_two_pow m c hm0]
  simp only [hl, stripTwos_odd c (Nat.log 2 m + c + 1) m e hm (by omega)]

theorem roundRat_exact (rnd : Rounding) (p : Nat) (hp : 0 < p) (s : Bool) (m a b : Nat)
    (hm : m % 2 = 1) (hlt : m < 2 ^ p) :
    roundRat rnd (p : Int) s (m * 2 ^ a) (2 ^ b) = .num s m ((a : Int) - (b : Int)) := by
  have hm0 : m ≠ 0 := by omega
  have hLp : Nat.log 2 m < p := Nat.log_lt_of_lt_pow hm0 hlt
  have hLm : 2 ^ Nat.log 2 m ≤ m := Nat.pow_log_le_self 2 hm0
  have hn : ilog2 (m * 2 ^ a) = Nat.log 2 m + a := by
    rw [ilog2_eq_log, log_mul_two_pow m a hm0]
  have hd : ilog2 (2 ^ b) = b := by rw [ilog2_eq_log, Nat.log_pow (by norm_num)]
  have hnpos : m * 2 ^ a ≠ 0 := Nat.mul_ne_zero hm0 (by positivity)
  have hdpos : (2 : Nat) ^ b ≠ 0 := by positivity
  have hc1 : ¬ ((p : Int) ≤ 0 ∨ 2 ^ b = 0) := by
    intro h
    rcases h with h | h
    · omega
    · exact hdpos h
  have hge : (if 0 ≤ ((Nat.log 2 m + a : Nat) : Int) - (b : Int) then
        decide (2 ^ b * 2 ^ (((Nat.log 2 m + a : Nat) : Int) - (b : Int)).toNat ≤ m * 2 ^ a)
      else decide (2 ^ b ≤ m * 2 ^ a * 2 ^ (-(((Nat.log 2 m + a : Nat) : Int) - (b : Int))).toNat))
      = true := by
    split
    · rename_i h
      have ht : b + (((Nat.log 2 m + a : Nat) : Int) - (b : Int)).toNat = Nat.log 2 m + a := by
        omega
      rw [decide_eq_true_eq, ← pow_add, ht, pow_add]
      exact Nat.mul_le_mul_right _ hLm
    · rename_i h
      have ht : Nat.log 2 m + a + (-(((Nat.log 2 m + a : Nat) : Int) - (b : Int))).toNat = b := by
        omega
      rw [decide_eq_true_eq]
      calc 2 ^ b = 2 ^ (Nat.log 2 m + a + (-(((Nat.log 2 m + a : Nat) : Int) - (b : Int))).toNat) := by
              rw [ht]
        _ = 2 ^ Nat.log 2 m * 2 ^ a * 2 ^ (-(((Nat.log 2 m + a : Nat) : Int) - (b : Int))).toNat := by
              rw [pow_add, pow_add]
        _ ≤ m * 2 ^ a * 2 ^ (-(((Nat.log 2 m + a : Nat) : Int) - (b : Int))).toNat :=
              Nat.mul_le_mul_right _ (Nat.mul_le_mul_right _ hLm)
  unfold roundRat
  rw [if_neg hc1, if_neg hnpos]
  simp only [hn, hd, hge, if_true]
  by_cases hk : 0 ≤ (p : Int) - 1 - (((Nat.log 2 m + a : Nat) : Int) - (b : Int))
  · simp only [if_pos hk]
    have hq : m * 2 ^ a * 2 ^ ((p : Int) - 1 - (((Nat.log 2 m + a : Nat) : Int) - (b : Int))).toNat
        = 2 ^ b * (m * 2 ^ (p - 1 - Nat.log 2 m)) := by
      have he : a + ((p : Int) - 1 - (((Nat.log 2 m + a : Nat) : Int) - (b : Int))).toNat
          = b + (p - 1 - Nat.log 2 m) := by omega
      calc m * 2 ^ a * 2 ^ ((p : Int) - 1 - (((Nat.log 2 m + a : Nat) : Int) - (b : Int))).toNat
          = m * 2 ^ (a + ((p : Int) - 1 - (((Nat.log 2 m + a : Nat) : Int) - (b : Int))).toNat) := by
            rw [pow_add, Nat.mul_assoc]
        _ = m * 2 ^ (b + (p - 1 - Nat.log 2 m)) := by rw [he]
        _ = 2 ^ b * (m * 2 ^ (p - 1 - Nat.log 2 m)) := by rw [pow_add]; ring
    rw [hq, Nat.mul_mod_right, Nat.mul_div_cancel_left _ (Nat.pos_of_ne_zero hdpos)]
    simp only [ne_eq, not_true_eq_false, false_and, if_false]
    rw [mkNum_odd s m _ _ hm]
    congr 1
    omega
  · simp only [if_neg hk]
    have hq : m * 2 ^ a
        = 2 ^ b * 2 ^ (-((p : Int) - 1 - (((Nat.log 2 m + a : Nat) : Int) - (b : Int)))).toNat
          * (m * 2 ^ (p - 1 - Nat.log 2 m)) := by
      have he : a = b + (-((p : Int) - 1 - (((Nat.log 2 m + a : Nat) : Int) - (b : Int)))).toNat
          + (p - 1 - Nat.log 2 m) := by omega
      calc m * 2 ^ a
          = m * 2 ^ (b + (-((p : Int) - 1 - (((Nat.log 2 m + a : Nat) : Int) - (b : Int)))).toNat
              + (p - 1 - Nat.log 2 m)) := by rw [← he]
        _ = 2 ^ b * 2 ^ (-((p : Int) - 1 - (((Nat.log 2 m + a : Nat) : Int) - (b : Int)))).toNat
              * (m * 2 ^ (p - 1 - Nat.log 2 m)) := by rw [pow_add, pow_add]; ring
    have hpos : 0 < 2 ^ b
        * 2 ^ (-((p : Int) - 1 - (((Nat.log 2 m + a : Nat) : Int) - (b : Int)))).toNat := by
      positivity
    rw [hq, Nat.mul_mod_right, Nat.mul_div_cancel_left _ hpos]
    simp only [ne_eq, not_true_eq_false, false_and, if_false]
    rw [mkNum_odd s m _ _ hm]
    congr 1
    omega


/-- The reference `mpfr_set` leaves a regular number that fits the precision as it
is, under every Rounding Directive. -/
theorem refSet_exact (rnd : Rounding) (prec : Int) (s : Bool) (m : Nat) (e : Int)
    (h : fits prec (.num s m e) = true) : refSet rnd prec (.num s m e) = .num s m e := by
  simp only [fits, Bool.and_eq_true, decide_eq_true_eq] at h
  obtain ⟨⟨hp, hm⟩, hlt⟩ := h
  have hpc : prec = ((prec.toNat : Nat) : Int) := by omega
  have hp0 : 0 < prec.toNat := by omega
  have hm0 : m ≠ 0 := by omega
  unfold refSet toRat roundSigned
  by_cases he : 0 ≤ e
  · simp only [if_pos he]
    have hn0 : (if s = true then -((m * 2 ^ e.toNat : Nat) : Int) else ((m * 2 ^ e.toNat : Nat) : Int))
        ≠ 0 := by
      have : m * 2 ^ e.toNat ≠ 0 := Nat.mul_ne_zero hm0 (by positivity)
      split <;> omega
    have hneg : decide ((if s = true then -((m * 2 ^ e.toNat : Nat) : Int)
        else ((m * 2 ^ e.toNat : Nat) : Int)) < 0) = s := by
      have : 0 < m * 2 ^ e.toNat := Nat.pos_of_ne_zero (Nat.mul_ne_zero hm0 (by positivity))
      cases s
      · simp
      · simp
        omega
    have habs : (if s = true then -((m * 2 ^ e.toNat : Nat) : Int)
        else ((m * 2 ^ e.toNat : Nat) : Int)).natAbs = m * 2 ^ e.toNat := by
      split <;> omega
    rw [if_neg hn0, hneg, habs]
    have h1 : (1 : Nat) = 2 ^ 0 := rfl
    rw [h1, hpc, roundRat_exact rnd prec.toNat hp0 s m e.toNat 0 hm hlt]
    congr 1
    omega
  · simp only [if_neg he]
    have hn0 : (if s = true then -((m : Nat) : Int) else ((m : Nat) : Int)) ≠ 0 := by
      split <;> omega
    have hneg : decide ((if s = true then -((m : Nat) : Int) else ((m : Nat) : Int)) < 0) = s := by
      cases s
      · simp
      · simp
        omega
    have habs : (if s = true then -((m : Nat) : Int) else ((m : Nat) : Int)).natAbs = m := by
      split <;> omega
    rw [if_neg hn0, hneg, habs]
    have h1 : m = m * 2 ^ 0 := by simp
    rw [hpc]
    conv_lhs => rw [h1]
    rw [roundRat_exact rnd prec.toNat hp0 s m 0 (-e).toNat hm hlt]
    congr 1
    omega

/-- The reference `mpfr_neg` applied twice gives back a value that fits the
precision. -/
theorem refNeg_refNeg (rnd1 rnd2 : Rounding) (prec : Int) (v : MpfrVal)
    (h : fits prec v = true) : refNeg rnd2 prec (refNeg rnd1 prec v) = v := by
  cases v with
  | nan => rfl
  | inf s => simp [refNeg]
  | zero s => simp [refNeg]
  | num s m e =>
    have h1 : fits prec (.num (!s) m e) = true := h
    simp only [refNeg]
    rw [refSet_exact rnd1 prec (!s) m e h1]
    simp only [refNeg]
    rw [refSet_exact rnd2 prec (!(!s)) m e h]
    simp

/-- C20: on the reference engine, for an object whose storage holds a value that
fits its precision (as every engine number does; finite or not), `x.Neg().Neg()` ,
under the default or any two Rounding Directives, returns the receiver at each call
and leaves the object with the original value at the same precision. -/
theorem neg_neg_roundtrip (w : World) (r : Ref) (p : Int) (v : MpfrVal)
    (hs : (w.heap r)._value = .live p v) (hfit : fits p v = true) :
    (∀ rnd1 rnd2, afterNew (negNegR mpfrRef w r rnd1 rnd2)
        (fun w2 r2 => (r2, (w2.heap r2)._value, Precision (w2.heap r2)))
        = some (r, .live p v, Precision (w.heap r))) ∧
    afterNew (negNeg mpfrRef w r)
        (fun w2 r2 => (r2, (w2.heap r2)._value, Precision (w2.heap r2)))
        = some (r, .live p v, Precision (w.heap r)) := by
  have key : ∀ rnd1 rnd2, ∃ w1 w2, NegR mpfrRef w r rnd1 = .ok w1 ∧
      NegR mpfrRef w1 r rnd2 = .ok w2 ∧ (w2.heap r)._value = .live p v ∧
      (w2.heap r)._precision = (w.heap r)._precision ∧
      w1._defaultRounding = w._defaultRounding := by
    intro rnd1 rnd2
    obtain ⟨w1, h1, hv1, hp1, _, _, hst1⟩ := kernel1_live w r (mpfrRef.neg rnd1) p v hs
    obtain ⟨w2, h2, hv2, hp2, _, _, _⟩ := kernel1_live w1 r (mpfrRef.neg rnd2) p _ hv1
    refine ⟨w1, w2, h1, h2, ?_, hp2.trans hp1, hst1.2.1⟩
    rw [hv2]
    exact congrArg _ (refNeg_refNeg rnd1 rnd2 p v hfit)
  constructor
  · intro rnd1 rnd2
    obtain ⟨w1, w2, h1, h2, hv, hp, _⟩ := key rnd1 rnd2
    simp only [negNegR, h1, returningThis, h2, afterNew, hv, Precision, hp]
  · obtain ⟨w1, w2, h1, h2, hv, hp, hrd⟩ := key w._defaultRounding w._defaultRounding
    simp only [negNeg, Neg, h1, returningThis, hrd, h2, afterNew, hv, Precision, hp]

/-- Witness for C20: the object holding `-2.75` at 53 bits. -/
theorem neg_neg_roundtrip_witness :
    (minusTwoPointSevenFive.heap 0)._value = .live 53 (.num true 11 (-2)) ∧
    fits 53 (.num true 11 (-2)) = true ∧
    afterNew (negNegR mpfrRef minusTwoPointSevenFive 0 .TowardZero .AwayFromZero)
        (fun w2 r2 => (r2, (w2.heap r2)._value, Precision (w2.heap r2)))
        = some (0, .live 53 (.num true 11 (-2)), 53) :=
  ⟨by decide, by decide,
    (neg_neg_roundtrip minusTwoPointSevenFive 0 53 (.num true 11 (-2)) (by decide)
      (by decide)).1 .TowardZero .AwayFromZero⟩

/-- C21 (evaluation at the failing input): with `2` and `3` at precision `53` ,
`Pow(y)` is the call `Div(y, DefaultRounding)` and leaves two thirds, not eight, and so
does the operator `^` in its clone; `Pow(y, rounding)` stores what the engine's power
kernel gives for `2` and `3` . -/
theorem pow_of_object_divides :
    Pow mpfrRef twoAndThree 0 1 = Div mpfrRef twoAndThree 0 1 ∧
    after (Pow mpfrRef twoAndThree 0 1) (fun w => numericValue (w.heap 0))
      = some (.num false 6004799503160661 (-53)) ∧
    afterNew (binop mpfrRef .power twoAndThree 0 1) (fun w r => numericValue (w.heap r))
      = some (.num false 6004799503160661 (-53)) ∧
    (∀ P : EnginePowers,
      after (PowR P twoAndThree 0 1 twoAndThree._defaultRounding)
          (fun w => numericValue (w.heap 0))
        = some (P.pow .NearestTiesToEven 53 (.num false 1 1) (.num false 3 0))) ∧
    mpfrRef.pow_si .NearestTiesToEven 53 (.num false 1 1) 3 = .num false 1 3 := by
  refine ⟨rfl, by decide, by decide, fun P => ?_, by decide⟩
  rfl

/-- C22 (evaluation at the failing input): with `5` and `3` at precision `53` ,
`Dim(y)` is the call `Div(y, DefaultRounding)` and leaves five thirds, where
`Dim(y, DefaultRounding)` leaves `2` ; with `3` and `5` exchanged it leaves three
fifths, where `Dim(y, DefaultRounding)` leaves `+0` . -/
theorem dim_of_object_divides :
    Dim mpfrRef fiveAndThree 0 1 = Div mpfrRef fiveAndThree 0 1 ∧
    after (Dim mpfrRef fiveAndThree 0 1) (fun w => numericValue (w.heap 0))
      = some (.num false 7505999378950827 (-52)) ∧
    after (DimR mpfrRef fiveAndThree 0 1 fiveAndThree._defaultRounding)
      (fun w => numericValue (w.heap 0)) = some (.num false 1 1) ∧
    after (Dim mpfrRef fiveAndThree 1 0) (fun w => numericValue (w.heap 1))
      = some (.num false 5404319552844595 (-53)) ∧
    after (DimR mpfrRef fiveAndThree 1 0 fiveAndThree._defaultRounding)
      (fun w => numericValue (w.heap 1)) = some (.zero false) := by
  refine ⟨rfl, by decide, by decide, by decide, by decide⟩

/-- C23 (evaluation at the failing input): `Sqrt(9)` on an object that holds `2`
leaves `2^9 = 512` , on an object that holds `3` it leaves `3^9 = 19683` , and
`Sqrt(9, rounding)` does the same: the previous value raised to the power `9` , not
the square root `3` of `9` . -/
theorem sqrt_of_integer_raises :
    after (Sqrt_UInt64 mpfrRef twoAndThree 0 9) (fun w => numericValue (w.heap 0))
      = some (.num false 1 9) ∧
    after (Sqrt_UInt64 mpfrRef twoAndThree 1 9) (fun w => numericValue (w.heap 1))
      = some (.num false 19683 0) ∧
    after (Sqrt_UInt64R mpfrRef twoAndThree 0 9 .TowardZero) (fun w => numericValue (w.heap 0))
      = some (.num false 1 9) ∧
    after (Sqrt_UInt64R mpfrRef twoAndThree 1 9 .TowardZero) (fun w => numericValue (w.heap 1))
      = some (.num false 19683 0) ∧
    (numericValue (twoAndThree.heap 0), numericValue (twoAndThree.heap 1))
      = (.num false 1 1, .num false 3 0) := by
  decide

/-- C24 (evaluation at the failing input): on the value `300` the method `ToByte`
returns `300` , under the default and under every Rounding Directive, and on `70000`
the method `ToUInt16` returns `70000` : both are declared to return `UInt32` and return
what `ToUInt64` gives; the explicit casts to `Byte` and `UInt16` narrow these to `44`
and `4464` . -/
theorem toByte_returns_beyond_byte :
    numericValue ((holding "300").heap 0) = .num false 75 2 ∧
    resultOf (ToByte mpfrRef (holding "300") 0) = some 300 ∧
    (∀ rounding, resultOf (ToByteR mpfrRef (holding "300") 0 rounding) = some 300) ∧
    resultOf (ToUInt64 mpfrRef (holding "300") 0) = some 300 ∧
    resultOf (ToUInt16 mpfrRef (holding "70000") 0) = some 70000 ∧
    (∀ rounding, resultOf (ToUInt16R mpfrRef (holding "70000") 0 rounding) = some 70000) ∧
    resultOf (op_Explicit_Byte mpfrRef (holding "300") 0) = some 44 ∧
    resultOf (op_Explicit_UInt16 mpfrRef (holding "70000") 0) = some 4464 := by
  refine ⟨by decide, by decide, fun rounding => ?_, by decide, by decide, fun rounding => ?_,
    by decide, by decide⟩
  · cases rounding <;> decide
  · cases rounding <;> decide

/-- C25 (evaluation at the failing input): `TruncAfz` is the same engine call as
`CeilAfz` ; on `2.75` both leave `3` , where the value truncated toward zero is `2` ;
on `-2.75` , where the ceiling is the truncation, both leave `-2` . -/
theorem truncAfz_is_ceiling :
    (∀ (E : Engine) (w : World) (r : Ref), TruncAfz E w r = CeilAfz E w r) ∧
    numericValue ((holding "2.75").heap 0) = .num false 11 (-2) ∧
    after (TruncAfz mpfrRef (holding "2.75") 0) (fun w => numericValue (w.heap 0))
      = some (.num false 3 0) ∧
    after (CeilAfz mpfrRef (holding "2.75") 0) (fun w => numericValue (w.heap 0))
      = some (.num false 3 0) ∧
    truncatedTowardZero 53 (.num false 11 (-2)) = .num false 1 1 ∧
    after (TruncAfz mpfrRef (holding "-2.75") 0) (fun w => numericValue (w.heap 0))
      = some (.num true 1 1) ∧
    truncatedTowardZero 53 (.num true 11 (-2)) = .num true 1 1 := by
  refine ⟨fun _ _ _ => rfl, ?_⟩
  decide

/-- C29 (evaluation at the failing input): on the value `-5` the explicit cast to
`UInt32` returns `4294967291` , the `Int32` result `-5` of `ToInt32()` taken as
unsigned, where `ToUInt32()` returns `0` ; on `3000000000` the cast returns
`2147483647` , where `ToUInt32()` returns `3000000000` . -/
theorem cast_to_UInt32_goes_through_signed :
    numericValue ((holding "-5").heap 0) = .num true 5 0 ∧
    resultOf (op_Explicit_UInt32 mpfrRef (holding "-5") 0) = some 4294967291 ∧
    resultOf (ToInt32 mpfrRef (holding "-5") 0) = some (-5) ∧
    resultOf (ToUInt32 mpfrRef (holding "-5") 0) = some 0 ∧
    resultOf (op_Explicit_UInt32 mpfrRef (holding "3000000000") 0) = some 2147483647 ∧
    resultOf (ToUInt32 mpfrRef (holding "3000000000") 0) = some 3000000000 ∧
    resultOf (op_Explicit_UInt64 mpfrRef (holding "-5") 0) = some 0 := by
  decide

/-- C30 (evaluation at the failing input): for every object and however many calls
are paid for, a read of the property `isDisposed` returns nothing: the getter calls
itself; the field `_isDisposed` it should read is false on a new object and true
after `Dispose` . -/
theorem isDisposed_never_returns :
    (∀ (w : World) (r : Ref) (fuel : Nat), isDisposed w r fuel = none) ∧
    (fresh.heap 0)._isDisposed = false ∧
    after (Dispose fresh 0) (fun w => (w.heap 0)._isDisposed) = some true ∧
    (∀ fuel, after (Dispose fresh 0) (fun w => isDisposed w 0 fuel) = some none) := by
  have h : ∀ (w : World) (r : Ref) (fuel : Nat), isDisposed w r fuel = none := by
    intro w r fuel
    induction fuel with
    | zero => rfl
    | succ n ih => exact ih
  refine ⟨h, by decide, by decide, fun fuel => ?_⟩
  have hf : (fun w : World => isDisposed w 0 fuel) = fun _ => none :=
    funext (fun w => h w 0 fuel)
  rw [hf]
  decide

/-- The setter of `Precision` on an object that is not released returns, and
`Precision` then reads the low 32 bits of the precision given, taken as a signed
integer and widened to `UInt64` . -/
theorem setPrecision_reads (w : World) (r : Ref) (q : Nat)
    (hr : (w.heap r)._value ≠ .released) :
    after (SetPrecision w r q) (fun w1 => Precision (w1.heap r)) = some (toUInt64 (toLong q)) := by
  unfold SetPrecision setPrecision
  by_cases h : Precision (w.heap r) ≠ q
  · rw [if_pos h]
    cases hs : (w.heap r)._value with
    | released => exact absurd hs hr
    | null => simp [after, World.update, hs, Precision, toInt32]
    | live p0 v =>
        simp [after, World.update, hs, value, mpfr_set_prec, deref, World.setStorage,
          World.called, Precision, toInt32]
  · rw [if_neg h]
    have hq : Precision (w.heap r) = q := not_not.mp h
    simp only [after]
    rw [← hq]
    unfold Precision
    rw [toLong_toUInt64]

/-- The sign extension of the low 32 bits of a 64-bit precision is that precision
exactly when it is below `2^31` or not below `2^64 - 2^31` . -/
theorem toUInt64_toLong_iff (q : Nat) (hq : q < 18446744073709551616) :
    toUInt64 (toLong q) = q ↔ (q < 2147483648 ∨ 18446744071562067968 ≤ q) := by
  unfold toUInt64 toLong
  split <;> omega

/-- C27 (counterexample): after `SetPrecision(2^31)` on a new object, whose storage is
not allocated, and after `Create(2^31)` , the getter `Precision` returns `2^64 - 2^31` ;
after `SetPrecision(2^32 + 64)` , on the new object and on an object holding `1` at
precision `8` , it returns `64` ; after `DefaultPrecision` is set to `2^32 + 64` its
getter returns `64` .  In each case the engine is not called, or is handed the
precision `64` . -/
theorem precision_not_read_back_from_2_31 :
    (fresh.heap 0)._value = .null ∧
    after (SetPrecision fresh 0 2147483648) (fun w => (Precision (w.heap 0), (w.heap 0)._value))
      = some (18446744071562067968, .null) ∧
    afterNew (CreateP World.init 2147483648) (fun w r => (Precision (w.heap r), (w.heap r)._value))
      = some (18446744071562067968, .null) ∧
    after (SetPrecision fresh 0 4294967360) (fun w => (Precision (w.heap 0), (w.heap 0)._value))
      = some (64, .null) ∧
    after (SetPrecision oneAt8 0 4294967360) (fun w => (Precision (w.heap 0), (w.heap 0)._value))
      = some (64, .live 64 .nan) ∧
    DefaultPrecision (setDefaultPrecision World.init 4294967360) = 64 ∧
    toLong 4294967360 = 64 ∧ enginePrecision 64 = true ∧
    (18446744071562067968 : Nat) ≠ 2147483648 ∧ (64 : Nat) ≠ 4294967360 := by
  decide

/-- C27 (as amended): for every 64-bit precision `q` , after `SetPrecision(q)` on an
object whose storage is not allocated, and after `Create(q)` , the getter `Precision`
returns the low 32 bits of `q` taken as a signed integer and widened to `UInt64` , and
nothing is allocated.  When the engine accepts that 32-bit value as a precision (from
`MPFR_PREC_MIN` to `MPFR_PREC_MAX` ), the same is returned after `SetPrecision(q)` on any
object that is not released and after a constructor given `q` , and by the getter
`DefaultPrecision` after the setter is given `q` .  The value returned is `q` exactly
when `q` is below `2^31` or not below `2^64 - 2^31` . -/
theorem precision_read_back (E : Engine) (w : World) (r : Ref) (q : Nat)
    (hq : q < 18446744073709551616) (hr : (w.heap r)._value ≠ .released) :
    ((w.heap r)._value = .null →
      after (SetPrecision w r q) (fun w1 => (Precision (w1.heap r), (w1.heap r)._value))
        = some (toUInt64 (toLong q), .null)) ∧
    afterNew (CreateP w q) (fun w1 n => (Precision (w1.heap n), (w1.heap n)._value))
      = some (toUInt64 (toLong q), .null) ∧
    (enginePrecision (toLong q) = true →
      after (SetPrecision w r q) (fun w1 => Precision (w1.heap r)) = some (toUInt64 (toLong q)) ∧
      (∀ v, newPrecision (newInt64 E w v q) = some (toUInt64 (toLong q))) ∧
      (∀ v, newPrecision (newUInt64 E w v q) = some (toUInt64 (toLong q))) ∧
      (∀ s base, newPrecision (newString E w s base q) = some (toUInt64 (toLong q))) ∧
      DefaultPrecision (setDefaultPrecision w q) = toUInt64 (toLong q)) ∧
    (toUInt64 (toLong q) = q ↔ (q < 2147483648 ∨ 18446744071562067968 ≤ q)) := by
  have hc : ∀ f : Int → MpfrVal → MpfrVal,
      newPrecision (ctorWith w q f) = some (toUInt64 (toLong q)) := by
    intro f
    obtain ⟨w2, h2, hp⟩ := ctor_precision w q f
    rw [h2]
    simp only [newPrecision, afterNew, Precision]
    rw [hp]
    rfl
  have e1 : ∀ v, newInt64 E w v q
      = ctorWith w q (fun p _ => E.set_si p (longOfInt64 v)) := fun _ => rfl
  have e2 : ∀ v, newUInt64 E w v q
      = ctorWith w q (fun p _ => E.set_ui p (toULong v)) := fun _ => rfl
  have e3 : ∀ s base, newString E w s base q
      = ctorWith w q (fun p v => (E.set_str p v s 10).2) := fun _ _ => rfl
  refine ⟨?_, ?_, fun _ => ⟨setPrecision_reads w r q hr, fun v => by rw [e1]; exact hc _,
    fun v => by rw [e2]; exact hc _, fun s base => by rw [e3]; exact hc _, rfl⟩,
    toUInt64_toLong_iff q hq⟩
  · intro hnull
    obtain ⟨w1, h1, hh, _⟩ := setPrecision_null_spec w r q hnull
    rw [h1]
    simp only [after, Precision]
    rw [hh]
    rfl
  · obtain ⟨w1, h1, hh, _⟩ := createP_spec w q
    rw [h1]
    simp only [afterNew, Precision]
    rw [hh]
    rfl

/-- Witness for C27 as amended: a new object set to precision `64` reads `64` . -/
theorem precision_read_back_witness :
    (64 : Nat) < 18446744073709551616 ∧ (fresh.heap 0)._value ≠ .released ∧
    enginePrecision (toLong 64) = true ∧
    after (SetPrecision fresh 0 64) (fun w1 => Precision (w1.heap 0)) = some 64 ∧
    (toUInt64 (toLong 64) = 64 ↔ ((64 : Nat) < 2147483648 ∨ 18446744071562067968 ≤ 64)) :=
  ⟨by decide, by decide, by decide, by decide,
    (precision_read_back mpfrRef fresh 0 64 (by decide) (by decide)).2.2.2⟩

/-- The reference engine on small inputs: conversions, exact and rounded quotients,
ties to even at two bits, and the fractional part. -/
theorem reference_engine_checks :
    ilog2 7 = 2 ∧ stripTwos 4 12 0 = (3, 2) ∧ mkNum false 12 0 = .num false 3 2 ∧
    refSetSi 53 7 = .num false 7 0 ∧
    refDiv .NearestTiesToEven 53 (.num false 7 0) (.num false 1 1) = .num false 7 (-1) ∧
    refFrac .NearestTiesToEven 53 (.num false 7 (-1)) = .num false 1 (-1) ∧
    refDiv .NearestTiesToEven 4 (.num false 1 0) (.num false 3 0) = .num false 11 (-5) ∧
    refAdd .NearestTiesToEven 53 (.num false 1 0) (.num true 1 0) = .zero false ∧
    refSetSi 2 7 = .num false 1 3 ∧ refSetSi 2 5 = .num false 1 2 ∧
    refModf .NearestTiesToEven 53 53 (.num false 11 (-2))
      = (.num false 1 1, .num false 3 (-2)) ∧
    toLong 4294967301 = 5 ∧ toUInt64 (-2147483648) = 18446744071562067968 := by
  decide

/-- The reference parser and the exact comparison on small inputs. -/
theorem reference_parser_checks :
    refSetStr 53 .nan "ff" 16 = (0, .num false 255 0) ∧
    refSetStr 53 .nan "10" 2 = (0, .num false 1 1) ∧
    refSetStr 53 .nan "10" 10 = (0, .num false 5 1) ∧
    refSetStr 53 .nan "ff" 10 = (-1, .zero false) ∧
    refSetStr 53 .nan "2.75" 10 = (0, .num false 11 (-2)) ∧
    refSetStr 53 .nan "-1.5e2" 10 = (0, .num true 75 1) ∧
    refSetStr 53 .nan "12abc" 10 = (-1, .num false 3 2) ∧
    mpfr_cmp (.zero false) (.zero true) = 0 ∧
    mpfr_cmp (.num false 11 (-2)) (.num false 3 0) = -1 ∧
    mpfr_cmp (.inf true) (.num true 1 100) = -1 := by
  decide

end MpfrNET
